import Mathlib

/-!
# CBOR codec driver (`vendor/github.com/ugorji/go/codec/cbor.go`)

A shallow embedding of the encoder driver `cborEncDriver` and the decoder driver
`cborDecDriver`, followed by theorems about them.

Conventions of the embedding:

* a byte is a `Nat` below 256, a `uint64` a `Nat` below `2^64`, an `int64` (and the
  64-bit `int`) an `Int` in `[-2^63, 2^63)`; every conversion or operation of the
  source that can wrap is written with an explicit `%`;
* the encoder threads the output sink: every method returns the driver with the bytes
  appended to `w`;
* the decoder is a state passing function `cborDecDriver → Except DecErr α × cborDecDriver`;
  a Go panic raised by `d.d.errorf` (or by the reader at end of input) is the `error`
  result, returned together with the driver state at the moment of the panic;
* loops of the source are structural recursions on a fuel that is computed from the
  data at loop entry (number of unread bytes, payload length).
-/

namespace Cbor

/-! ## Constants -/

def cborMajorUint : Nat := 0
def cborMajorNegInt : Nat := 1
def cborMajorBytes : Nat := 2
def cborMajorString : Nat := 3
def cborMajorArray : Nat := 4
def cborMajorMap : Nat := 5
def cborMajorTag : Nat := 6
def cborMajorSimpleOrFloat : Nat := 7

def cborBdFalse : Nat := 0xf4
def cborBdTrue : Nat := 0xf5
def cborBdNil : Nat := 0xf6
def cborBdUndefined : Nat := 0xf7
def cborBdExt : Nat := 0xf8
def cborBdFloat16 : Nat := 0xf9
def cborBdFloat32 : Nat := 0xfa
def cborBdFloat64 : Nat := 0xfb

def cborBdIndefiniteBytes : Nat := 0x5f
def cborBdIndefiniteString : Nat := 0x7f
def cborBdIndefiniteArray : Nat := 0x9f
def cborBdIndefiniteMap : Nat := 0xbf
def cborBdBreak : Nat := 0xff

def cborBaseUint : Nat := 0x00
def cborBaseNegInt : Nat := 0x20
def cborBaseBytes : Nat := 0x40
def cborBaseString : Nat := 0x60
def cborBaseArray : Nat := 0x80
def cborBaseMap : Nat := 0xa0
def cborBaseTag : Nat := 0xc0
def cborBaseSimple : Nat := 0xe0

/-! ## Machine integers -/

/-- Largest `uint8`, Go's `math.MaxUint8`. -/
def MaxUint8 : Nat := 0xFF
/-- Largest `uint16`, Go's `math.MaxUint16`. -/
def MaxUint16 : Nat := 0xFFFF
/-- Largest `uint32`, Go's `math.MaxUint32`. -/
def MaxUint32 : Nat := 0xFFFFFFFF
/-- Largest `int64`, Go's `math.MaxInt64`. -/
def MaxInt64 : Int := 2 ^ 63 - 1
/-- Smallest `int64`, Go's `math.MinInt64`. -/
def MinInt64 : Int := -(2 ^ 63)

/-- Two's complement wrap of a mathematical integer into `int64`: the result of any
`int64` arithmetic, and of the conversions `int64(x)`, `int(x)` on a 64-bit platform. -/
def wrapInt64 (x : Int) : Int := (x + 2 ^ 63) % 2 ^ 64 - 2 ^ 63

/-- Conversion `uint64(x)` of a signed 64-bit value. -/
def toUint64 (x : Int) : Nat := (x % 2 ^ 64).toNat

/-- Big-endian value of a byte sequence: `bigen.Uint16`, `bigen.Uint32`, `bigen.Uint64`
on 2, 4 and 8 bytes. -/
def bigenUint (bs : List Nat) : Nat := bs.foldl (fun acc b => acc * 256 + b) 0

/-- The `n` big-endian bytes of `v` (`bigen.PutUint16/32/64` for `n = 2, 4, 8`),
most significant first. -/
def bigenPut : Nat → Nat → List Nat
  | 0, _ => []
  | n + 1, v => bigenPut n (v / 256) ++ [v % 256]

/-! ## Handle -/

/-- Configuration handle: the fields of `CborHandle` that the drivers read. -/
structure CborHandle where
  IndefiniteLength : Bool
  TimeRFC3339 : Bool
  SkipUnexpectedTags : Bool
deriving DecidableEq

/-! ## Encoder driver -/

/-- Encoder driver: `w` holds the bytes written to the sink so far, in order. -/
structure cborEncDriver where
  w : List Nat
  h : CborHandle
deriving DecidableEq

/-- Modelled from the spec: `encWriterSwitch.writen1` of the byte-stream transport, which
is not part of this file of the repository ("write N bytes"); appends one byte. -/
def cborEncDriver.writen1 (e : cborEncDriver) (b : Nat) : cborEncDriver :=
  { e with w := e.w ++ [b] }

/-- Modelled from the spec: `encWriterSwitch.writen2` of the byte-stream transport;
appends two bytes. -/
def cborEncDriver.writen2 (e : cborEncDriver) (b1 b2 : Nat) : cborEncDriver :=
  { e with w := e.w ++ [b1, b2] }

/-- Modelled from the spec: `encWriterSwitch.writestr` of the byte-stream transport;
appends the bytes of a string. -/
def cborEncDriver.writestr (e : cborEncDriver) (v : List Nat) : cborEncDriver :=
  { e with w := e.w ++ v }

/-- Modelled from the spec: `bigenHelper.writeUint16`, big-endian 2-byte write. -/
def cborEncDriver.writeUint16 (e : cborEncDriver) (v : Nat) : cborEncDriver :=
  { e with w := e.w ++ bigenPut 2 v }

/-- Modelled from the spec: `bigenHelper.writeUint32`, big-endian 4-byte write. -/
def cborEncDriver.writeUint32 (e : cborEncDriver) (v : Nat) : cborEncDriver :=
  { e with w := e.w ++ bigenPut 4 v }

/-- Modelled from the spec: `bigenHelper.writeUint64`, big-endian 8-byte write. -/
def cborEncDriver.writeUint64 (e : cborEncDriver) (v : Nat) : cborEncDriver :=
  { e with w := e.w ++ bigenPut 8 v }

/-- Source `cborEncDriver.EncodeNil`. -/
def cborEncDriver.EncodeNil (e : cborEncDriver) : cborEncDriver :=
  e.writen1 cborBdNil

/-- Source `cborEncDriver.EncodeBool`. -/
def cborEncDriver.EncodeBool (e : cborEncDriver) (b : Bool) : cborEncDriver :=
  if b then e.writen1 cborBdTrue else e.writen1 cborBdFalse

/-- Source `cborEncDriver.EncodeFloat32`. The `float32` is given by its IEEE-754 bit
pattern `f`, a `uint32`, so `math.Float32bits` is the identity. -/
def cborEncDriver.EncodeFloat32 (e : cborEncDriver) (f : Nat) : cborEncDriver :=
  (e.writen1 cborBdFloat32).writeUint32 f

/-- Source `cborEncDriver.EncodeFloat64`. The `float64` is given by its IEEE-754 bit
pattern `f`, a `uint64`, so `math.Float64bits` is the identity. -/
def cborEncDriver.EncodeFloat64 (e : cborEncDriver) (f : Nat) : cborEncDriver :=
  (e.writen1 cborBdFloat64).writeUint64 f

/-- Source `cborEncDriver.encUint`; `v` is a `uint64`, `bd` a byte. `byte(v) + bd` and
`bd + 0x18` are byte additions, `uint8(v)`, `uint16(v)`, `uint32(v)` truncations. -/
def cborEncDriver.encUint (e : cborEncDriver) (v : Nat) (bd : Nat) : cborEncDriver :=
  if v ≤ 0x17 then
    e.writen1 ((v % 256 + bd) % 256)
  else if v ≤ MaxUint8 then
    e.writen2 ((bd + 0x18) % 256) (v % 256)
  else if v ≤ MaxUint16 then
    (e.writen1 ((bd + 0x19) % 256)).writeUint16 (v % 2 ^ 16)
  else if v ≤ MaxUint32 then
    (e.writen1 ((bd + 0x1a) % 256)).writeUint32 (v % 2 ^ 32)
  else
    (e.writen1 ((bd + 0x1b) % 256)).writeUint64 v

/-- Source `cborEncDriver.EncodeInt`; `v` is an `int64`. -/
def cborEncDriver.EncodeInt (e : cborEncDriver) (v : Int) : cborEncDriver :=
  if v < 0 then
    e.encUint (toUint64 (wrapInt64 (-1 - v))) cborBaseNegInt
  else
    e.encUint (toUint64 v) cborBaseUint

/-- Source `cborEncDriver.EncodeUint`. -/
def cborEncDriver.EncodeUint (e : cborEncDriver) (v : Nat) : cborEncDriver :=
  e.encUint v cborBaseUint

/-- Source `cborEncDriver.encLen`; `length` is an `int`. -/
def cborEncDriver.encLen (e : cborEncDriver) (bd : Nat) (length : Int) : cborEncDriver :=
  e.encUint (toUint64 length) bd

/-- Source `cborEncDriver.WriteArrayStart`. -/
def cborEncDriver.WriteArrayStart (e : cborEncDriver) (length : Int) : cborEncDriver :=
  if e.h.IndefiniteLength then e.writen1 cborBdIndefiniteArray
  else e.encLen cborBaseArray length

/-- Source `cborEncDriver.WriteMapStart`. -/
def cborEncDriver.WriteMapStart (e : cborEncDriver) (length : Int) : cborEncDriver :=
  if e.h.IndefiniteLength then e.writen1 cborBdIndefiniteMap
  else e.encLen cborBaseMap length

/-- Source `cborEncDriver.WriteMapEnd`. -/
def cborEncDriver.WriteMapEnd (e : cborEncDriver) : cborEncDriver :=
  if e.h.IndefiniteLength then e.writen1 cborBdBreak else e

/-- Source `cborEncDriver.WriteArrayEnd`. -/
def cborEncDriver.WriteArrayEnd (e : cborEncDriver) : cborEncDriver :=
  if e.h.IndefiniteLength then e.writen1 cborBdBreak else e

/-- The chunk loop of `encStringBytesS` (`for i := uint(0); i < vlen; ...`), started
at index `i`. Every iteration advances `i` by `blen`, so `vlen` iterations of fuel are
never used up when `blen` is positive. -/
def cborEncDriver.encStringBytesSLoop (bb : Nat) (v : List Nat) (vlen blen : Nat) :
    Nat → Nat → cborEncDriver → cborEncDriver
  | 0, _, e => e
  | fuel + 1, i, e =>
    if i < vlen then
      let i2 := i + blen
      let v2 := if i2 < vlen then (v.drop i).take (i2 - i) else v.drop i
      encStringBytesSLoop bb v vlen blen fuel i2 ((e.encLen bb v2.length).writestr v2)
    else e

/-- Source `cborEncDriver.encStringBytesS`; `v` is the payload as its bytes. -/
def cborEncDriver.encStringBytesS (e : cborEncDriver) (bb : Nat) (v : List Nat) :
    cborEncDriver :=
  if e.h.IndefiniteLength then
    let e1 := if bb = cborBaseBytes then e.writen1 cborBdIndefiniteBytes
              else e.writen1 cborBdIndefiniteString
    let vlen := v.length
    let blen := vlen / 4
    let blen := if blen = 0 then 64 else if blen > 1024 then 1024 else blen
    let e2 := cborEncDriver.encStringBytesSLoop bb v vlen blen vlen 0 e1
    e2.writen1 cborBdBreak
  else
    (e.encLen bb v.length).writestr v

/-- Source `cborEncDriver.EncodeStringEnc`. -/
def cborEncDriver.EncodeStringEnc (e : cborEncDriver) (v : List Nat) : cborEncDriver :=
  e.encStringBytesS cborBaseString v

/-- Source `cborEncDriver.EncodeStringBytesRaw`; `none` is the nil slice. -/
def cborEncDriver.EncodeStringBytesRaw (e : cborEncDriver) (v : Option (List Nat)) :
    cborEncDriver :=
  match v with
  | none => e.EncodeNil
  | some bs => e.encStringBytesS cborBaseBytes bs

/-- Source `CborHandle.newEncDriver`: a driver bound to an empty sink. -/
def CborHandle.newEncDriver (h : CborHandle) : cborEncDriver :=
  { w := [], h := h }

/-! ## Decoder driver -/

/-- Errors of a decode: the panics raised through `d.d.errorf`, by the overflow checks
`chkOvf`, by the reader at the end of the input, and by the Go run time. -/
inductive DecErr where
  /-- The reader has fewer unread bytes than were requested. -/
  | eof
  /-- Source `decUint`: "invalid descriptor decoding uint". -/
  | invalidDescriptor (bd : Nat)
  /-- Source `decCheckInteger`: "invalid integer; got major ...". -/
  | invalidInteger (major bd : Nat)
  /-- Source `DecodeUint64`: "cannot assign negative signed value to unsigned type". -/
  | negativeToUnsigned
  /-- Range error of an overflow-checked conversion (`chkOvf`). -/
  | overflow (v : Nat)
  /-- Source `DecodeBool`: "not bool". -/
  | notBool (bd : Nat)
  /-- Source `ReadMapStart`: "error reading map; got major type ...". -/
  | notMap (major : Nat)
  /-- Source `ReadArrayStart`: "error reading array; got major type ...". -/
  | notArray (major : Nat)
  /-- Source `decAppendIndefiniteBytes`: "error reading indefinite string/bytes". -/
  | badChunk (major bd : Nat)
  /-- Go run-time panic: a slice or allocation with a negative length. -/
  | negativeLength (n : Int)
  /-- An embedded loop used up its fuel; no run reaches this. -/
  | outOfFuel
  /-- Source `DecodeFloat64`: "float only valid from float16/32/64". -/
  | notFloat (bd : Nat)
  /-- Source `DecodeTime`, `DecodeExt`: "error reading tag; expected major type ...". -/
  | notTag (major : Nat)
  /-- Source `decodeTime`: "invalid tag for time.Time - expecting 0 or 1". -/
  | invalidTimeTag (xtag : Nat)
  /-- Source `decodeTime`: the text is not an RFC3339 timestamp (`d.d.errorv(err)`). -/
  | timeParse
  /-- Source `DecodeNaked`: "decodeNaked: Unrecognized d.bd". -/
  | nakedUnrecognized (bd : Nat)
deriving DecidableEq

/-- Modelled from the spec: the byte-stream transport `decReaderSwitch` ("read next N
bytes", "read exactly one byte"), which is not part of this file of the repository.
`rest` is the unread input, `past` the bytes already read, most recent first (kept for
`unreadn1`). -/
structure decReader where
  past : List Nat
  rest : List Nat
deriving DecidableEq

/-- Decoder driver `cborDecDriver`: the configuration handle, the reader, the
bytes-reader flag `br`, the descriptor cache (`bdRead`, `bd`) and the skip-tags flag. -/
structure cborDecDriver where
  h : CborHandle
  r : decReader
  br : Bool
  bdRead : Bool
  bd : Nat
  st : Bool
deriving DecidableEq

/-- A decoder method: from a driver state to a result (value or panic) and the driver
state afterwards. -/
def DecM (α : Type) : Type := cborDecDriver → Except DecErr α × cborDecDriver

instance : Monad DecM where
  pure a := fun d => (Except.ok a, d)
  bind m f := fun d =>
    match m d with
    | (Except.ok a, d1) => f a d1
    | (Except.error err, d1) => (Except.error err, d1)

/-- Read the driver state. -/
def getD : DecM cborDecDriver := fun d => (Except.ok d, d)

/-- Update the driver state. -/
def modifyD (f : cborDecDriver → cborDecDriver) : DecM Unit := fun d => (Except.ok (), f d)

/-- Source `d.d.errorf(...)`: panic, leaving the driver as it is. -/
def errorf {α : Type} (err : DecErr) : DecM α := fun d => (Except.error err, d)

/-- Propagate the panic of a pure helper. -/
def liftExcept {α : Type} (x : Except DecErr α) : DecM α := fun d => (x, d)

/-- Modelled from the spec: `decReaderSwitch.readn1`, "read exactly one byte"; panics at
the end of the input. -/
def readn1 : DecM Nat := fun d =>
  match d.r.rest with
  | [] => (Except.error DecErr.eof, d)
  | b :: t => (Except.ok b, { d with r := { past := b :: d.r.past, rest := t } })

/-- Modelled from the spec: `decReaderSwitch.readx` and `readb`, "read next N bytes";
panics when fewer than `n` bytes are unread. -/
def readx (n : Nat) : DecM (List Nat) := fun d =>
  if n ≤ d.r.rest.length then
    (Except.ok (d.r.rest.take n),
      { d with r := { past := (d.r.rest.take n).reverse ++ d.r.past, rest := d.r.rest.drop n } })
  else (Except.error DecErr.eof, d)

/-- Modelled from the spec: the slice that `readx` of a bytes reader hands back to a
zero-copy caller, a view of the `n` bytes read ("read next N bytes"); the reader is not
part of this file of the repository. For a request of zero bytes it is the nil slice
(`none`). -/
def readxSlice (n : Nat) : DecM (Option (List Nat)) := do
  let out ← readx n
  pure (if n = 0 then none else some out)

/-- Modelled from the spec: `decReaderSwitch.unreadn1`, which steps the reader back by
the one byte read last. -/
def unreadn1 : DecM Unit := fun d =>
  match d.r.past with
  | [] => (Except.ok (), d)
  | b :: p => (Except.ok (), { d with r := { past := p, rest := b :: d.r.rest } })

/-- Modelled from the spec: `chkOvf.SignedIntV` of the shared support code, which is not
part of this file of the repository, the "overflow-checked numeric conversion" of a
`uint64` to `int64`. As the program links it, its check `chkOvf.SignedInt` compares the
low 63 bits of the value with the bound of the sign that the top bit gives, so that the
range error is raised for `2^64-1` alone; every other value is converted with
`int64(v)`, a two's complement conversion. -/
def SignedIntV (v : Nat) : Except DecErr Int :=
  if v = 2 ^ 64 - 1 then Except.error (DecErr.overflow v) else Except.ok (wrapInt64 (v : Int))

/-- Modelled from the spec: `chkOvf.UintV` of the shared support code, which is not part
of this file of the repository: the overflow-checked conversion of a `uint64` to an
unsigned target of `bitsize` bits, failing with a range error when the value does not
fit. -/
def UintV (v : Nat) (bitsize : Nat) : Except DecErr Nat :=
  if bitsize < 64 ∧ 2 ^ bitsize ≤ v then Except.error (DecErr.overflow v) else Except.ok v

/-- Source `CborHandle.newDecDriver`: a driver over the input `input`, nothing read. -/
def CborHandle.newDecDriver (h : CborHandle) (br : Bool) (input : List Nat) : cborDecDriver :=
  { h := h, r := { past := [], rest := input }, br := br, bdRead := false, bd := 0,
    st := h.SkipUnexpectedTags }

/-- Source `cborDecDriver.reset`, the reader being rebound to `input`. -/
def cborDecDriver.reset (d : cborDecDriver) (br : Bool) (input : List Nat) : cborDecDriver :=
  { d with r := { past := [], rest := input }, br := br, bd := 0, bdRead := false,
           st := d.h.SkipUnexpectedTags }

/-- Source `cborDecDriver.readNextBd`. -/
def cborDecDriver.readNextBd : DecM Unit := do
  let b ← readn1
  modifyD fun d => { d with bd := b, bdRead := true }

/-- The opening statement of every decode primitive: `if !d.bdRead { d.readNextBd() }`. -/
def cborDecDriver.ensureBd : DecM Unit := do
  let d ← getD
  if !d.bdRead then cborDecDriver.readNextBd else pure ()

/-- Source `cborDecDriver.decUint`. -/
def cborDecDriver.decUint : DecM Nat := do
  let d ← getD
  let v := d.bd &&& 0x1f
  if v ≤ 0x17 then pure v
  else if v = 0x18 then readn1
  else if v = 0x19 then do
    let bs ← readx 2
    pure (bigenUint bs)
  else if v = 0x1a then do
    let bs ← readx 4
    pure (bigenUint bs)
  else if v = 0x1b then do
    let bs ← readx 8
    pure (bigenUint bs)
  else errorf (DecErr.invalidDescriptor d.bd)

/-- The loop of `skipTags`, `for d.bd>>5 == cborMajorTag { d.decUint(); d.bd = d.r.readn1() }`.
Every iteration reads at least one byte, so a fuel above the number of unread bytes is
never used up. -/
def cborDecDriver.skipTagsLoop : Nat → DecM Unit
  | 0 => errorf DecErr.outOfFuel
  | fuel + 1 => do
    let d ← getD
    if d.bd >>> 5 = cborMajorTag then do
      let _ ← cborDecDriver.decUint
      let b ← readn1
      modifyD fun d => { d with bd := b }
      skipTagsLoop fuel
    else pure ()

/-- Source `cborDecDriver.skipTags`. -/
def cborDecDriver.skipTags : DecM Unit := do
  let d ← getD
  cborDecDriver.skipTagsLoop (d.r.rest.length + 1)

/-- The statement `if d.st { d.skipTags() }`. -/
def cborDecDriver.skipTagsIfSt : DecM Unit := do
  let d ← getD
  if d.st then cborDecDriver.skipTags else pure ()

/-- Source `cborDecDriver.uncacheRead`. -/
def cborDecDriver.uncacheRead : DecM Unit := do
  let d ← getD
  if d.bdRead then do
    unreadn1
    modifyD fun d => { d with bdRead := false }
  else pure ()

/-- Value types reported by `ContainerType`. -/
inductive valueType where
  | valueTypeUnset | valueTypeNil | valueTypeBytes | valueTypeString
  | valueTypeArray | valueTypeMap
  | valueTypeInt | valueTypeUint | valueTypeFloat | valueTypeBool
  | valueTypeTime | valueTypeExt
deriving DecidableEq

/-- Source `cborDecDriver.ContainerType`. -/
def cborDecDriver.ContainerType : DecM valueType := do
  cborDecDriver.ensureBd
  cborDecDriver.skipTagsIfSt
  let d ← getD
  if d.bd = cborBdNil then pure valueType.valueTypeNil
  else if d.bd = cborBdIndefiniteBytes ∨ d.bd >>> 5 = cborMajorBytes then
    pure valueType.valueTypeBytes
  else if d.bd = cborBdIndefiniteString ∨ d.bd >>> 5 = cborMajorString then
    pure valueType.valueTypeString
  else if d.bd = cborBdIndefiniteArray ∨ d.bd >>> 5 = cborMajorArray then
    pure valueType.valueTypeArray
  else if d.bd = cborBdIndefiniteMap ∨ d.bd >>> 5 = cborMajorMap then
    pure valueType.valueTypeMap
  else pure valueType.valueTypeUnset

/-- Source `cborDecDriver.TryDecodeAsNil`. -/
def cborDecDriver.TryDecodeAsNil : DecM Bool := do
  cborDecDriver.ensureBd
  let d ← getD
  if d.bd = cborBdNil ∨ d.bd = cborBdUndefined then do
    modifyD fun d => { d with bdRead := false }
    pure true
  else pure false

/-- Source `cborDecDriver.CheckBreak`. -/
def cborDecDriver.CheckBreak : DecM Bool := do
  cborDecDriver.ensureBd
  let d ← getD
  if d.bd = cborBdBreak then do
    modifyD fun d => { d with bdRead := false }
    pure true
  else pure false

/-- Source `cborDecDriver.decCheckInteger`. -/
def cborDecDriver.decCheckInteger : DecM Bool := do
  cborDecDriver.ensureBd
  cborDecDriver.skipTagsIfSt
  let d ← getD
  let major := d.bd >>> 5
  if major = cborMajorUint then pure false
  else if major = cborMajorNegInt then pure true
  else errorf (DecErr.invalidInteger major d.bd)

/-- Source `cborDecInt64`: `ui + 1` is a `uint64` addition, the negation an `int64`
negation. -/
def cborDecInt64 (ui : Nat) (neg : Bool) : Except DecErr Int :=
  if neg then
    match SignedIntV ((ui + 1) % 2 ^ 64) with
    | Except.ok x => Except.ok (wrapInt64 (-x))
    | Except.error err => Except.error err
  else SignedIntV ui

/-- Source `cborDecDriver.DecodeInt64`. -/
def cborDecDriver.DecodeInt64 : DecM Int := do
  let neg ← cborDecDriver.decCheckInteger
  let ui ← cborDecDriver.decUint
  modifyD fun d => { d with bdRead := false }
  liftExcept (cborDecInt64 ui neg)

/-- Source `cborDecDriver.DecodeUint64`. -/
def cborDecDriver.DecodeUint64 : DecM Nat := do
  let neg ← cborDecDriver.decCheckInteger
  if neg then errorf DecErr.negativeToUnsigned
  else do
    let ui ← cborDecDriver.decUint
    modifyD fun d => { d with bdRead := false }
    pure ui

/-- Source `cborDecDriver.DecodeBool`. -/
def cborDecDriver.DecodeBool : DecM Bool := do
  cborDecDriver.ensureBd
  cborDecDriver.skipTagsIfSt
  let d ← getD
  if d.bd = cborBdTrue then do
    modifyD fun d => { d with bdRead := false }
    pure true
  else if d.bd = cborBdFalse then do
    modifyD fun d => { d with bdRead := false }
    pure false
  else errorf (DecErr.notBool d.bd)

/-- Source `cborDecDriver.decLen`: `int(d.decUint())`. -/
def cborDecDriver.decLen : DecM Int := do
  let ui ← cborDecDriver.decUint
  pure (wrapInt64 (ui : Int))

/-- Source `cborDecDriver.ReadMapStart`. -/
def cborDecDriver.ReadMapStart : DecM Int := do
  cborDecDriver.ensureBd
  cborDecDriver.skipTagsIfSt
  modifyD fun d => { d with bdRead := false }
  let d ← getD
  if d.bd = cborBdIndefiniteMap then pure (-1)
  else if d.bd >>> 5 ≠ cborMajorMap then errorf (DecErr.notMap (d.bd >>> 5))
  else cborDecDriver.decLen

/-- Source `cborDecDriver.ReadArrayStart`. -/
def cborDecDriver.ReadArrayStart : DecM Int := do
  cborDecDriver.ensureBd
  cborDecDriver.skipTagsIfSt
  modifyD fun d => { d with bdRead := false }
  let d ← getD
  if d.bd = cborBdIndefiniteArray then pure (-1)
  else if d.bd >>> 5 ≠ cborMajorArray then errorf (DecErr.notArray (d.bd >>> 5))
  else cborDecDriver.decLen

/-- The loop of `decAppendIndefiniteBytes`, `for !d.CheckBreak() { ... }`, with the bytes
accumulated so far. A negative chunk length `n` makes `bs[oldLen:newLen]` panic. Every
iteration reads at least the chunk descriptor, so a fuel above the number of unread
bytes is never used up. -/
def cborDecDriver.decAppendIndefiniteBytesLoop : Nat → List Nat → DecM (List Nat)
  | 0, _ => errorf DecErr.outOfFuel
  | fuel + 1, bs => do
    let brk ← cborDecDriver.CheckBreak
    if brk then pure bs
    else do
      let d ← getD
      let major := d.bd >>> 5
      if major ≠ cborMajorBytes ∧ major ≠ cborMajorString then
        errorf (DecErr.badChunk major d.bd)
      else do
        let n ← cborDecDriver.decLen
        if n < 0 then errorf (DecErr.negativeLength n)
        else do
          let chunk ← readx n.toNat
          modifyD fun d => { d with bdRead := false }
          decAppendIndefiniteBytesLoop fuel (bs ++ chunk)

/-- Source `cborDecDriver.decAppendIndefiniteBytes`; `bs` is the content of the slice
appended to. -/
def cborDecDriver.decAppendIndefiniteBytes (bs : List Nat) : DecM (List Nat) := do
  modifyD fun d => { d with bdRead := false }
  let d ← getD
  let out ← cborDecDriver.decAppendIndefiniteBytesLoop (d.r.rest.length + 1) bs
  modifyD fun d => { d with bdRead := false }
  pure out

/-- The loop of the indefinite-length array path of `DecodeBytes`,
`for !d.CheckBreak() { bs = append(bs, uint8(chkOvf.UintV(d.DecodeUint64(), 8))) }`. -/
def cborDecDriver.decodeBytesArrayBreakLoop : Nat → List Nat → DecM (List Nat)
  | 0, _ => errorf DecErr.outOfFuel
  | fuel + 1, bs => do
    let brk ← cborDecDriver.CheckBreak
    if brk then pure bs
    else do
      let u ← cborDecDriver.DecodeUint64
      let b ← liftExcept (UintV u 8)
      decodeBytesArrayBreakLoop fuel (bs ++ [b % 256])

/-- The loop of the definite-length array path of `DecodeBytes`,
`for i := 0; i < slen; i++ { bs[i] = uint8(chkOvf.UintV(d.DecodeUint64(), 8)) }`, with
the number of elements still to read and the elements stored so far. -/
def cborDecDriver.decodeBytesArrayLoop : Nat → List Nat → DecM (List Nat)
  | 0, bs => pure bs
  | n + 1, bs => do
    let u ← cborDecDriver.DecodeUint64
    let b ← liftExcept (UintV u 8)
    decodeBytesArrayLoop n (bs ++ [b % 256])

/-- Modelled from the spec: `decByteSlice` of the shared support code, which is not part
of this file of the repository: "plain definite-length frames are read as one contiguous
block" of `clen` bytes; a negative `clen` is a slice of negative length. -/
def decByteSlice (clen : Int) : DecM (List Nat) :=
  if clen < 0 then errorf (DecErr.negativeLength clen) else readx clen.toNat

/-- Modelled from the spec: `usableByteSlice` of the shared support code, which is not
part of this file of the repository: a buffer of `slen` elements for the definite-length
array path; a negative `slen` is a slice of negative length. Returns the number of
elements. -/
def usableByteSlice (slen : Int) : DecM Nat :=
  if slen < 0 then errorf (DecErr.negativeLength slen) else pure slen.toNat

/-- Source `cborDecDriver.DecodeBytes`. The argument `bs` is the content of the buffer
offered by the caller (`none` for nil); the result is the content of the returned slice
(`none` for nil). The scratch buffer `d.d.b` and the capacity of `bs` only decide where
the result is stored, so the branches that differ in them alone return the same
content. -/
def cborDecDriver.DecodeBytes (bs : Option (List Nat)) (zerocopy : Bool) :
    DecM (Option (List Nat)) := do
  cborDecDriver.ensureBd
  cborDecDriver.skipTagsIfSt
  let d ← getD
  if d.bd = cborBdNil ∨ d.bd = cborBdUndefined then do
    modifyD fun d => { d with bdRead := false }
    pure none
  else if d.bd = cborBdIndefiniteBytes ∨ d.bd = cborBdIndefiniteString then do
    modifyD fun d => { d with bdRead := false }
    let out ←
      if bs = none then
        if zerocopy then cborDecDriver.decAppendIndefiniteBytes []
        else cborDecDriver.decAppendIndefiniteBytes []
      else cborDecDriver.decAppendIndefiniteBytes []
    pure (some out)
  else if d.bd = cborBdIndefiniteArray then do
    modifyD fun d => { d with bdRead := false }
    let d1 ← getD
    let out ← cborDecDriver.decodeBytesArrayBreakLoop (d1.r.rest.length + 1) []
    pure (some out)
  else if d.bd >>> 5 = cborMajorArray then do
    modifyD fun d => { d with bdRead := false }
    let slen ← cborDecDriver.decLen
    let n ← usableByteSlice slen
    let out ← cborDecDriver.decodeBytesArrayLoop n []
    pure (some out)
  else do
    let clen ← cborDecDriver.decLen
    modifyD fun d => { d with bdRead := false }
    if zerocopy ∧ d.br then readxSlice (toUint64 clen)
    else do
      let out ← decByteSlice clen
      pure (some out)

/-- Operations of the Go run time, of the standard library and of the shared support code
that `cbor.go` calls on floating-point numbers and on times. They are parameters of the
embedding. A `float64` is its IEEE-754 bit pattern (a `uint64`), a `float32` its bit
pattern (a `uint32`), so `math.Float64frombits` and `math.Float32frombits` are the
identity; a `time.Time` is an integer naming the instant. -/
structure GoRuntime where
  /-- The conversion `float64(x)` of a `float32`, from bit pattern to bit pattern. -/
  float32ToFloat64 : Nat → Nat
  /-- The helper `halfFloatToFloatBits`, from half-precision bits to `float32` bits. -/
  halfFloatToFloatBits : Nat → Nat
  /-- The conversion `float64(i)` of an `int64`, to the bit pattern. -/
  int64ToFloat64 : Int → Nat
  /-- The call `time.Parse(time.RFC3339, s)`; `none` when it returns an error. -/
  parseRFC3339 : List Nat → Option Int
  /-- The calls `math.Modf(f)` and `time.Unix(int64(f1), int64(f2*1e9))` on a `float64`. -/
  unixFromFloat : Nat → Int
  /-- The call `t.UTC().Round(time.Microsecond)`. -/
  utcRoundMicrosecond : Int → Int
  /-- The zero value of `time.Time`. -/
  zeroTime : Int

/-- The fields of the `BasicHandle` embedded in `CborHandle` that `DecodeNaked` reads:
the decode options `SignedInteger` and `RawToString`, and the tags for which an
extension is registered (`getExtForTag` returns nil for every other tag). It is passed
next to the driver. -/
structure BasicHandle where
  SignedInteger : Bool
  RawToString : Bool
  extTags : List Nat
deriving DecidableEq

/-- Source `BasicHandle.getExtForTag`, compared with nil: true when no extension is
registered for `tag`. -/
def BasicHandle.getExtForTagIsNil (bh : BasicHandle) (tag : Nat) : Bool :=
  !(bh.extTags.contains tag)

/-- The `switch d.bd` of `DecodeFloat64`: the value before `d.bdRead = false`. -/
def cborDecDriver.decodeFloat64Switch (rt : GoRuntime) : DecM Nat := do
  let d ← getD
  if d.bd = cborBdFloat16 then do
    let bs ← readx 2
    pure (rt.float32ToFloat64 (rt.halfFloatToFloatBits (bigenUint bs)))
  else if d.bd = cborBdFloat32 then do
    let bs ← readx 4
    pure (rt.float32ToFloat64 (bigenUint bs))
  else if d.bd = cborBdFloat64 then do
    let bs ← readx 8
    pure (bigenUint bs)
  else
    let major := d.bd >>> 5
    if major = cborMajorUint then do
      let ui ← cborDecDriver.decUint
      let i ← liftExcept (cborDecInt64 ui false)
      pure (rt.int64ToFloat64 i)
    else if major = cborMajorNegInt then do
      let ui ← cborDecDriver.decUint
      let i ← liftExcept (cborDecInt64 ui true)
      pure (rt.int64ToFloat64 i)
    else errorf (DecErr.notFloat d.bd)

/-- Source `cborDecDriver.DecodeFloat64`; the result is the bit pattern of the
`float64`. -/
def cborDecDriver.DecodeFloat64 (rt : GoRuntime) : DecM Nat := do
  cborDecDriver.ensureBd
  cborDecDriver.skipTagsIfSt
  let f ← cborDecDriver.decodeFloat64Switch rt
  modifyD fun d => { d with bdRead := false }
  pure f

/-- Source `cborDecDriver.DecodeString`: `string(d.DecodeBytes(d.d.b[:], true))`; the
conversion of a nil slice is the empty string. -/
def cborDecDriver.DecodeString : DecM (List Nat) := do
  let bs ← cborDecDriver.DecodeBytes (some []) true
  pure (bs.getD [])

/-- Source `cborDecDriver.DecodeStringAsBytes`: `d.DecodeBytes(d.d.b[:], true)`. -/
def cborDecDriver.DecodeStringAsBytes : DecM (Option (List Nat)) :=
  cborDecDriver.DecodeBytes (some []) true

/-- Source `cborDecDriver.decodeTime`. -/
def cborDecDriver.decodeTime (rt : GoRuntime) (xtag : Nat) : DecM Int := do
  let t ←
    if xtag = 0 then do
      let bs ← cborDecDriver.DecodeStringAsBytes
      match rt.parseRFC3339 (bs.getD []) with
      | some t => pure t
      | none => errorf DecErr.timeParse
    else if xtag = 1 then do
      let f ← cborDecDriver.DecodeFloat64 rt
      pure (rt.unixFromFloat f)
    else errorf (DecErr.invalidTimeTag xtag)
  pure (rt.utcRoundMicrosecond t)

/-- Source `cborDecDriver.DecodeTime`. -/
def cborDecDriver.DecodeTime (rt : GoRuntime) : DecM Int := do
  cborDecDriver.ensureBd
  let d ← getD
  if d.bd = cborBdNil ∨ d.bd = cborBdUndefined then do
    modifyD fun d => { d with bdRead := false }
    pure rt.zeroTime
  else if d.bd >>> 5 ≠ cborMajorTag then errorf (DecErr.notTag (d.bd >>> 5))
  else do
    let xtag ← cborDecDriver.decUint
    modifyD fun d => { d with bdRead := false }
    cborDecDriver.decodeTime rt xtag

/-- The fields of the decoder's `decNaked`, the result of a schema-less decode, that
`DecodeNaked` writes: the kind `v` and one payload field per kind. -/
structure decNaked where
  v : valueType
  i : Int
  u : Nat
  f : Nat
  b : Bool
  s : List Nat
  l : Option (List Nat)
  t : Int
deriving DecidableEq

/-- Modelled from the spec: `decNakedReadRawBytes` of the shared support code, which is
not part of this file of the repository: a byte string is surfaced as a text string
when `RawToString` is set, as bytes otherwise. -/
def decNakedReadRawBytes (n : decNaked) (rawToString : Bool) : DecM decNaked :=
  if rawToString then do
    let bs ← cborDecDriver.DecodeBytes (some []) true
    pure { n with v := valueType.valueTypeString, s := bs.getD [] }
  else do
    let bs ← cborDecDriver.DecodeBytes none false
    pure { n with v := valueType.valueTypeBytes, l := bs }

/-- The closing statement of `DecodeNaked`, `if !decodeFurther { d.bdRead = false }`,
returning the naked value. -/
def cborDecDriver.nakedDone (n : decNaked) (decodeFurther : Bool) : DecM decNaked := do
  if !decodeFurther then modifyD fun d => { d with bdRead := false } else pure ()
  pure n

/-- Source `cborDecDriver.DecodeNaked`, with the naked value `n := d.d.naked()` passed in
and returned. The recursive call (a skipped tag) follows `d.bdRead = false`, so it reads
at least one byte: a fuel above the number of unread bytes plus one is never used up. -/
def cborDecDriver.DecodeNakedFuel (rt : GoRuntime) (bh : BasicHandle) :
    Nat → decNaked → DecM decNaked
  | 0, _ => errorf DecErr.outOfFuel
  | fuel + 1, n => do
    cborDecDriver.ensureBd
    let d ← getD
    let major := d.bd >>> 5
    if major = cborMajorUint then
      if bh.SignedInteger then do
        let i ← cborDecDriver.DecodeInt64
        cborDecDriver.nakedDone { n with v := valueType.valueTypeInt, i := i } false
      else do
        let u ← cborDecDriver.DecodeUint64
        cborDecDriver.nakedDone { n with v := valueType.valueTypeUint, u := u } false
    else if major = cborMajorNegInt then do
      let i ← cborDecDriver.DecodeInt64
      cborDecDriver.nakedDone { n with v := valueType.valueTypeInt, i := i } false
    else if major = cborMajorBytes then do
      let n1 ← decNakedReadRawBytes n bh.RawToString
      cborDecDriver.nakedDone n1 false
    else if major = cborMajorString then do
      let s ← cborDecDriver.DecodeString
      cborDecDriver.nakedDone { n with v := valueType.valueTypeString, s := s } false
    else if major = cborMajorArray then
      cborDecDriver.nakedDone { n with v := valueType.valueTypeArray } true
    else if major = cborMajorMap then
      cborDecDriver.nakedDone { n with v := valueType.valueTypeMap } true
    else if major = cborMajorTag then do
      let u ← cborDecDriver.decUint
      let n1 : decNaked := { n with v := valueType.valueTypeExt, u := u, l := none }
      if u = 0 ∨ u = 1 then do
        modifyD fun d => { d with bdRead := false }
        let t ← cborDecDriver.decodeTime rt u
        cborDecDriver.nakedDone { n1 with v := valueType.valueTypeTime, t := t } false
      else if d.st ∧ bh.getExtForTagIsNil u then do
        modifyD fun d => { d with bdRead := false }
        DecodeNakedFuel rt bh fuel n1
      else cborDecDriver.nakedDone n1 false
    else if major = cborMajorSimpleOrFloat then
      if d.bd = cborBdNil then
        cborDecDriver.nakedDone { n with v := valueType.valueTypeNil } false
      else if d.bd = cborBdFalse then
        cborDecDriver.nakedDone { n with v := valueType.valueTypeBool, b := false } false
      else if d.bd = cborBdTrue then
        cborDecDriver.nakedDone { n with v := valueType.valueTypeBool, b := true } false
      else if d.bd = cborBdFloat16 ∨ d.bd = cborBdFloat32 ∨ d.bd = cborBdFloat64 then do
        let f ← cborDecDriver.DecodeFloat64 rt
        cborDecDriver.nakedDone { n with v := valueType.valueTypeFloat, f := f } false
      else if d.bd = cborBdIndefiniteBytes then do
        let n1 ← decNakedReadRawBytes n bh.RawToString
        cborDecDriver.nakedDone n1 false
      else if d.bd = cborBdIndefiniteString then do
        let s ← cborDecDriver.DecodeString
        cborDecDriver.nakedDone { n with v := valueType.valueTypeString, s := s } false
      else if d.bd = cborBdIndefiniteArray then
        cborDecDriver.nakedDone { n with v := valueType.valueTypeArray } true
      else if d.bd = cborBdIndefiniteMap then
        cborDecDriver.nakedDone { n with v := valueType.valueTypeMap } true
      else errorf (DecErr.nakedUnrecognized d.bd)
    else errorf (DecErr.nakedUnrecognized d.bd)

/-- Source `cborDecDriver.DecodeNaked`. -/
def cborDecDriver.DecodeNaked (rt : GoRuntime) (bh : BasicHandle) (n : decNaked) :
    DecM decNaked := do
  let d ← getD
  cborDecDriver.DecodeNakedFuel rt bh (d.r.rest.length + 2) n

/-! ## Callers -/

/-- Modelled from the spec: the loop with which a caller drains an indefinite-length map
of integers ("loop on the break probe"); the callers of the driver are not part of this
file of the repository. While `CheckBreak()` is false, decode one key and one value with
`DecodeInt64`. Every iteration reads at least one byte. -/
def drainIntMapLoop : Nat → List (Int × Int) → DecM (List (Int × Int))
  | 0, _ => errorf DecErr.outOfFuel
  | fuel + 1, acc => do
    let brk ← cborDecDriver.CheckBreak
    if brk then pure acc
    else do
      let k ← cborDecDriver.DecodeInt64
      let v ← cborDecDriver.DecodeInt64
      drainIntMapLoop fuel (acc ++ [(k, v)])

/-- Modelled from the spec: a caller reading an indefinite-length map of integers,
`ReadMapStart` and, when it reports the length -1, the draining loop. Returns the length reported by `ReadMapStart`
and the pairs read. -/
def drainIntMap : DecM (Int × List (Int × Int)) := do
  let n ← cborDecDriver.ReadMapStart
  if n = -1 then do
    let d ← getD
    let pairs ← drainIntMapLoop (d.r.rest.length + 1) []
    pure (n, pairs)
  else pure (n, [])

/-! ## Vocabulary of the statements -/

/-- The five forms of an unsigned-integer frame: total number of bytes, and the largest
value the form can hold. -/
def uintForms : List (Nat × Nat) :=
  [(1, 0x17), (2, 0xFF), (3, 0xFFFF), (5, 0xFFFFFFFF), (9, 0xFFFFFFFFFFFFFFFF)]

/-- Descriptor byte of the frame that `encUint v bd` writes. -/
def frameDesc (bd v : Nat) : Nat :=
  if v ≤ 0x17 then bd + v
  else if v ≤ 0xFF then bd + 0x18
  else if v ≤ 0xFFFF then bd + 0x19
  else if v ≤ 0xFFFFFFFF then bd + 0x1a
  else bd + 0x1b

/-- Trailing bytes of the frame that `encUint v bd` writes. -/
def frameTail (v : Nat) : List Nat :=
  if v ≤ 0x17 then []
  else if v ≤ 0xFF then [v]
  else if v ≤ 0xFFFF then bigenPut 2 v
  else if v ≤ 0xFFFFFFFF then bigenPut 4 v
  else bigenPut 8 v

/-- Number of trailing bytes that the low five bits `a ≤ 0x1b` of a descriptor
announce. -/
def tailLen (a : Nat) : Nat :=
  if a ≤ 0x17 then 0 else if a = 0x18 then 1 else if a = 0x19 then 2
  else if a = 0x1a then 4 else 8

/-- A well-formed frame of major type `major`: a descriptor byte of that major type with
low bits at most `0x1b`, followed by as many bytes as the low bits announce (0, 1, 2, 4
or 8). Frames of minimal and of wider than minimal width are included. -/
def wfFrame (major : Nat) (fr : List Nat) : Prop :=
  fr ≠ [] ∧ fr.headD 0 / 32 = major ∧ fr.headD 0 % 32 ≤ 0x1b ∧
    fr.tail.length = tailLen (fr.headD 0 % 32)

instance (major : Nat) (fr : List Nat) : Decidable (wfFrame major fr) := by
  unfold wfFrame
  infer_instance

/-- The unsigned number a well-formed frame carries: the low bits when they are at most
23, the big-endian value of the trailing bytes otherwise. -/
def frameValue (fr : List Nat) : Nat :=
  if fr.headD 0 % 32 ≤ 0x17 then fr.headD 0 % 32 else bigenUint fr.tail

/-- Chunk length `c` of an indefinite-length string as the spec words it: `L / 4` clamped
to the range `[64, 1024]`. -/
def clampedChunkLen (L : Nat) : Nat :=
  if L / 4 < 64 then 64 else if L / 4 > 1024 then 1024 else L / 4

/-- Chunk length `blen` that `encStringBytesS` computes for a payload of `L` bytes: 64
when `L / 4` is zero, 1024 when `L / 4` exceeds 1024, `L / 4` otherwise. -/
def chunkLen (L : Nat) : Nat :=
  if L / 4 = 0 then 64 else if L / 4 > 1024 then 1024 else L / 4

/-- Consecutive chunks of `c` bytes of a payload, the last chunk holding what remains;
no chunk is empty. The fuel bounds the number of chunks. -/
def chunksFuel (c : Nat) : Nat → List Nat → List (List Nat)
  | 0, _ => []
  | fuel + 1, v => if v = [] then [] else v.take c :: chunksFuel c fuel (v.drop c)

/-- Consecutive chunks of `c` bytes of the payload `v`. -/
def chunksOf (c : Nat) (v : List Nat) : List (List Nat) := chunksFuel c v.length v

/-- Definite-length string frame of base `bb` holding `chunk`: the minimal-width frame of
the length, then the bytes. -/
def stringFrame (bb : Nat) (chunk : List Nat) : List Nat :=
  frameDesc bb chunk.length :: frameTail chunk.length ++ chunk

/-- Bytes of an indefinite-length string: the marker `m`, one definite-length frame of
base `bb` per chunk, the break byte. -/
def chunkedString (m bb : Nat) (chunks : List (List Nat)) : List Nat :=
  m :: (chunks.flatMap (stringFrame bb) ++ [0xff])

/-- An integer item: a well-formed frame of major type 0 (unsigned) or 1 (negative), of
any width. -/
def intItem (it : List Nat) : Prop :=
  wfFrame cborMajorUint it ∨ wfFrame cborMajorNegInt it

instance (it : List Nat) : Decidable (intItem it) := by
  unfold intItem
  infer_instance

/-- The mathematical value of an integer item with encoded magnitude `n`: `n` for major
type 0, `-(1+n)` for major type 1. -/
def intItemValue (it : List Nat) : Int :=
  if it.headD 0 / 32 = cborMajorNegInt then -1 - (frameValue it : Int)
  else (frameValue it : Int)

/-- The slice that `DecodeBytes` returns for a definite-length frame with the payload `v`:
the payload, except that the zero-copy path of a bytes reader hands back the nil slice
(`none`) for the empty payload. -/
def decodedSlice (zerocopy br : Bool) (v : List Nat) : Option (List Nat) :=
  if zerocopy = true ∧ br = true ∧ v = [] then none else some v

/-- The range check of `cborDecInt64` rejects the integer item `it`: the magnitude handed
to `chkOvf.SignedIntV` (the encoded magnitude of an unsigned item, `uint64` of the
magnitude plus one for a negative item) is `2^64-1`. These are the unsigned item `2^64-1`
and the negative item of magnitude `2^64-2`. -/
def int64Rejected (it : List Nat) : Prop :=
  if it.headD 0 / 32 = cborMajorNegInt then (frameValue it + 1) % 2 ^ 64 = 2 ^ 64 - 1
  else frameValue it = 2 ^ 64 - 1

instance (it : List Nat) : Decidable (int64Rejected it) := by
  unfold int64Rejected
  infer_instance

/-- The value that `cborDecInt64` returns for an integer item that its range check lets
through: the `int64` conversion of the magnitude for an unsigned item, the `int64`
negation of the conversion of `uint64` of the magnitude plus one for a negative item. It
is the value of the item whenever that value is an `int64`. -/
def int64Decoded (it : List Nat) : Int :=
  if it.headD 0 / 32 = cborMajorNegInt then
    wrapInt64 (-(wrapInt64 (((frameValue it + 1) % 2 ^ 64 : Nat) : Int)))
  else wrapInt64 (frameValue it : Int)

/-- A decode method clears the descriptor cache: whenever it returns a value, the cache
flag `bdRead` is false afterwards. -/
def ClearsCache {α : Type} (m : DecM α) : Prop :=
  ∀ (d : cborDecDriver) (a : α) (d1 : cborDecDriver), m d = (Except.ok a, d1) → d1.bdRead = false

/-- A decode method keeps the descriptor cache cleared: started with the cache flag
false, it returns (when it returns a value) with the flag false. -/
def KeepsCleared {α : Type} (m : DecM α) : Prop :=
  ∀ (d : cborDecDriver) (a : α) (d1 : cborDecDriver),
    d.bdRead = false → m d = (Except.ok a, d1) → d1.bdRead = false

/-- A decode method treats a cached descriptor as the next item of the stream: started
with the descriptor `b` in the cache (flag set, `b` the byte read last), it does exactly
what it does when started with the flag clear and `b` still unread. Nothing is read in
the place of the cached descriptor. -/
def UsesCached {α : Type} (m : DecM α) : Prop :=
  ∀ (h : CborHandle) (p t : List Nat) (b : Nat) (br : Bool) (bd0 : Nat) (st : Bool),
    m ⟨h, ⟨b :: p, t⟩, br, true, b, st⟩ = m ⟨h, ⟨p, b :: t⟩, br, false, bd0, st⟩

/-- A computation leaves the cached descriptor as it is: started with tag skipping off,
or with a descriptor in the cache that is not a tag, it ends, whatever the outcome, with
the same descriptor in the cache (and the same tag-skipping setting). -/
def KeepsDescriptor {α : Type} (m : DecM α) : Prop :=
  ∀ d : cborDecDriver, d.st = false ∨ d.bd >>> 5 ≠ cborMajorTag →
    (m d).2.bd = d.bd ∧ (m d).2.st = d.st

/-- A decode method reads no descriptor over a cached one: started with a descriptor in
the cache (flag set), and with tag skipping off or that descriptor not a tag, it ends,
whatever the outcome, with that same descriptor in the cache. -/
def CacheStable {α : Type} (m : DecM α) : Prop :=
  ∀ d : cborDecDriver, d.bdRead = true → d.st = false ∨ d.bd >>> 5 ≠ cborMajorTag →
    (m d).2.bd = d.bd

/-- The driver with the reader's record of the bytes already read erased; what is left
is what a decode can observe: handle, unread bytes, flags and cached descriptor. -/
def erasePast (d : cborDecDriver) : cborDecDriver :=
  { d with r := { past := [], rest := d.r.rest } }

/-- Two results of a decode method agree up to the record of the bytes already read:
same value or error, and the same driver once that record is erased. -/
def SameModuloPast {α : Type} (x y : Except DecErr α × cborDecDriver) : Prop :=
  x.1 = y.1 ∧ erasePast x.2 = erasePast y.2

/-- A decode method does not depend on the bytes already read: from drivers that agree
up to that record it gives results that agree up to it. -/
def PastIrrelevant {α : Type} (m : DecM α) : Prop :=
  ∀ d d1 : cborDecDriver, erasePast d = erasePast d1 → SameModuloPast (m d) (m d1)

/-- Two results of a decode method have the same outcome: the same value or error, and
the same unread bytes. -/
def SameOutcome {α : Type} (x y : Except DecErr α × cborDecDriver) : Prop :=
  x.1 = y.1 ∧ x.2.r.rest = y.2.r.rest

/-- The dynamic value that a naked decode produces: the kind, and the payload of that
kind. -/
inductive nakedValue where
  | unset | nil | array | map
  | int (i : Int)
  | uint (u : Nat)
  | float (f : Nat)
  | bool (b : Bool)
  | string (s : List Nat)
  | bytes (l : Option (List Nat))
  | time (t : Int)
  | ext (tag : Nat) (l : Option (List Nat))
deriving DecidableEq

/-- The dynamic value held by a `decNaked`: its kind `v` and the payload field that
belongs to that kind; the other fields are leftovers of earlier decodes. -/
def decNaked.value (n : decNaked) : nakedValue :=
  match n.v with
  | valueType.valueTypeUnset => nakedValue.unset
  | valueType.valueTypeNil => nakedValue.nil
  | valueType.valueTypeArray => nakedValue.array
  | valueType.valueTypeMap => nakedValue.map
  | valueType.valueTypeInt => nakedValue.int n.i
  | valueType.valueTypeUint => nakedValue.uint n.u
  | valueType.valueTypeFloat => nakedValue.float n.f
  | valueType.valueTypeBool => nakedValue.bool n.b
  | valueType.valueTypeString => nakedValue.string n.s
  | valueType.valueTypeBytes => nakedValue.bytes n.l
  | valueType.valueTypeTime => nakedValue.time n.t
  | valueType.valueTypeExt => nakedValue.ext n.u n.l

/-- Two results of a naked decode agree: the same error or the same dynamic value, and
the same driver up to the record of the bytes already read. -/
def SameNaked (x y : Except DecErr decNaked × cborDecDriver) : Prop :=
  Except.map decNaked.value x.1 = Except.map decNaked.value y.1 ∧
    erasePast x.2 = erasePast y.2

/-- A chunk of an indefinite-length string as `decAppendIndefiniteBytes` accepts it: a
well-formed definite-length frame `c.1` of major type 2 or 3 (a byte string or a text
string) and a payload `c.2` of the length that the frame gives. -/
def stringChunk (c : List Nat × List Nat) : Prop :=
  (wfFrame cborMajorBytes c.1 ∨ wfFrame cborMajorString c.1) ∧ c.2.length = frameValue c.1

instance (c : List Nat × List Nat) : Decidable (stringChunk c) := by
  unfold stringChunk
  infer_instance

/-- The bytes of a sequence of chunks: every frame followed by its payload. -/
def chunkBytes (chunks : List (List Nat × List Nat)) : List Nat :=
  chunks.flatMap (fun c => c.1 ++ c.2)

/-- The payloads of a sequence of chunks, concatenated. -/
def chunkPayload (chunks : List (List Nat × List Nat)) : List Nat :=
  chunks.flatMap (fun c => c.2)

/-! # Theorems -/

/-! ## Basic facts -/

theorem land_1f (x : Nat) : x &&& 0x1f = x % 32 :=
  Nat.and_pow_two_sub_one_eq_mod x 5

theorem shr_5 (x : Nat) : x >>> 5 = x / 32 :=
  Nat.shiftRight_eq_div_pow x 5

theorem bigenPut_two (v : Nat) : bigenPut 2 v = [v / 256 % 256, v % 256] := by
  simp [bigenPut]

theorem bigenPut_four (v : Nat) :
    bigenPut 4 v = [v / 2 ^ 24 % 256, v / 2 ^ 16 % 256, v / 2 ^ 8 % 256, v % 256] := by
  simp [bigenPut, Nat.div_div_eq_div_mul]

theorem bigenPut_eight (v : Nat) :
    bigenPut 8 v = [v / 2 ^ 56 % 256, v / 2 ^ 48 % 256, v / 2 ^ 40 % 256, v / 2 ^ 32 % 256,
      v / 2 ^ 24 % 256, v / 2 ^ 16 % 256, v / 2 ^ 8 % 256, v % 256] := by
  simp [bigenPut, Nat.div_div_eq_div_mul]

/-! ## Encoder -/

theorem encUint_w (e : cborEncDriver) (v bd : Nat) (hv : v < 2 ^ 64)
    (hbd : bd % 0x20 = 0) (hlt : bd < 256) :
    (e.encUint v bd).w = e.w ++
      (if v ≤ 0x17 then [bd + v]
       else if v ≤ 0xFF then [bd + 0x18, v]
       else if v ≤ 0xFFFF then (bd + 0x19) :: bigenPut 2 v
       else if v ≤ 0xFFFFFFFF then (bd + 0x1a) :: bigenPut 4 v
       else (bd + 0x1b) :: bigenPut 8 v) := by
  unfold cborEncDriver.encUint
  simp only [MaxUint8, MaxUint16, MaxUint32]
  split_ifs with h1 h2 h3 h4
  · simp only [cborEncDriver.writen1]
    congr 2; omega
  · simp only [cborEncDriver.writen2]
    congr 2
    · omega
    · congr 1; omega
  · simp only [cborEncDriver.writen1, cborEncDriver.writeUint16, List.append_assoc,
      List.singleton_append]
    have e1 : (bd + 0x19) % 256 = bd + 0x19 := by omega
    have e2 : v % 2 ^ 16 = v := by omega
    rw [e1, e2]
  · simp only [cborEncDriver.writen1, cborEncDriver.writeUint32, List.append_assoc,
      List.singleton_append]
    have e1 : (bd + 0x1a) % 256 = bd + 0x1a := by omega
    have e2 : v % 2 ^ 32 = v := by omega
    rw [e1, e2]
  · simp only [cborEncDriver.writen1, cborEncDriver.writeUint64, List.append_assoc,
      List.singleton_append]
    have e1 : (bd + 0x1b) % 256 = bd + 0x1b := by omega
    rw [e1]

theorem encUint_h (e : cborEncDriver) (v bd : Nat) : (e.encUint v bd).h = e.h := by
  unfold cborEncDriver.encUint
  split_ifs <;> rfl

theorem encUint_frame (e : cborEncDriver) (v bd : Nat) (hv : v < 2 ^ 64)
    (hbd : bd % 0x20 = 0) (hlt : bd < 256) :
    (e.encUint v bd).w = e.w ++ frameDesc bd v :: frameTail v := by
  rw [encUint_w e v bd hv hbd hlt]
  unfold frameDesc frameTail
  split_ifs <;> rfl

/-- C3. Minimal-width encoding: for a `uint64` `v` and a major-type base byte `bd` (a
multiple of `0x20`), `encUint v bd` appends to the sink exactly `[bd+v]` when `v ≤ 23`,
`[bd+0x18, v]` when `24 ≤ v ≤ 0xFF`, `bd+0x19` and the 2 big-endian bytes of `v` when
`0xFF < v ≤ 0xFFFF`, `bd+0x1a` and the 4 big-endian bytes when `0xFFFF < v ≤ 0xFFFFFFFF`,
`bd+0x1b` and the 8 big-endian bytes otherwise; so the number of bytes written is that of
one of the five forms (1, 2, 3, 5 or 9), that form can hold `v`, and no form that can
hold `v` is shorter. -/
theorem encUint_minimal_width (e : cborEncDriver) (v bd : Nat) (hv : v < 2 ^ 64)
    (hbd : bd % 0x20 = 0) (hlt : bd < 256) :
    (v ≤ 23 → (e.encUint v bd).w = e.w ++ [bd + v]) ∧
    (24 ≤ v → v ≤ 0xFF → (e.encUint v bd).w = e.w ++ [bd + 0x18, v]) ∧
    (0xFF < v → v ≤ 0xFFFF → (e.encUint v bd).w = e.w ++ [bd + 0x19, v / 256, v % 256]) ∧
    (0xFFFF < v → v ≤ 0xFFFFFFFF → (e.encUint v bd).w =
      e.w ++ [bd + 0x1a, v / 2 ^ 24, v / 2 ^ 16 % 256, v / 2 ^ 8 % 256, v % 256]) ∧
    (0xFFFFFFFF < v → (e.encUint v bd).w =
      e.w ++ [bd + 0x1b, v / 2 ^ 56, v / 2 ^ 48 % 256, v / 2 ^ 40 % 256, v / 2 ^ 32 % 256,
        v / 2 ^ 24 % 256, v / 2 ^ 16 % 256, v / 2 ^ 8 % 256, v % 256]) ∧
    (∃ f ∈ uintForms, (e.encUint v bd).w.length = e.w.length + f.1 ∧ v ≤ f.2) ∧
    (∀ f ∈ uintForms, v ≤ f.2 → (e.encUint v bd).w.length ≤ e.w.length + f.1) := by
  have hw := encUint_w e v bd hv hbd hlt
  refine ⟨?_, ?_, ?_, ?_, ?_, ?_, ?_⟩
  · intro h1
    rw [hw, if_pos (by omega)]
  · intro h1 h2
    rw [hw, if_neg (by omega), if_pos (by omega)]
  · intro h1 h2
    rw [hw, if_neg (by omega), if_neg (by omega), if_pos (by omega), bigenPut_two]
    have e1 : v / 256 % 256 = v / 256 := by omega
    rw [e1]
  · intro h1 h2
    rw [hw, if_neg (by omega), if_neg (by omega), if_neg (by omega), if_pos (by omega),
      bigenPut_four]
    have e1 : v / 2 ^ 24 % 256 = v / 2 ^ 24 := by omega
    rw [e1]
  · intro h1
    rw [hw, if_neg (by omega), if_neg (by omega), if_neg (by omega), if_neg (by omega),
      bigenPut_eight]
    have e1 : v / 2 ^ 56 % 256 = v / 2 ^ 56 := by omega
    rw [e1]
  · rw [hw]
    simp only [uintForms, List.mem_cons, List.mem_singleton, List.not_mem_nil, or_false,
      exists_eq_or_imp, exists_eq_left, List.length_append]
    split_ifs with h1 h2 h3 h4
    · left; exact ⟨rfl, h1⟩
    · right; left; exact ⟨rfl, h2⟩
    · right; right; left; exact ⟨by simp [bigenPut], h3⟩
    · right; right; right; left; exact ⟨by simp [bigenPut], h4⟩
    · right; right; right; right; exact ⟨by simp [bigenPut], by omega⟩
  · rw [hw]
    simp only [uintForms, List.mem_cons, List.mem_singleton, List.not_mem_nil, or_false,
      forall_eq_or_imp, forall_eq, List.length_append]
    split_ifs with h1 h2 h3 h4 <;>
      simp [bigenPut] <;> omega

/-- Witness of C3: the value 500 with the byte-string base `0x40`. -/
theorem encUint_minimal_width_witness :
    (500 < 2 ^ 64 ∧ 0x40 % 0x20 = 0 ∧ 0x40 < 256) ∧
    (({ w := [], h := ⟨false, false, false⟩ } : cborEncDriver).encUint 500 0x40).w
      = [0x59, 0x01, 0xf4] :=
  ⟨by decide, (encUint_minimal_width ⟨[], ⟨false, false, false⟩⟩ 500 0x40 (by decide)
    (by decide) (by decide)).2.2.1 (by decide) (by decide)⟩

theorem wrapInt64_of_range (x : Int) (h1 : MinInt64 ≤ x) (h2 : x ≤ MaxInt64) :
    wrapInt64 x = x := by
  unfold wrapInt64
  unfold MinInt64 at h1
  unfold MaxInt64 at h2
  omega

theorem toUint64_of_nonneg (x : Int) (h1 : 0 ≤ x) (h2 : x ≤ MaxInt64) :
    toUint64 x = x.toNat := by
  unfold toUint64
  unfold MaxInt64 at h2
  congr 1
  omega

theorem EncodeInt_neg (e : cborEncDriver) (v : Int) (hlo : MinInt64 ≤ v) (hneg : v < 0) :
    wrapInt64 (-1 - v) = -1 - v ∧ 0 ≤ -1 - v ∧ -1 - v ≤ MaxInt64 ∧
      e.EncodeInt v = e.encUint (-1 - v).toNat cborBaseNegInt := by
  have hr1 : MinInt64 ≤ -1 - v := by unfold MinInt64; omega
  have hr2 : -1 - v ≤ MaxInt64 := by unfold MaxInt64; unfold MinInt64 at hlo; omega
  have hw := wrapInt64_of_range (-1 - v) hr1 hr2
  refine ⟨hw, by omega, hr2, ?_⟩
  unfold cborEncDriver.EncodeInt
  rw [if_pos hneg, hw, toUint64_of_nonneg _ (by omega) hr2]

theorem EncodeInt_nonneg (e : cborEncDriver) (v : Int) (hpos : 0 ≤ v) (hhi : v ≤ MaxInt64) :
    e.EncodeInt v = e.EncodeUint v.toNat := by
  unfold cborEncDriver.EncodeInt cborEncDriver.EncodeUint
  rw [if_neg (by omega), toUint64_of_nonneg _ hpos hhi]

/-- C4. Negative-integer transform: for an `int64` `v < 0` the subtraction `-1 - v` does
not overflow (its `int64` result is the mathematical `-1 - v`, between 0 and `2^63-1`,
and `MinInt64` maps to `2^63-1`), and `EncodeInt v` writes the frame that `encUint`
writes for that magnitude with the negative-integer base `0x20`; for `v ≥ 0`,
`EncodeInt v` writes what `EncodeUint v` writes. 23 is written as the byte `0x17`, 24 as
`0x18 0x18` and -1 as `0x20`. -/
theorem EncodeInt_transform (e : cborEncDriver) (v : Int) (hlo : MinInt64 ≤ v)
    (hhi : v ≤ MaxInt64) :
    (v < 0 → wrapInt64 (-1 - v) = -1 - v ∧ 0 ≤ -1 - v ∧ -1 - v ≤ MaxInt64 ∧
      e.EncodeInt v = e.encUint (-1 - v).toNat cborBaseNegInt) ∧
    (0 ≤ v → e.EncodeInt v = e.EncodeUint v.toNat) ∧
    wrapInt64 (-1 - MinInt64) = 2 ^ 63 - 1 ∧
    (e.EncodeInt 23).w = e.w ++ [0x17] ∧
    (e.EncodeInt 24).w = e.w ++ [0x18, 0x18] ∧
    (e.EncodeInt (-1)).w = e.w ++ [0x20] := by
  refine ⟨EncodeInt_neg e v hlo, fun hpos => EncodeInt_nonneg e v hpos hhi, ?_, rfl, rfl, rfl⟩
  unfold wrapInt64 MinInt64
  norm_num

/-- Witness of C4: the value -500. -/
theorem EncodeInt_transform_witness :
    (MinInt64 ≤ -500 ∧ (-500 : Int) ≤ MaxInt64) ∧
    ({ w := [], h := ⟨false, false, false⟩ } : cborEncDriver).EncodeInt (-500)
      = ({ w := [], h := ⟨false, false, false⟩ } : cborEncDriver).encUint 499 cborBaseNegInt :=
  ⟨by decide, ((EncodeInt_transform ⟨[], ⟨false, false, false⟩⟩ (-500) (by decide)
    (by decide)).1 (by decide)).2.2.2⟩

/-! ## Decoder monad -/

theorem bind_ok {α β : Type} {m : DecM α} {f : α → DecM β} {d d1 : cborDecDriver} {a : α}
    (h : m d = (Except.ok a, d1)) : (m >>= f) d = f a d1 := by
  show (match m d with
    | (Except.ok a, d1) => f a d1
    | (Except.error err, d1) => (Except.error err, d1)) = _
  rw [h]

theorem bind_error {α β : Type} {m : DecM α} {f : α → DecM β} {d d1 : cborDecDriver}
    {err : DecErr} (h : m d = (Except.error err, d1)) :
    (m >>= f) d = (Except.error err, d1) := by
  show (match m d with
    | (Except.ok a, d1) => f a d1
    | (Except.error err, d1) => (Except.error err, d1)) = _
  rw [h]

@[simp] theorem pure_apply {α : Type} (a : α) (d : cborDecDriver) :
    (pure a : DecM α) d = (Except.ok a, d) := rfl

@[simp] theorem getD_bind {β : Type} (f : cborDecDriver → DecM β) (d : cborDecDriver) :
    (getD >>= f) d = f d d := rfl

@[simp] theorem modifyD_bind {β : Type} (g : cborDecDriver → cborDecDriver)
    (f : Unit → DecM β) (d : cborDecDriver) :
    (modifyD g >>= f) d = f () (g d) := rfl

@[simp] theorem errorf_apply {α : Type} (err : DecErr) (d : cborDecDriver) :
    (errorf err : DecM α) d = (Except.error err, d) := rfl

@[simp] theorem errorf_bind {α β : Type} (err : DecErr) (f : α → DecM β)
    (d : cborDecDriver) :
    ((errorf err : DecM α) >>= f) d = (Except.error err, d) := rfl

@[simp] theorem liftExcept_apply {α : Type} (x : Except DecErr α) (d : cborDecDriver) :
    liftExcept x d = (x, d) := rfl

@[simp] theorem modifyD_apply (g : cborDecDriver → cborDecDriver) (d : cborDecDriver) :
    modifyD g d = (Except.ok (), g d) := rfl

@[simp] theorem readn1_cons_bind {β : Type} (f : Nat → DecM β) (h : CborHandle)
    (p t : List Nat) (b : Nat) (br x : Bool) (bd : Nat) (st : Bool) :
    (readn1 >>= f) ⟨h, ⟨p, b :: t⟩, br, x, bd, st⟩ = f b ⟨h, ⟨b :: p, t⟩, br, x, bd, st⟩ := rfl

@[simp] theorem readn1_cons (h : CborHandle)
    (p t : List Nat) (b : Nat) (br x : Bool) (bd : Nat) (st : Bool) :
    readn1 ⟨h, ⟨p, b :: t⟩, br, x, bd, st⟩ = (Except.ok b, ⟨h, ⟨b :: p, t⟩, br, x, bd, st⟩) := rfl

theorem readx_append (h : CborHandle) (p bs t : List Nat) (n : Nat) (hn : bs.length = n)
    (br x : Bool) (bd : Nat) (st : Bool) :
    readx n ⟨h, ⟨p, bs ++ t⟩, br, x, bd, st⟩
      = (Except.ok bs, ⟨h, ⟨bs.reverse ++ p, t⟩, br, x, bd, st⟩) := by
  subst hn
  simp [readx]

theorem readxSlice_append (h : CborHandle) (p bs t : List Nat) (br x : Bool) (bd : Nat)
    (st : Bool) :
    readxSlice bs.length ⟨h, ⟨p, bs ++ t⟩, br, x, bd, st⟩
      = (Except.ok (if bs = [] then none else some bs),
          ⟨h, ⟨bs.reverse ++ p, t⟩, br, x, bd, st⟩) := by
  unfold readxSlice
  rw [bind_ok (readx_append h p bs t bs.length rfl br x bd st), pure_apply]
  simp only [List.length_eq_zero]

theorem decodedSlice_of_zerocopy (zerocopy br : Bool) (v : List Nat)
    (hz : zerocopy = true ∧ br = true) :
    decodedSlice zerocopy br v = if v = [] then none else some v := by
  unfold decodedSlice
  simp only [hz.1, hz.2, true_and]

theorem decodedSlice_of_copy (zerocopy br : Bool) (v : List Nat)
    (hz : ¬(zerocopy = true ∧ br = true)) : decodedSlice zerocopy br v = some v := by
  unfold decodedSlice
  rw [if_neg (fun hc => hz ⟨hc.1, hc.2.1⟩)]

theorem decodedSlice_of_ne_nil (zerocopy br : Bool) (v : List Nat) (hv : v ≠ []) :
    decodedSlice zerocopy br v = some v := by
  unfold decodedSlice
  rw [if_neg (fun hc => hv hc.2.2)]

theorem decodedSlice_getD (zerocopy br : Bool) (v : List Nat) :
    (decodedSlice zerocopy br v).getD [] = v := by
  unfold decodedSlice
  split_ifs with hc
  · exact hc.2.2.symm
  · rfl

/-! ## Decoder steps -/

theorem ensureBd_cons (h : CborHandle) (p t : List Nat) (b : Nat) (br : Bool) (bd : Nat)
    (st : Bool) :
    cborDecDriver.ensureBd ⟨h, ⟨p, b :: t⟩, br, false, bd, st⟩
      = (Except.ok (), ⟨h, ⟨b :: p, t⟩, br, true, b, st⟩) := rfl

theorem ensureBd_cached (h : CborHandle) (r : decReader) (br : Bool) (bd : Nat) (st : Bool) :
    cborDecDriver.ensureBd ⟨h, r, br, true, bd, st⟩
      = (Except.ok (), ⟨h, r, br, true, bd, st⟩) := rfl

theorem ensureBd_nil (h : CborHandle) (p : List Nat) (br : Bool) (bd : Nat) (st : Bool) :
    cborDecDriver.ensureBd ⟨h, ⟨p, []⟩, br, false, bd, st⟩
      = (Except.error DecErr.eof, ⟨h, ⟨p, []⟩, br, false, bd, st⟩) := rfl

theorem skipTagsLoop_nontag (fuel : Nat) (d : cborDecDriver) (hbd : d.bd / 32 ≠ 6) :
    cborDecDriver.skipTagsLoop (fuel + 1) d = (Except.ok (), d) := by
  unfold cborDecDriver.skipTagsLoop
  simp [shr_5, cborMajorTag, hbd]

theorem skipTagsIfSt_nontag (d : cborDecDriver) (hbd : d.bd / 32 ≠ 6) :
    cborDecDriver.skipTagsIfSt d = (Except.ok (), d) := by
  unfold cborDecDriver.skipTagsIfSt cborDecDriver.skipTags
  cases hst : d.st <;> simp [hst, skipTagsLoop_nontag _ d hbd]

theorem skipTagsIfSt_off (d : cborDecDriver) (hst : d.st = false) :
    cborDecDriver.skipTagsIfSt d = (Except.ok (), d) := by
  unfold cborDecDriver.skipTagsIfSt
  simp [hst]

theorem decUint_small (h : CborHandle) (r : decReader) (br x : Bool) (bd : Nat) (st : Bool)
    (ha : bd % 32 ≤ 0x17) :
    cborDecDriver.decUint ⟨h, r, br, x, bd, st⟩ = (Except.ok (bd % 32), ⟨h, r, br, x, bd, st⟩) := by
  simp only [cborDecDriver.decUint, getD_bind, land_1f]
  rw [if_pos ha]
  rfl

theorem decUint_one (h : CborHandle) (p t : List Nat) (b : Nat) (br x : Bool) (bd : Nat)
    (st : Bool) (ha : bd % 32 = 0x18) :
    cborDecDriver.decUint ⟨h, ⟨p, b :: t⟩, br, x, bd, st⟩
      = (Except.ok b, ⟨h, ⟨b :: p, t⟩, br, x, bd, st⟩) := by
  simp only [cborDecDriver.decUint, getD_bind, land_1f]
  rw [if_neg (by omega), if_pos ha]
  rfl

theorem decUint_two (h : CborHandle) (p bs t : List Nat) (br x : Bool) (bd : Nat)
    (st : Bool) (ha : bd % 32 = 0x19) (hn : bs.length = 2) :
    cborDecDriver.decUint ⟨h, ⟨p, bs ++ t⟩, br, x, bd, st⟩
      = (Except.ok (bigenUint bs), ⟨h, ⟨bs.reverse ++ p, t⟩, br, x, bd, st⟩) := by
  simp only [cborDecDriver.decUint, getD_bind, land_1f]
  rw [if_neg (by omega), if_neg (by omega), if_pos ha,
    bind_ok (readx_append h p bs t 2 hn br x bd st)]
  rfl

theorem decUint_four (h : CborHandle) (p bs t : List Nat) (br x : Bool) (bd : Nat)
    (st : Bool) (ha : bd % 32 = 0x1a) (hn : bs.length = 4) :
    cborDecDriver.decUint ⟨h, ⟨p, bs ++ t⟩, br, x, bd, st⟩
      = (Except.ok (bigenUint bs), ⟨h, ⟨bs.reverse ++ p, t⟩, br, x, bd, st⟩) := by
  simp only [cborDecDriver.decUint, getD_bind, land_1f]
  rw [if_neg (by omega), if_neg (by omega), if_neg (by omega), if_pos ha,
    bind_ok (readx_append h p bs t 4 hn br x bd st)]
  rfl

theorem decUint_eight (h : CborHandle) (p bs t : List Nat) (br x : Bool) (bd : Nat)
    (st : Bool) (ha : bd % 32 = 0x1b) (hn : bs.length = 8) :
    cborDecDriver.decUint ⟨h, ⟨p, bs ++ t⟩, br, x, bd, st⟩
      = (Except.ok (bigenUint bs), ⟨h, ⟨bs.reverse ++ p, t⟩, br, x, bd, st⟩) := by
  simp only [cborDecDriver.decUint, getD_bind, land_1f]
  rw [if_neg (by omega), if_neg (by omega), if_neg (by omega), if_neg (by omega), if_pos ha,
    bind_ok (readx_append h p bs t 8 hn br x bd st)]
  rfl

theorem decUint_invalid (h : CborHandle) (r : decReader) (br x : Bool) (bd : Nat) (st : Bool)
    (ha : 0x1c ≤ bd % 32) :
    cborDecDriver.decUint ⟨h, r, br, x, bd, st⟩
      = (Except.error (DecErr.invalidDescriptor bd), ⟨h, r, br, x, bd, st⟩) := by
  simp only [cborDecDriver.decUint, getD_bind, land_1f]
  rw [if_neg (by omega), if_neg (by omega), if_neg (by omega), if_neg (by omega),
    if_neg (by omega)]
  rfl

theorem readx_result (n : Nat) (d : cborDecDriver) :
    (∃ bs d1, readx n d = (Except.ok bs, d1)) ∨ readx n d = (Except.error DecErr.eof, d) := by
  unfold readx
  split_ifs
  · exact Or.inl ⟨_, _, rfl⟩
  · exact Or.inr rfl

theorem readn1_result (d : cborDecDriver) :
    (∃ b d1, readn1 d = (Except.ok b, d1)) ∨ readn1 d = (Except.error DecErr.eof, d) := by
  unfold readn1
  split
  · exact Or.inr rfl
  · exact Or.inl ⟨_, _, rfl⟩

/-- With low bits at most `0x1b`, `decUint` returns a value or stops at the end of the
input: it never reports an invalid descriptor. -/
theorem decUint_valid_result (d : cborDecDriver) (ha : d.bd % 32 ≤ 0x1b) :
    (∃ u d1, cborDecDriver.decUint d = (Except.ok u, d1)) ∨
      cborDecDriver.decUint d = (Except.error DecErr.eof, d) := by
  simp only [cborDecDriver.decUint, getD_bind, land_1f]
  split_ifs with h1 h2 h3 h4 h5
  · exact Or.inl ⟨_, _, rfl⟩
  · exact readn1_result d
  · rcases readx_result 2 d with ⟨bs, d1, hr⟩ | hr
    · exact Or.inl ⟨_, _, by rw [bind_ok hr]; rfl⟩
    · exact Or.inr (by rw [bind_error hr])
  · rcases readx_result 4 d with ⟨bs, d1, hr⟩ | hr
    · exact Or.inl ⟨_, _, by rw [bind_ok hr]; rfl⟩
    · exact Or.inr (by rw [bind_error hr])
  · rcases readx_result 8 d with ⟨bs, d1, hr⟩ | hr
    · exact Or.inl ⟨_, _, by rw [bind_ok hr]; rfl⟩
    · exact Or.inr (by rw [bind_error hr])
  · omega

/-- C8. Descriptor length decoding: with a cached descriptor `bd` whose low five bits
are `a = bd & 0x1f`, `decUint` returns `a` and leaves the reader untouched when `a ≤ 23`;
reads exactly the next 1, 2, 4 or 8 bytes and returns their big-endian value when `a` is
`0x18`, `0x19`, `0x1a` or `0x1b`; and it fails with the invalid-descriptor error exactly
when `a` is in `0x1c..0x1f`, the driver (reader included) being left as it was. -/
theorem decUint_descriptor (h : CborHandle) (p t : List Nat) (br x : Bool) (bd : Nat)
    (st : Bool) :
    (bd &&& 0x1f ≤ 23 → cborDecDriver.decUint ⟨h, ⟨p, t⟩, br, x, bd, st⟩
        = (Except.ok (bd &&& 0x1f), ⟨h, ⟨p, t⟩, br, x, bd, st⟩)) ∧
    (bd &&& 0x1f = 0x18 → ∀ b0 : Nat,
      cborDecDriver.decUint ⟨h, ⟨p, b0 :: t⟩, br, x, bd, st⟩
        = (Except.ok b0, ⟨h, ⟨b0 :: p, t⟩, br, x, bd, st⟩)) ∧
    (bd &&& 0x1f = 0x19 → ∀ b0 b1 : Nat,
      cborDecDriver.decUint ⟨h, ⟨p, b0 :: b1 :: t⟩, br, x, bd, st⟩
        = (Except.ok (b0 * 256 + b1), ⟨h, ⟨b1 :: b0 :: p, t⟩, br, x, bd, st⟩)) ∧
    (bd &&& 0x1f = 0x1a → ∀ b0 b1 b2 b3 : Nat,
      cborDecDriver.decUint ⟨h, ⟨p, b0 :: b1 :: b2 :: b3 :: t⟩, br, x, bd, st⟩
        = (Except.ok (((b0 * 256 + b1) * 256 + b2) * 256 + b3),
            ⟨h, ⟨b3 :: b2 :: b1 :: b0 :: p, t⟩, br, x, bd, st⟩)) ∧
    (bd &&& 0x1f = 0x1b → ∀ b0 b1 b2 b3 b4 b5 b6 b7 : Nat,
      cborDecDriver.decUint
          ⟨h, ⟨p, b0 :: b1 :: b2 :: b3 :: b4 :: b5 :: b6 :: b7 :: t⟩, br, x, bd, st⟩
        = (Except.ok (((((((b0 * 256 + b1) * 256 + b2) * 256 + b3) * 256 + b4) * 256 + b5)
              * 256 + b6) * 256 + b7),
            ⟨h, ⟨b7 :: b6 :: b5 :: b4 :: b3 :: b2 :: b1 :: b0 :: p, t⟩, br, x, bd, st⟩)) ∧
    (0x1c ≤ bd &&& 0x1f → cborDecDriver.decUint ⟨h, ⟨p, t⟩, br, x, bd, st⟩
        = (Except.error (DecErr.invalidDescriptor bd), ⟨h, ⟨p, t⟩, br, x, bd, st⟩)) ∧
    ((cborDecDriver.decUint ⟨h, ⟨p, t⟩, br, x, bd, st⟩).1
        = Except.error (DecErr.invalidDescriptor bd) ↔ 0x1c ≤ bd &&& 0x1f) := by
  rw [land_1f]
  refine ⟨?_, ?_, ?_, ?_, ?_, ?_, ?_⟩
  · intro ha
    exact decUint_small h ⟨p, t⟩ br x bd st ha
  · intro ha b0
    exact decUint_one h p t b0 br x bd st ha
  · intro ha b0 b1
    have e : bigenUint [b0, b1] = b0 * 256 + b1 := by
      show (0 * 256 + b0) * 256 + b1 = _
      omega
    rw [← e]
    exact decUint_two h p [b0, b1] t br x bd st ha rfl
  · intro ha b0 b1 b2 b3
    have e : bigenUint [b0, b1, b2, b3] = ((b0 * 256 + b1) * 256 + b2) * 256 + b3 := by
      show (((0 * 256 + b0) * 256 + b1) * 256 + b2) * 256 + b3 = _
      omega
    rw [← e]
    exact decUint_four h p [b0, b1, b2, b3] t br x bd st ha rfl
  · intro ha b0 b1 b2 b3 b4 b5 b6 b7
    have e : bigenUint [b0, b1, b2, b3, b4, b5, b6, b7]
        = ((((((b0 * 256 + b1) * 256 + b2) * 256 + b3) * 256 + b4) * 256 + b5)
              * 256 + b6) * 256 + b7 := by
      show (((((((0 * 256 + b0) * 256 + b1) * 256 + b2) * 256 + b3) * 256 + b4) * 256 + b5)
              * 256 + b6) * 256 + b7 = _
      omega
    rw [← e]
    exact decUint_eight h p [b0, b1, b2, b3, b4, b5, b6, b7] t br x bd st ha rfl
  · intro ha
    exact decUint_invalid h ⟨p, t⟩ br x bd st ha
  · constructor
    · intro herr
      by_contra hlt
      rcases decUint_valid_result ⟨h, ⟨p, t⟩, br, x, bd, st⟩ (by simp only; omega) with
        ⟨u, d1, hr⟩ | hr
      · rw [hr] at herr; cases herr
      · rw [hr] at herr; cases herr
    · intro ha
      rw [decUint_invalid h ⟨p, t⟩ br x bd st ha]

/-- Witness of C8: the descriptor `0x19` followed by the bytes `0x01 0x00` is 256. -/
theorem decUint_descriptor_witness :
    cborDecDriver.decUint ⟨⟨false, false, false⟩, ⟨[0x19], [0x01, 0x00, 0x07]⟩, true, true,
        0x19, false⟩
      = (Except.ok 256, ⟨⟨false, false, false⟩, ⟨[0x00, 0x01, 0x19], [0x07]⟩, true, true,
        0x19, false⟩) :=
  (decUint_descriptor ⟨false, false, false⟩ [0x19] [0x07] true true 0x19 false).2.2.1
    (by decide) 0x01 0x00

/-! ## Frames written by `encUint`, read back by `decUint` -/

theorem bigenUint_bigenPut_two (v : Nat) (hv : v ≤ 0xFFFF) : bigenUint (bigenPut 2 v) = v := by
  rw [bigenPut_two]
  show (0 * 256 + v / 256 % 256) * 256 + v % 256 = v
  omega

theorem bigenUint_bigenPut_four (v : Nat) (hv : v ≤ 0xFFFFFFFF) :
    bigenUint (bigenPut 4 v) = v := by
  rw [bigenPut_four]
  show (((0 * 256 + v / 2 ^ 24 % 256) * 256 + v / 2 ^ 16 % 256) * 256 + v / 2 ^ 8 % 256) * 256
    + v % 256 = v
  omega

theorem bigenUint_bigenPut_eight (v : Nat) (hv : v < 2 ^ 64) :
    bigenUint (bigenPut 8 v) = v := by
  rw [bigenPut_eight]
  show (((((((0 * 256 + v / 2 ^ 56 % 256) * 256 + v / 2 ^ 48 % 256) * 256 + v / 2 ^ 40 % 256)
    * 256 + v / 2 ^ 32 % 256) * 256 + v / 2 ^ 24 % 256) * 256 + v / 2 ^ 16 % 256) * 256
    + v / 2 ^ 8 % 256) * 256 + v % 256 = v
  omega

theorem frameDesc_low (bd v : Nat) (hbd : bd % 0x20 = 0) :
    frameDesc bd v % 32 ≤ 0x1b := by
  unfold frameDesc
  split_ifs <;> omega

theorem frameDesc_major (bd v : Nat) (hbd : bd % 0x20 = 0) :
    frameDesc bd v / 32 = bd / 32 := by
  unfold frameDesc
  split_ifs <;> omega

theorem decUint_frame (h : CborHandle) (p t : List Nat) (br x : Bool) (st : Bool)
    (bd v : Nat) (hv : v < 2 ^ 64) (hbd : bd % 0x20 = 0) :
    cborDecDriver.decUint ⟨h, ⟨p, frameTail v ++ t⟩, br, x, frameDesc bd v, st⟩
      = (Except.ok v, ⟨h, ⟨(frameTail v).reverse ++ p, t⟩, br, x, frameDesc bd v, st⟩) := by
  unfold frameTail
  by_cases h1 : v ≤ 0x17
  · have hd : frameDesc bd v % 32 = v := by unfold frameDesc; rw [if_pos h1]; omega
    rw [if_pos h1]
    have := decUint_small h ⟨p, t⟩ br x (frameDesc bd v) st (by omega)
    rw [hd] at this
    exact this
  by_cases h2 : v ≤ 0xFF
  · have hd : frameDesc bd v % 32 = 0x18 := by
      unfold frameDesc; rw [if_neg h1, if_pos h2]; omega
    rw [if_neg h1, if_pos h2]
    exact decUint_one h p t v br x (frameDesc bd v) st hd
  by_cases h3 : v ≤ 0xFFFF
  · have hd : frameDesc bd v % 32 = 0x19 := by
      unfold frameDesc; rw [if_neg h1, if_neg h2, if_pos h3]; omega
    rw [if_neg h1, if_neg h2, if_pos h3]
    have := decUint_two h p (bigenPut 2 v) t br x (frameDesc bd v) st hd (by simp [bigenPut])
    rw [bigenUint_bigenPut_two v h3] at this
    exact this
  by_cases h4 : v ≤ 0xFFFFFFFF
  · have hd : frameDesc bd v % 32 = 0x1a := by
      unfold frameDesc; rw [if_neg h1, if_neg h2, if_neg h3, if_pos h4]; omega
    rw [if_neg h1, if_neg h2, if_neg h3, if_pos h4]
    have := decUint_four h p (bigenPut 4 v) t br x (frameDesc bd v) st hd (by simp [bigenPut])
    rw [bigenUint_bigenPut_four v h4] at this
    exact this
  · have hd : frameDesc bd v % 32 = 0x1b := by
      unfold frameDesc; rw [if_neg h1, if_neg h2, if_neg h3, if_neg h4]; omega
    rw [if_neg h1, if_neg h2, if_neg h3, if_neg h4]
    have := decUint_eight h p (bigenPut 8 v) t br x (frameDesc bd v) st hd (by simp [bigenPut])
    rw [bigenUint_bigenPut_eight v hv] at this
    exact this

theorem decCheckInteger_cached (h : CborHandle) (r : decReader) (br : Bool) (bd : Nat)
    (st : Bool) (hm : bd / 32 ≤ 1) :
    cborDecDriver.decCheckInteger ⟨h, r, br, true, bd, st⟩
      = (Except.ok (decide (bd / 32 = 1)), ⟨h, r, br, true, bd, st⟩) := by
  unfold cborDecDriver.decCheckInteger
  rw [bind_ok (ensureBd_cached h r br bd st),
    bind_ok (skipTagsIfSt_nontag ⟨h, r, br, true, bd, st⟩ (by simp only; omega))]
  simp only [getD_bind, shr_5, cborMajorUint, cborMajorNegInt]
  by_cases h0 : bd / 32 = 0
  · rw [if_pos h0]; simp [h0]
  · have h1 : bd / 32 = 1 := by omega
    rw [if_neg h0, if_pos h1]; simp [h1]

theorem decCheckInteger_fresh (h : CborHandle) (p t : List Nat) (b : Nat) (br : Bool)
    (bd : Nat) (st : Bool) (hm : b / 32 ≤ 1) :
    cborDecDriver.decCheckInteger ⟨h, ⟨p, b :: t⟩, br, false, bd, st⟩
      = (Except.ok (decide (b / 32 = 1)), ⟨h, ⟨b :: p, t⟩, br, true, b, st⟩) := by
  have hc := decCheckInteger_cached h ⟨b :: p, t⟩ br b st hm
  unfold cborDecDriver.decCheckInteger at hc ⊢
  rw [bind_ok (ensureBd_cached h ⟨b :: p, t⟩ br b st)] at hc
  rw [bind_ok (ensureBd_cons h p t b br bd st)]
  exact hc

/-- Unsigned round trip on the level of frames: `DecodeUint64` over the unsigned frame of
`u` followed by `rest`. -/
theorem DecodeUint64_frame (h : CborHandle) (p rest : List Nat) (br : Bool) (bd0 : Nat)
    (st : Bool) (u : Nat) (hu : u < 2 ^ 64) :
    cborDecDriver.DecodeUint64 ⟨h, ⟨p, frameDesc 0 u :: frameTail u ++ rest⟩, br, false, bd0, st⟩
      = (Except.ok u, ⟨h, ⟨(frameTail u).reverse ++ frameDesc 0 u :: p, rest⟩, br, false,
          frameDesc 0 u, st⟩) := by
  have hm : frameDesc 0 u / 32 = 0 := frameDesc_major 0 u rfl
  unfold cborDecDriver.DecodeUint64
  rw [List.cons_append, bind_ok (decCheckInteger_fresh h p _ _ br bd0 st (by omega))]
  have hd : decide (frameDesc 0 u / 32 = 1) = false := by simp [hm]
  rw [hd]
  simp only [Bool.false_eq_true, if_false]
  rw [bind_ok (decUint_frame h _ rest br true st 0 u hu rfl)]
  rfl

theorem EncodeUint_frame (e : cborEncDriver) (u : Nat) (hu : u < 2 ^ 64) :
    (e.EncodeUint u).w = e.w ++ frameDesc 0 u :: frameTail u :=
  encUint_frame e u 0 hu rfl (by decide)

/-- C2. Unsigned-integer round trip: for every `uint64` `u` and every byte sequence
`rest`, `DecodeUint64` on a fresh decoder over the bytes written by `EncodeUint u`
followed by `rest` returns `u` without error, leaves exactly `rest` unread and the
descriptor cache flag cleared. -/
theorem DecodeUint64_EncodeUint (he hd : CborHandle) (br : Bool) (u : Nat) (rest : List Nat)
    (hu : u < 2 ^ 64) :
    (cborDecDriver.DecodeUint64
        (hd.newDecDriver br ((he.newEncDriver.EncodeUint u).w ++ rest))).1 = Except.ok u ∧
    (cborDecDriver.DecodeUint64
        (hd.newDecDriver br ((he.newEncDriver.EncodeUint u).w ++ rest))).2.r.rest = rest ∧
    (cborDecDriver.DecodeUint64
        (hd.newDecDriver br ((he.newEncDriver.EncodeUint u).w ++ rest))).2.bdRead = false := by
  rw [EncodeUint_frame _ u hu]
  simp only [CborHandle.newEncDriver, CborHandle.newDecDriver, List.nil_append]
  rw [DecodeUint64_frame hd [] rest br 0 hd.SkipUnexpectedTags u hu]
  exact ⟨rfl, rfl, rfl⟩

/-- Witness of C2: the largest `uint64`, followed by two more bytes. -/
theorem DecodeUint64_EncodeUint_witness :
    (2 ^ 64 - 1 < 2 ^ 64) ∧
    (cborDecDriver.DecodeUint64 ((⟨false, false, false⟩ : CborHandle).newDecDriver true
        (((⟨false, false, false⟩ : CborHandle).newEncDriver.EncodeUint (2 ^ 64 - 1)).w
          ++ [1, 2]))).1 = Except.ok (2 ^ 64 - 1) :=
  ⟨by decide, (DecodeUint64_EncodeUint ⟨false, false, false⟩ ⟨false, false, false⟩ true
    (2 ^ 64 - 1) [1, 2] (by decide)).1⟩

/-- The source `DecodeInt64` over an integer frame: the frame is consumed, the cache flag
cleared, and the result is that of `cborDecInt64` on the magnitude read. -/
theorem DecodeInt64_frame (h : CborHandle) (p rest : List Nat) (br : Bool) (bd0 : Nat)
    (st : Bool) (bd u : Nat) (hu : u < 2 ^ 64) (hbd : bd = 0 ∨ bd = 0x20) :
    cborDecDriver.DecodeInt64 ⟨h, ⟨p, frameDesc bd u :: frameTail u ++ rest⟩, br, false, bd0, st⟩
      = (cborDecInt64 u (decide (bd = 0x20)),
          ⟨h, ⟨(frameTail u).reverse ++ frameDesc bd u :: p, rest⟩, br, false,
            frameDesc bd u, st⟩) := by
  have hb32 : bd % 0x20 = 0 := by rcases hbd with rfl | rfl <;> rfl
  have hm : frameDesc bd u / 32 = bd / 32 := frameDesc_major bd u hb32
  have hm1 : frameDesc bd u / 32 ≤ 1 := by rcases hbd with rfl | rfl <;> omega
  have hneg : decide (frameDesc bd u / 32 = 1) = decide (bd = 0x20) := by
    rcases hbd with rfl | rfl <;> simp [hm]
  unfold cborDecDriver.DecodeInt64
  rw [List.cons_append, bind_ok (decCheckInteger_fresh h p _ _ br bd0 st hm1), hneg,
    bind_ok (decUint_frame h _ rest br true st bd u hu hb32)]
  rfl

theorem EncodeInt_frame (e : cborEncDriver) (v : Int) (hlo : MinInt64 ≤ v)
    (hhi : v ≤ MaxInt64) :
    (e.EncodeInt v).w = e.w ++
      (if v < 0 then frameDesc 0x20 (-1 - v).toNat :: frameTail (-1 - v).toNat
       else frameDesc 0 v.toNat :: frameTail v.toNat) := by
  by_cases hneg : v < 0
  · rw [if_pos hneg, (EncodeInt_neg e v hlo hneg).2.2.2]
    unfold MinInt64 at hlo
    exact encUint_frame e _ 0x20 (by omega) rfl (by decide)
  · rw [if_neg hneg, EncodeInt_nonneg e v (by omega) hhi]
    unfold MaxInt64 at hhi
    exact EncodeUint_frame e _ (by omega)

theorem cborDecInt64_pos (u : Nat) (hu : (u : Int) ≤ MaxInt64) :
    cborDecInt64 u false = Except.ok (u : Int) := by
  unfold MaxInt64 at hu
  unfold cborDecInt64 SignedIntV
  simp only [Bool.false_eq_true, if_false]
  rw [if_neg (by omega), wrapInt64_of_range _ (by unfold MinInt64; omega)
    (by unfold MaxInt64; omega)]

theorem cborDecInt64_neg (u : Nat) (hu : (u : Int) ≤ MaxInt64) :
    cborDecInt64 u true = Except.ok (-1 - (u : Int)) := by
  unfold MaxInt64 at hu
  unfold cborDecInt64 SignedIntV
  simp only [if_true]
  have e1 : (u + 1) % 2 ^ 64 = u + 1 := by omega
  rw [e1, if_neg (by omega)]
  simp only
  have e2 : wrapInt64 (-wrapInt64 ((u + 1 : Nat) : Int)) = -1 - (u : Int) := by
    unfold wrapInt64
    push_cast
    omega
  rw [e2]

/-- Source `cborDecInt64` on an unsigned magnitude: the range error for `2^64-1`, the
two's complement conversion of every other `uint64`. -/
theorem cborDecInt64_pos_any (u : Nat) :
    cborDecInt64 u false
      = if u = 2 ^ 64 - 1 then Except.error (DecErr.overflow u)
        else Except.ok (wrapInt64 (u : Int)) := by
  unfold cborDecInt64 SignedIntV
  simp only [Bool.false_eq_true, if_false]

/-- Source `cborDecInt64` on a negative magnitude: `ui + 1` is computed in `uint64`, the
range error is raised when that sum is `2^64-1`, and every other sum is converted and
negated in `int64`. -/
theorem cborDecInt64_neg_any (u : Nat) :
    cborDecInt64 u true
      = if (u + 1) % 2 ^ 64 = 2 ^ 64 - 1 then
          Except.error (DecErr.overflow ((u + 1) % 2 ^ 64))
        else Except.ok (wrapInt64 (-(wrapInt64 (((u + 1) % 2 ^ 64 : Nat) : Int)))) := by
  unfold cborDecInt64 SignedIntV
  simp only [if_true]
  split_ifs <;> rfl

/-- C1. Signed round trip for every `int64` `v`, `MinInt64` and `MaxInt64` included:
`DecodeInt64` on a fresh decoder over the bytes written by `EncodeInt v` followed by
`rest` returns `v` without error, leaves exactly `rest` unread and the cache flag
cleared. -/
theorem DecodeInt64_EncodeInt (he hd : CborHandle) (br : Bool) (v : Int) (rest : List Nat)
    (hlo : MinInt64 ≤ v) (hhi : v ≤ MaxInt64) :
    (cborDecDriver.DecodeInt64
        (hd.newDecDriver br ((he.newEncDriver.EncodeInt v).w ++ rest))).1 = Except.ok v ∧
    (cborDecDriver.DecodeInt64
        (hd.newDecDriver br ((he.newEncDriver.EncodeInt v).w ++ rest))).2.r.rest = rest ∧
    (cborDecDriver.DecodeInt64
        (hd.newDecDriver br ((he.newEncDriver.EncodeInt v).w ++ rest))).2.bdRead = false := by
  rw [EncodeInt_frame _ v hlo hhi]
  simp only [CborHandle.newEncDriver, CborHandle.newDecDriver, List.nil_append]
  unfold MinInt64 at hlo
  by_cases hneg : v < 0
  · rw [if_pos hneg, DecodeInt64_frame hd [] rest br 0 hd.SkipUnexpectedTags 0x20 _
      (by omega) (Or.inr rfl)]
    refine ⟨?_, rfl, rfl⟩
    simp only [decide_True]
    rw [cborDecInt64_neg _ (by unfold MaxInt64; omega)]
    congr 1
    omega
  · have hhi2 := hhi
    unfold MaxInt64 at hhi2
    rw [if_neg hneg, DecodeInt64_frame hd [] rest br 0 hd.SkipUnexpectedTags 0 _
      (by omega) (Or.inl rfl)]
    refine ⟨?_, rfl, rfl⟩
    have hd0 : decide ((0 : Nat) = 0x20) = false := by decide
    rw [hd0, cborDecInt64_pos _ (by unfold MaxInt64; omega),
      Int.toNat_of_nonneg (by omega)]

/-- Witness of C1: the round trip at `MinInt64`, whose encoding is
`3b 7f ff ff ff ff ff ff ff`. -/
theorem DecodeInt64_EncodeInt_witness :
    (MinInt64 ≤ MinInt64 ∧ MinInt64 ≤ MaxInt64) ∧
    (cborDecDriver.DecodeInt64 ((⟨false, false, false⟩ : CborHandle).newDecDriver true
        (((⟨false, false, false⟩ : CborHandle).newEncDriver.EncodeInt MinInt64).w
          ++ [1, 2]))).1 = Except.ok MinInt64 :=
  ⟨by decide, (DecodeInt64_EncodeInt ⟨false, false, false⟩ ⟨false, false, false⟩ true
    MinInt64 [1, 2] (by decide) (by decide)).1⟩

/-- Source `DecodeInt64` over the 8-byte frame of a magnitude `n ≥ 2^63`, the form of
every integer item whose value lies outside `int64` (and of the item `MinInt64`): the
result is that of `cborDecInt64`, which is the range error for the unsigned item
`2^64-1` and for the negative item of magnitude `2^64-2` only; every other unsigned item
comes back as `n - 2^64`, every other negative item as the `int64` negation of
`uint64(n + 1)`. -/
theorem DecodeInt64_out_of_range (h : CborHandle) (p rest : List Nat) (br : Bool)
    (bd0 : Nat) (st : Bool) (n : Nat) (hlo : 2 ^ 63 ≤ n) (hhi : n < 2 ^ 64) :
    (cborDecDriver.DecodeInt64
        ⟨h, ⟨p, 0x1b :: bigenPut 8 n ++ rest⟩, br, false, bd0, st⟩).1
      = (if n = 2 ^ 64 - 1 then Except.error (DecErr.overflow n)
         else Except.ok ((n : Int) - 2 ^ 64)) ∧
    (cborDecDriver.DecodeInt64
        ⟨h, ⟨p, 0x3b :: bigenPut 8 n ++ rest⟩, br, false, bd0, st⟩).1
      = (if n = 2 ^ 64 - 2 then Except.error (DecErr.overflow (2 ^ 64 - 1))
         else if n = 2 ^ 64 - 1 then Except.ok 0
         else Except.ok (2 ^ 64 - 1 - (n : Int))) := by
  have e1 : frameDesc 0 n = 0x1b := by
    unfold frameDesc
    rw [if_neg (by omega), if_neg (by omega), if_neg (by omega), if_neg (by omega)]
  have e2 : frameDesc 0x20 n = 0x3b := by
    unfold frameDesc
    rw [if_neg (by omega), if_neg (by omega), if_neg (by omega), if_neg (by omega)]
  have e3 : frameTail n = bigenPut 8 n := by
    unfold frameTail
    rw [if_neg (by omega), if_neg (by omega), if_neg (by omega), if_neg (by omega)]
  have h1 := DecodeInt64_frame h p rest br bd0 st 0 n hhi (Or.inl rfl)
  have h2 := DecodeInt64_frame h p rest br bd0 st 0x20 n hhi (Or.inr rfl)
  rw [e1, e3] at h1
  rw [e2, e3] at h2
  rw [h1, h2]
  have hd0 : decide ((0 : Nat) = 0x20) = false := by decide
  simp only [hd0, decide_True]
  rw [cborDecInt64_pos_any, cborDecInt64_neg_any]
  constructor
  · by_cases hn : n = 2 ^ 64 - 1
    · rw [if_pos hn, if_pos hn]
    · rw [if_neg hn, if_neg hn]
      have e4 : wrapInt64 (n : Int) = (n : Int) - 2 ^ 64 := by
        unfold wrapInt64
        omega
      rw [e4]
  · by_cases hn : n = 2 ^ 64 - 2
    · have e4 : (n + 1) % 2 ^ 64 = 2 ^ 64 - 1 := by omega
      rw [if_pos hn, if_pos e4, e4]
    · rw [if_neg hn, if_neg (by omega)]
      by_cases hm : n = 2 ^ 64 - 1
      · have e4 : (n + 1) % 2 ^ 64 = 0 := by omega
        rw [if_pos hm, e4]
        have e5 : wrapInt64 (-wrapInt64 ((0 : Nat) : Int)) = 0 := by
          unfold wrapInt64
          omega
        rw [e5]
      · rw [if_neg hm]
        have e4 : (n + 1) % 2 ^ 64 = n + 1 := by omega
        rw [e4]
        have e5 : wrapInt64 (-wrapInt64 ((n + 1 : Nat) : Int)) = 2 ^ 64 - 1 - (n : Int) := by
          unfold wrapInt64
          push_cast
          omega
        rw [e5]

/-- C6, at its failing inputs. The negative-integer item `3b ff ff ff ff ff ff ff ff` has
the value `-(1 + (2^64-1)) = -2^64`, outside `int64`; `DecodeInt64` over it (followed by
any `rest`) returns the wrapped value 0 without error, because `cborDecInt64` computes
`ui + 1` in `uint64` before the range check. The unsigned item
`1b 80 00 00 00 00 00 00 00` (`2^63`) is not rejected either: it comes back as
`MinInt64`, and the negative item `3b 80 00 00 00 00 00 00 00` (`-2^63-1`) as
`MaxInt64`. Of all the items whose value lies outside `int64` (magnitude `n ≥ 2^63`,
apart from the negative item of magnitude `2^63-1`, which is `MinInt64`), only the
unsigned item `2^64-1` and the negative item of magnitude `2^64-2` end in the range
error; every other one is decoded to a wrapped value. -/
theorem DecodeInt64_negative_max_wraps (hd : CborHandle) (br : Bool) (rest : List Nat) :
    cborDecDriver.DecodeInt64 (hd.newDecDriver br
        ([0x3b, 0xff, 0xff, 0xff, 0xff, 0xff, 0xff, 0xff, 0xff] ++ rest))
      = (Except.ok 0, ⟨hd, ⟨[0xff, 0xff, 0xff, 0xff, 0xff, 0xff, 0xff, 0xff, 0x3b], rest⟩,
          br, false, 0x3b, hd.SkipUnexpectedTags⟩) ∧
    (cborDecDriver.DecodeInt64 (hd.newDecDriver br
        ([0x1b, 0x80, 0x00, 0x00, 0x00, 0x00, 0x00, 0x00, 0x00] ++ rest))).1
      = Except.ok MinInt64 ∧
    (cborDecDriver.DecodeInt64 (hd.newDecDriver br
        ([0x3b, 0x80, 0x00, 0x00, 0x00, 0x00, 0x00, 0x00, 0x00] ++ rest))).1
      = Except.ok MaxInt64 ∧
    (cborDecDriver.DecodeInt64 (hd.newDecDriver br
        ([0x1b, 0xff, 0xff, 0xff, 0xff, 0xff, 0xff, 0xff, 0xff] ++ rest))).1
      = Except.error (DecErr.overflow (2 ^ 64 - 1)) ∧
    (cborDecDriver.DecodeInt64 (hd.newDecDriver br
        ([0x3b, 0xff, 0xff, 0xff, 0xff, 0xff, 0xff, 0xff, 0xfe] ++ rest))).1
      = Except.error (DecErr.overflow (2 ^ 64 - 1)) ∧
    (∀ n : Nat, 2 ^ 63 ≤ n → n < 2 ^ 64 →
      (n ≠ 2 ^ 64 - 1 →
        (cborDecDriver.DecodeInt64 (hd.newDecDriver br (0x1b :: bigenPut 8 n ++ rest))).1
          = Except.ok ((n : Int) - 2 ^ 64)) ∧
      (n ≠ 2 ^ 64 - 2 → n ≠ 2 ^ 64 - 1 →
        (cborDecDriver.DecodeInt64 (hd.newDecDriver br (0x3b :: bigenPut 8 n ++ rest))).1
          = Except.ok (2 ^ 64 - 1 - (n : Int)))) := by
  have hA := fun n hlo hhi =>
    DecodeInt64_out_of_range hd [] rest br 0 hd.SkipUnexpectedTags n hlo hhi
  refine ⟨?_, ?_, ?_, ?_, ?_, ?_⟩
  · have h1 := DecodeInt64_frame hd [] rest br 0 hd.SkipUnexpectedTags 0x20 (2 ^ 64 - 1)
      (by norm_num) (Or.inr rfl)
    have e1 : frameDesc 0x20 (2 ^ 64 - 1) = 0x3b := by decide
    have e2 : frameTail (2 ^ 64 - 1) = [0xff, 0xff, 0xff, 0xff, 0xff, 0xff, 0xff, 0xff] := by
      decide
    rw [e1, e2] at h1
    exact h1
  · have h1 := (hA (2 ^ 63) (le_refl _) (by norm_num)).1
    have e8 : bigenPut 8 (2 ^ 63) = [0x80, 0x00, 0x00, 0x00, 0x00, 0x00, 0x00, 0x00] := by
      decide
    rw [e8, if_neg (by norm_num)] at h1
    exact h1
  · have h1 := (hA (2 ^ 63) (le_refl _) (by norm_num)).2
    have e8 : bigenPut 8 (2 ^ 63) = [0x80, 0x00, 0x00, 0x00, 0x00, 0x00, 0x00, 0x00] := by
      decide
    rw [e8, if_neg (by norm_num), if_neg (by norm_num)] at h1
    exact h1
  · have h1 := (hA (2 ^ 64 - 1) (by norm_num) (by norm_num)).1
    have e8 : bigenPut 8 (2 ^ 64 - 1) = [0xff, 0xff, 0xff, 0xff, 0xff, 0xff, 0xff, 0xff] := by
      decide
    rw [e8, if_pos rfl] at h1
    exact h1
  · have h1 := (hA (2 ^ 64 - 2) (by norm_num) (by norm_num)).2
    have e8 : bigenPut 8 (2 ^ 64 - 2) = [0xff, 0xff, 0xff, 0xff, 0xff, 0xff, 0xff, 0xfe] := by
      decide
    rw [e8, if_pos rfl] at h1
    exact h1
  · intro n hlo hhi
    constructor
    · intro hn
      have h1 := (hA n hlo hhi).1
      rw [if_neg hn] at h1
      exact h1
    · intro hn1 hn2
      have h1 := (hA n hlo hhi).2
      rw [if_neg hn1, if_neg hn2] at h1
      exact h1

theorem decCheckInteger_fresh_bad (h : CborHandle) (p t : List Nat) (b : Nat) (br : Bool)
    (bd : Nat) (hm : 1 < b / 32) :
    cborDecDriver.decCheckInteger ⟨h, ⟨p, b :: t⟩, br, false, bd, false⟩
      = (Except.error (DecErr.invalidInteger (b >>> 5) b), ⟨h, ⟨b :: p, t⟩, br, true, b, false⟩) := by
  unfold cborDecDriver.decCheckInteger
  rw [bind_ok (ensureBd_cons h p t b br bd false),
    bind_ok (skipTagsIfSt_off ⟨h, ⟨b :: p, t⟩, br, true, b, false⟩ rfl)]
  simp only [getD_bind, shr_5, cborMajorUint, cborMajorNegInt]
  rw [if_neg (by omega), if_neg (by omega)]
  rfl

/-- C7. Negative into unsigned fails: on a fresh decoder whose next descriptor byte `b`
has major type 1, whatever follows it and whatever the skip-tags setting, `DecodeUint64`
fails with the negative-to-unsigned decode error; and when the major type of `b` is
neither 0 nor 1, with tag skipping off, both `DecodeInt64` and `DecodeUint64` fail with
the invalid-integer decode error. In both cases only the descriptor has been read. -/
theorem DecodeUint64_negative_fails (h : CborHandle) (p t : List Nat) (b : Nat) (br : Bool)
    (bd0 : Nat) (st : Bool) :
    (b >>> 5 = cborMajorNegInt →
      cborDecDriver.DecodeUint64 ⟨h, ⟨p, b :: t⟩, br, false, bd0, st⟩
        = (Except.error DecErr.negativeToUnsigned, ⟨h, ⟨b :: p, t⟩, br, true, b, st⟩)) ∧
    (b >>> 5 ≠ cborMajorUint → b >>> 5 ≠ cborMajorNegInt →
      cborDecDriver.DecodeInt64 ⟨h, ⟨p, b :: t⟩, br, false, bd0, false⟩
        = (Except.error (DecErr.invalidInteger (b >>> 5) b),
            ⟨h, ⟨b :: p, t⟩, br, true, b, false⟩) ∧
      cborDecDriver.DecodeUint64 ⟨h, ⟨p, b :: t⟩, br, false, bd0, false⟩
        = (Except.error (DecErr.invalidInteger (b >>> 5) b),
            ⟨h, ⟨b :: p, t⟩, br, true, b, false⟩)) := by
  simp only [shr_5, cborMajorUint, cborMajorNegInt]
  constructor
  · intro hm
    unfold cborDecDriver.DecodeUint64
    rw [bind_ok (decCheckInteger_fresh h p t b br bd0 st (by omega))]
    simp [hm]
  · intro h0 h1
    have hb := decCheckInteger_fresh_bad h p t b br bd0 (by omega)
    rw [shr_5] at hb
    constructor
    · unfold cborDecDriver.DecodeInt64
      rw [bind_error hb]
    · unfold cborDecDriver.DecodeUint64
      rw [bind_error hb]

/-- Witness of C7: the negative item `0x38 0x63` (-100) into an unsigned target. -/
theorem DecodeUint64_negative_fails_witness :
    cborDecDriver.DecodeUint64 ⟨⟨false, false, false⟩, ⟨[], [0x38, 0x63]⟩, true, false, 0, false⟩
      = (Except.error DecErr.negativeToUnsigned,
          ⟨⟨false, false, false⟩, ⟨[0x38], [0x63]⟩, true, true, 0x38, false⟩) :=
  (DecodeUint64_negative_fails ⟨false, false, false⟩ [] [0x63] 0x38 true 0 false).1
    (by decide)

theorem bind_eq_of_eq {α β : Type} {m : DecM α} {f : α → DecM β} {d d1 : cborDecDriver}
    (h : m d = m d1) : (m >>= f) d = (m >>= f) d1 := by
  show (match m d with
    | (Except.ok a, d2) => f a d2
    | (Except.error err, d2) => (Except.error err, d2)) =
    (match m d1 with
    | (Except.ok a, d2) => f a d2
    | (Except.error err, d2) => (Except.error err, d2))
  rw [h]

theorem bind_congr_apply {α β : Type} {m m1 : DecM α} {f : α → DecM β}
    {d d1 : cborDecDriver} (h : m d = m1 d1) : (m >>= f) d = (m1 >>= f) d1 := by
  show (match m d with
    | (Except.ok a, d2) => f a d2
    | (Except.error err, d2) => (Except.error err, d2)) =
    (match m1 d1 with
    | (Except.ok a, d2) => f a d2
    | (Except.error err, d2) => (Except.error err, d2))
  rw [h]

theorem bind_error_fst {α β : Type} {m : DecM α} {f : α → DecM β} {d : cborDecDriver}
    {err : DecErr} (h : (m d).1 = Except.error err) :
    ((m >>= f) d).1 = Except.error err := by
  rcases hm : m d with ⟨res, d1⟩
  rw [hm] at h
  simp only at h
  subst h
  rw [bind_error hm]

theorem DecM_bind_assoc {α β γ : Type} (m : DecM α) (f : α → DecM β) (g : β → DecM γ) :
    (m >>= f) >>= g = m >>= fun a => f a >>= g := by
  funext d
  rcases hm : m d with ⟨res, d1⟩
  cases res with
  | error err =>
    rw [bind_error (bind_error hm), bind_error hm]
  | ok a =>
    have h1 : (m >>= f) d = f a d1 := bind_ok hm
    rw [bind_congr_apply h1, bind_ok hm]

theorem frameDesc_mod (bd v : Nat) (hbd : bd % 0x20 = 0) (hlt : bd < 256) :
    frameDesc bd v < 256 ∧ frameDesc bd v % 32 ≠ 31 := by
  unfold frameDesc
  split_ifs <;> omega

theorem decLen_frame (h : CborHandle) (p t : List Nat) (br x : Bool) (st : Bool)
    (bd v : Nat) (hv : v < 2 ^ 64) (hbd : bd % 0x20 = 0) :
    cborDecDriver.decLen ⟨h, ⟨p, frameTail v ++ t⟩, br, x, frameDesc bd v, st⟩
      = (Except.ok (wrapInt64 (v : Int)),
          ⟨h, ⟨(frameTail v).reverse ++ p, t⟩, br, x, frameDesc bd v, st⟩) := by
  unfold cborDecDriver.decLen
  rw [bind_ok (decUint_frame h p t br x st bd v hv hbd)]
  rfl

/-- Source `ReadArrayStart` over a definite-length array header: the frame of `u` with
base `0x80` is consumed and the count is returned as the `int` conversion of `u`. -/
theorem ReadArrayStart_frame (h : CborHandle) (p rest : List Nat) (br : Bool) (bd0 : Nat)
    (st : Bool) (u : Nat) (hu : u < 2 ^ 64) :
    cborDecDriver.ReadArrayStart
        ⟨h, ⟨p, frameDesc 0x80 u :: frameTail u ++ rest⟩, br, false, bd0, st⟩
      = (Except.ok (wrapInt64 (u : Int)),
          ⟨h, ⟨(frameTail u).reverse ++ frameDesc 0x80 u :: p, rest⟩, br, false,
            frameDesc 0x80 u, st⟩) := by
  have hm : frameDesc 0x80 u / 32 = 4 := frameDesc_major 0x80 u rfl
  have hne := (frameDesc_mod 0x80 u rfl (by decide)).2
  unfold cborDecDriver.ReadArrayStart
  rw [List.cons_append, bind_ok (ensureBd_cons h p _ _ br bd0 st),
    bind_ok (skipTagsIfSt_nontag _ (by simp only; omega))]
  simp only [modifyD_bind, getD_bind, shr_5, cborBdIndefiniteArray, cborMajorArray]
  rw [if_neg (by omega), if_neg (by omega)]
  exact decLen_frame h _ rest br false st 0x80 u hu rfl

/-- Source `ReadMapStart` over a definite-length map header: the frame of `u` with base
`0xa0` is consumed and the count is returned as the `int` conversion of `u`. -/
theorem ReadMapStart_frame (h : CborHandle) (p rest : List Nat) (br : Bool) (bd0 : Nat)
    (st : Bool) (u : Nat) (hu : u < 2 ^ 64) :
    cborDecDriver.ReadMapStart
        ⟨h, ⟨p, frameDesc 0xa0 u :: frameTail u ++ rest⟩, br, false, bd0, st⟩
      = (Except.ok (wrapInt64 (u : Int)),
          ⟨h, ⟨(frameTail u).reverse ++ frameDesc 0xa0 u :: p, rest⟩, br, false,
            frameDesc 0xa0 u, st⟩) := by
  have hm : frameDesc 0xa0 u / 32 = 5 := frameDesc_major 0xa0 u rfl
  have hne := (frameDesc_mod 0xa0 u rfl (by decide)).2
  unfold cborDecDriver.ReadMapStart
  rw [List.cons_append, bind_ok (ensureBd_cons h p _ _ br bd0 st),
    bind_ok (skipTagsIfSt_nontag _ (by simp only; omega))]
  simp only [modifyD_bind, getD_bind, shr_5, cborBdIndefiniteMap, cborMajorMap]
  rw [if_neg (by omega), if_neg (by omega)]
  exact decLen_frame h _ rest br false st 0xa0 u hu rfl

theorem ReadArrayStart_indefinite (h : CborHandle) (p rest : List Nat) (br : Bool)
    (bd0 : Nat) (st : Bool) :
    cborDecDriver.ReadArrayStart ⟨h, ⟨p, 0x9f :: rest⟩, br, false, bd0, st⟩
      = (Except.ok (-1), ⟨h, ⟨0x9f :: p, rest⟩, br, false, 0x9f, st⟩) := by
  unfold cborDecDriver.ReadArrayStart
  rw [bind_ok (ensureBd_cons h p _ _ br bd0 st),
    bind_ok (skipTagsIfSt_nontag _ (by simp only; omega))]
  rfl

theorem ReadMapStart_indefinite (h : CborHandle) (p rest : List Nat) (br : Bool)
    (bd0 : Nat) (st : Bool) :
    cborDecDriver.ReadMapStart ⟨h, ⟨p, 0xbf :: rest⟩, br, false, bd0, st⟩
      = (Except.ok (-1), ⟨h, ⟨0xbf :: p, rest⟩, br, false, 0xbf, st⟩) := by
  unfold cborDecDriver.ReadMapStart
  rw [bind_ok (ensureBd_cons h p _ _ br bd0 st),
    bind_ok (skipTagsIfSt_nontag _ (by simp only; omega))]
  rfl

/-- C10. Container header round trip, for a count `0 ≤ n < 2^63`. In definite mode
`WriteArrayStart n` writes what `encUint n` writes with base `0x80` (the minimal-width
frame of `n`), `WriteArrayEnd` writes nothing, and `ReadArrayStart` on a fresh decoder
over those bytes followed by `rest` returns `n`, leaving `rest` unread and the cache flag
cleared. In indefinite mode `WriteArrayStart n` writes exactly `0x9f`, `WriteArrayEnd`
exactly `0xff`, and `ReadArrayStart` over `0x9f` returns -1. The same holds for
`WriteMapStart`, `WriteMapEnd`, `ReadMapStart` with base `0xa0` and marker `0xbf`. -/
theorem container_header_round_trip (e : cborEncDriver) (hd : CborHandle) (br : Bool)
    (n : Int) (rest : List Nat) (h0 : 0 ≤ n) (h1 : n < 2 ^ 63) :
    (e.h.IndefiniteLength = false →
      (e.WriteArrayStart n = e.encUint n.toNat cborBaseArray ∧
        (e.WriteArrayStart n).w = e.w ++ frameDesc 0x80 n.toNat :: frameTail n.toNat ∧
        e.WriteArrayEnd = e ∧
        cborDecDriver.ReadArrayStart
            (hd.newDecDriver br (frameDesc 0x80 n.toNat :: frameTail n.toNat ++ rest))
          = (Except.ok n, ⟨hd, ⟨(frameTail n.toNat).reverse ++ [frameDesc 0x80 n.toNat], rest⟩,
              br, false, frameDesc 0x80 n.toNat, hd.SkipUnexpectedTags⟩)) ∧
      (e.WriteMapStart n = e.encUint n.toNat cborBaseMap ∧
        (e.WriteMapStart n).w = e.w ++ frameDesc 0xa0 n.toNat :: frameTail n.toNat ∧
        e.WriteMapEnd = e ∧
        cborDecDriver.ReadMapStart
            (hd.newDecDriver br (frameDesc 0xa0 n.toNat :: frameTail n.toNat ++ rest))
          = (Except.ok n, ⟨hd, ⟨(frameTail n.toNat).reverse ++ [frameDesc 0xa0 n.toNat], rest⟩,
              br, false, frameDesc 0xa0 n.toNat, hd.SkipUnexpectedTags⟩))) ∧
    (e.h.IndefiniteLength = true →
      ((e.WriteArrayStart n).w = e.w ++ [0x9f] ∧
        (e.WriteArrayEnd).w = e.w ++ [0xff] ∧
        cborDecDriver.ReadArrayStart (hd.newDecDriver br (0x9f :: rest))
          = (Except.ok (-1), ⟨hd, ⟨[0x9f], rest⟩, br, false, 0x9f, hd.SkipUnexpectedTags⟩)) ∧
      ((e.WriteMapStart n).w = e.w ++ [0xbf] ∧
        (e.WriteMapEnd).w = e.w ++ [0xff] ∧
        cborDecDriver.ReadMapStart (hd.newDecDriver br (0xbf :: rest))
          = (Except.ok (-1), ⟨hd, ⟨[0xbf], rest⟩, br, false, 0xbf, hd.SkipUnexpectedTags⟩))) := by
  have hu : n.toNat < 2 ^ 64 := by omega
  have hT : toUint64 n = n.toNat := toUint64_of_nonneg n h0 (by unfold MaxInt64; omega)
  have hW : wrapInt64 ((n.toNat : Nat) : Int) = n := by
    rw [Int.toNat_of_nonneg h0]
    exact wrapInt64_of_range n (by unfold MinInt64; omega) (by unfold MaxInt64; omega)
  constructor
  · intro hdef
    constructor
    · have hs : e.WriteArrayStart n = e.encUint n.toNat cborBaseArray := by
        unfold cborEncDriver.WriteArrayStart cborEncDriver.encLen
        rw [hdef, hT]
        rfl
      refine ⟨hs, ?_, ?_, ?_⟩
      · rw [hs]; exact encUint_frame e _ 0x80 hu rfl (by decide)
      · unfold cborEncDriver.WriteArrayEnd; rw [hdef]; rfl
      · have := ReadArrayStart_frame hd [] rest br 0 hd.SkipUnexpectedTags n.toNat hu
        rw [hW] at this
        exact this
    · have hs : e.WriteMapStart n = e.encUint n.toNat cborBaseMap := by
        unfold cborEncDriver.WriteMapStart cborEncDriver.encLen
        rw [hdef, hT]
        rfl
      refine ⟨hs, ?_, ?_, ?_⟩
      · rw [hs]; exact encUint_frame e _ 0xa0 hu rfl (by decide)
      · unfold cborEncDriver.WriteMapEnd; rw [hdef]; rfl
      · have := ReadMapStart_frame hd [] rest br 0 hd.SkipUnexpectedTags n.toNat hu
        rw [hW] at this
        exact this
  · intro hind
    refine ⟨⟨?_, ?_, ?_⟩, ⟨?_, ?_, ?_⟩⟩
    · unfold cborEncDriver.WriteArrayStart; rw [hind]; rfl
    · unfold cborEncDriver.WriteArrayEnd; rw [hind]; rfl
    · exact ReadArrayStart_indefinite hd [] rest br 0 hd.SkipUnexpectedTags
    · unfold cborEncDriver.WriteMapStart; rw [hind]; rfl
    · unfold cborEncDriver.WriteMapEnd; rw [hind]; rfl
    · exact ReadMapStart_indefinite hd [] rest br 0 hd.SkipUnexpectedTags

/-- Witness of C10: an array header for 1000 elements, in definite mode. -/
theorem container_header_round_trip_witness :
    ((0 : Int) ≤ 1000 ∧ (1000 : Int) < 2 ^ 63) ∧
    (({ w := [], h := ⟨false, false, false⟩ } : cborEncDriver).WriteArrayStart 1000).w
      = [0x99, 0x03, 0xe8] ∧
    (cborDecDriver.ReadArrayStart
      ((⟨false, false, false⟩ : CborHandle).newDecDriver true ([0x99, 0x03, 0xe8] ++ [7]))).1
      = Except.ok 1000 :=
  ⟨by decide,
    ((container_header_round_trip ⟨[], ⟨false, false, false⟩⟩ ⟨false, false, false⟩ true
      1000 [7] (by decide) (by decide)).1 rfl).1.2.1,
    congrArg Prod.fst ((container_header_round_trip ⟨[], ⟨false, false, false⟩⟩
      ⟨false, false, false⟩ true 1000 [7] (by decide) (by decide)).1 rfl).1.2.2.2⟩

/-! ## Strings -/

theorem CheckBreak_break (h : CborHandle) (p t : List Nat) (br : Bool) (bd0 : Nat)
    (st : Bool) :
    cborDecDriver.CheckBreak ⟨h, ⟨p, 0xff :: t⟩, br, false, bd0, st⟩
      = (Except.ok true, ⟨h, ⟨0xff :: p, t⟩, br, false, 0xff, st⟩) := by
  unfold cborDecDriver.CheckBreak
  rw [bind_ok (ensureBd_cons h p t _ br bd0 st)]
  rfl

theorem CheckBreak_other (h : CborHandle) (p t : List Nat) (b : Nat) (br : Bool) (bd0 : Nat)
    (st : Bool) (hb : b ≠ 0xff) :
    cborDecDriver.CheckBreak ⟨h, ⟨p, b :: t⟩, br, false, bd0, st⟩
      = (Except.ok false, ⟨h, ⟨b :: p, t⟩, br, true, b, st⟩) := by
  unfold cborDecDriver.CheckBreak
  rw [bind_ok (ensureBd_cons h p t _ br bd0 st)]
  simp only [getD_bind, cborBdBreak]
  rw [if_neg hb]
  rfl

theorem encLen_frame (e : cborEncDriver) (bb : Nat) (n : Nat) (hn : n < 2 ^ 63)
    (hbd : bb % 0x20 = 0) (hlt : bb < 256) :
    (e.encLen bb (n : Int)).w = e.w ++ frameDesc bb n :: frameTail n ∧
    (e.encLen bb (n : Int)).h = e.h := by
  unfold cborEncDriver.encLen
  have hT : toUint64 (n : Int) = n := by
    rw [toUint64_of_nonneg _ (by omega) (by unfold MaxInt64; omega)]
    rfl
  rw [hT]
  exact ⟨encUint_frame e n bb (by omega) hbd hlt, encUint_h e n bb⟩

/-- One chunk read by the loop of `decAppendIndefiniteBytes`: a definite-length frame of a
string major type, holding `chunk`, followed by more input. -/
theorem decAppendIndefiniteBytesLoop_chunk (h : CborHandle) (p t : List Nat) (br : Bool)
    (bd0 : Nat) (st : Bool) (bb : Nat) (hbb : bb = 0x40 ∨ bb = 0x60) (chunk acc : List Nat)
    (hn : chunk.length < 2 ^ 63) (k : Nat) :
    cborDecDriver.decAppendIndefiniteBytesLoop (k + 1) acc
        ⟨h, ⟨p, frameDesc bb chunk.length :: frameTail chunk.length ++ chunk ++ t⟩, br, false,
          bd0, st⟩
      = cborDecDriver.decAppendIndefiniteBytesLoop k (acc ++ chunk)
        ⟨h, ⟨chunk.reverse ++ ((frameTail chunk.length).reverse ++
            frameDesc bb chunk.length :: p), t⟩, br, false, frameDesc bb chunk.length, st⟩ := by
  have hb32 : bb % 0x20 = 0 := by rcases hbb with rfl | rfl <;> rfl
  have hb256 : bb < 256 := by rcases hbb with rfl | rfl <;> decide
  have hm : frameDesc bb chunk.length / 32 = bb / 32 := frameDesc_major bb _ hb32
  have hmod := frameDesc_mod bb chunk.length hb32 hb256
  have hW : wrapInt64 ((chunk.length : Nat) : Int) = (chunk.length : Int) :=
    wrapInt64_of_range _ (by unfold MinInt64; omega) (by unfold MaxInt64; omega)
  conv_lhs => unfold cborDecDriver.decAppendIndefiniteBytesLoop
  rw [List.cons_append, List.cons_append,
    bind_ok (CheckBreak_other h p _ _ br bd0 st (by omega))]
  simp only [Bool.false_eq_true, if_false, getD_bind, shr_5, cborMajorBytes, cborMajorString]
  rw [if_neg (by rcases hbb with rfl | rfl <;> omega), List.append_assoc,
    bind_ok (decLen_frame h _ (chunk ++ t) br true st bb chunk.length (by omega) hb32), hW,
    if_neg (by omega), Int.toNat_ofNat,
    bind_ok (readx_append h _ chunk t chunk.length rfl br true _ st)]
  rfl

theorem decAppendIndefiniteBytesLoop_break (h : CborHandle) (p t : List Nat) (br : Bool)
    (bd0 : Nat) (st : Bool) (acc : List Nat) (k : Nat) :
    cborDecDriver.decAppendIndefiniteBytesLoop (k + 1) acc ⟨h, ⟨p, 0xff :: t⟩, br, false, bd0, st⟩
      = (Except.ok acc, ⟨h, ⟨0xff :: p, t⟩, br, false, 0xff, st⟩) := by
  unfold cborDecDriver.decAppendIndefiniteBytesLoop
  rw [bind_ok (CheckBreak_break h p t br bd0 st)]
  rfl

/-- The chunk loop of `encStringBytesS` and the chunk loop of `decAppendIndefiniteBytes`
are inverse to each other: what the encoder loop writes from index `i` on, followed by
the break byte, is read back as the payload from index `i` on. -/
theorem chunk_loops_inverse (bb : Nat) (hbb : bb = 0x40 ∨ bb = 0x60) (v : List Nat)
    (hlen : v.length < 2 ^ 63) (blen : Nat) (hblen : 0 < blen) :
    ∀ (fuel i : Nat) (e : cborEncDriver), v.length - i ≤ fuel →
      ∃ bytes : List Nat,
        (cborEncDriver.encStringBytesSLoop bb v v.length blen fuel i e).w = e.w ++ bytes ∧
        (cborEncDriver.encStringBytesSLoop bb v v.length blen fuel i e).h = e.h ∧
        ∀ (h : CborHandle) (p rest : List Nat) (br : Bool) (bd0 : Nat) (st : Bool) (k : Nat)
          (acc : List Nat), bytes.length ≤ k →
          cborDecDriver.decAppendIndefiniteBytesLoop (k + 1) acc
              ⟨h, ⟨p, bytes ++ 0xff :: rest⟩, br, false, bd0, st⟩
            = (Except.ok (acc ++ v.drop i),
                ⟨h, ⟨0xff :: (bytes.reverse ++ p), rest⟩, br, false, 0xff, st⟩) := by
  have hb32 : bb % 0x20 = 0 := by rcases hbb with rfl | rfl <;> rfl
  have hb256 : bb < 256 := by rcases hbb with rfl | rfl <;> decide
  have stop : ∀ (i : Nat) (e : cborEncDriver), v.length ≤ i →
      ∀ (h : CborHandle) (p rest : List Nat) (br : Bool) (bd0 : Nat) (st : Bool) (k : Nat)
        (acc : List Nat), ([] : List Nat).length ≤ k →
        cborDecDriver.decAppendIndefiniteBytesLoop (k + 1) acc
            ⟨h, ⟨p, [] ++ 0xff :: rest⟩, br, false, bd0, st⟩
          = (Except.ok (acc ++ v.drop i),
              ⟨h, ⟨0xff :: (([] : List Nat).reverse ++ p), rest⟩, br, false, 0xff, st⟩) := by
    intro i e hi h p rest br bd0 st k acc _
    rw [List.drop_of_length_le hi, List.append_nil]
    exact decAppendIndefiniteBytesLoop_break h p rest br bd0 st acc k
  intro fuel
  induction fuel with
  | zero =>
    intro i e hi
    refine ⟨[], by simp [cborEncDriver.encStringBytesSLoop], rfl, stop i e (by omega)⟩
  | succ fuel ih =>
    intro i e hi
    by_cases hlt : i < v.length
    · have hchunk : (if i + blen < v.length then (v.drop i).take (i + blen - i) else v.drop i)
          = (v.drop i).take blen := by
        split_ifs with h2
        · rw [Nat.add_sub_cancel_left]
        · rw [List.take_of_length_le]
          rw [List.length_drop]; omega
      have hcl : ((v.drop i).take blen).length < 2 ^ 63 := by
        rw [List.length_take, List.length_drop]; omega
      have hsplit : (v.drop i).take blen ++ v.drop (i + blen) = v.drop i := by
        rw [← List.drop_drop]
        exact List.take_append_drop blen (v.drop i)
      have hstep : cborEncDriver.encStringBytesSLoop bb v v.length blen (fuel + 1) i e
          = cborEncDriver.encStringBytesSLoop bb v v.length blen fuel (i + blen)
              ((e.encLen bb (((v.drop i).take blen).length : Int)).writestr
                ((v.drop i).take blen)) := by
        conv_lhs => unfold cborEncDriver.encStringBytesSLoop
        rw [if_pos hlt]
        simp only [hchunk]
      obtain ⟨bytes, hw, hh, hdec⟩ := ih (i + blen)
        ((e.encLen bb (((v.drop i).take blen).length : Int)).writestr ((v.drop i).take blen))
        (by omega)
      have hel := encLen_frame e bb ((v.drop i).take blen).length hcl hb32 hb256
      refine ⟨frameDesc bb ((v.drop i).take blen).length ::
          frameTail ((v.drop i).take blen).length ++ (v.drop i).take blen ++ bytes, ?_, ?_, ?_⟩
      · rw [hstep, hw]
        simp only [cborEncDriver.writestr, hel.1, List.append_assoc, List.cons_append]
      · rw [hstep, hh]
        simp only [cborEncDriver.writestr, hel.2]
      · intro h p rest br bd0 st k acc hk
        have hk1 : bytes.length + 1 ≤ k := by
          simp only [List.length_append, List.length_cons] at hk
          omega
        obtain ⟨k1, rfl⟩ : ∃ k1, k = k1 + 1 := ⟨k - 1, by omega⟩
        rw [List.append_assoc,
          decAppendIndefiniteBytesLoop_chunk h p (bytes ++ 0xff :: rest) br bd0 st bb hbb
            ((v.drop i).take blen) acc hcl (k1 + 1),
          hdec h _ rest br _ st k1 (acc ++ (v.drop i).take blen) (by omega),
          List.append_assoc, hsplit]
        simp only [List.reverse_append, List.reverse_cons, List.append_assoc,
          List.cons_append, List.nil_append, List.singleton_append]
    · have hstep : cborEncDriver.encStringBytesSLoop bb v v.length blen (fuel + 1) i e = e := by
        conv_lhs => unfold cborEncDriver.encStringBytesSLoop
        rw [if_neg hlt]
      refine ⟨[], by rw [hstep, List.append_nil], by rw [hstep], stop i e (by omega)⟩

theorem decAppendIndefiniteBytes_of_loop (h : CborHandle) (p T : List Nat) (br x : Bool)
    (bd : Nat) (st : Bool) (acc out : List Nat) (d1 : cborDecDriver)
    (hloop : cborDecDriver.decAppendIndefiniteBytesLoop (T.length + 1) acc
        ⟨h, ⟨p, T⟩, br, false, bd, st⟩ = (Except.ok out, d1)) :
    cborDecDriver.decAppendIndefiniteBytes acc ⟨h, ⟨p, T⟩, br, x, bd, st⟩
      = (Except.ok out, { d1 with bdRead := false }) := by
  unfold cborDecDriver.decAppendIndefiniteBytes
  simp only [modifyD_bind, getD_bind]
  rw [bind_ok hloop]
  rfl

/-- Source `DecodeBytes` over a definite-length string frame (base `0x40` or `0x60`)
holding `v`. -/
theorem DecodeBytes_definite (h : CborHandle) (p rest : List Nat) (br : Bool) (bd0 : Nat)
    (st : Bool) (bb : Nat) (hbb : bb = 0x40 ∨ bb = 0x60) (v : List Nat)
    (hlen : v.length < 2 ^ 63) (bs : Option (List Nat)) (zerocopy : Bool) :
    cborDecDriver.DecodeBytes bs zerocopy
        ⟨h, ⟨p, frameDesc bb v.length :: frameTail v.length ++ v ++ rest⟩, br, false, bd0, st⟩
      = (Except.ok (decodedSlice zerocopy br v),
          ⟨h, ⟨v.reverse ++ ((frameTail v.length).reverse ++ frameDesc bb v.length :: p), rest⟩,
            br, false, frameDesc bb v.length, st⟩) := by
  have hb32 : bb % 0x20 = 0 := by rcases hbb with rfl | rfl <;> rfl
  have hb256 : bb < 256 := by rcases hbb with rfl | rfl <;> decide
  have hm : frameDesc bb v.length / 32 = bb / 32 := frameDesc_major bb _ hb32
  have hmaj : frameDesc bb v.length / 32 = 2 ∨ frameDesc bb v.length / 32 = 3 := by
    rcases hbb with rfl | rfl <;> omega
  have hmod := frameDesc_mod bb v.length hb32 hb256
  have hW : wrapInt64 ((v.length : Nat) : Int) = (v.length : Int) :=
    wrapInt64_of_range _ (by unfold MinInt64; omega) (by unfold MaxInt64; omega)
  have hT : toUint64 ((v.length : Nat) : Int) = v.length := by
    rw [toUint64_of_nonneg _ (by omega) (by unfold MaxInt64; omega)]
    rfl
  unfold cborDecDriver.DecodeBytes
  rw [List.cons_append, List.cons_append, bind_ok (ensureBd_cons h p _ _ br bd0 st),
    bind_ok (skipTagsIfSt_nontag _ (by simp only; omega))]
  simp only [getD_bind, shr_5, cborBdNil, cborBdUndefined, cborBdIndefiniteBytes,
    cborBdIndefiniteString, cborBdIndefiniteArray, cborMajorArray]
  rw [if_neg (by omega), if_neg (by omega), if_neg (by omega), if_neg (by omega),
    List.append_assoc,
    bind_ok (decLen_frame h _ (v ++ rest) br true st bb v.length (by omega) hb32), hW]
  simp only [modifyD_bind]
  split_ifs with hz
  · rw [hT, readxSlice_append, decodedSlice_of_zerocopy zerocopy br v hz]
  · unfold decByteSlice
    rw [if_neg (by omega), Int.toNat_ofNat,
      bind_ok (readx_append h _ v rest v.length rfl br false _ st),
      decodedSlice_of_copy zerocopy br v hz]
    rfl

/-- Source `DecodeBytes` over an indefinite-length string: the marker `0x5f` or `0x7f`,
then input on which the chunk loop returns `out`. -/
theorem DecodeBytes_indefinite (h : CborHandle) (p T : List Nat) (br : Bool) (bd0 : Nat)
    (st : Bool) (m : Nat) (hm : m = 0x5f ∨ m = 0x7f) (out : List Nat) (d1 : cborDecDriver)
    (bs : Option (List Nat)) (zerocopy : Bool)
    (hloop : cborDecDriver.decAppendIndefiniteBytesLoop (T.length + 1) []
        ⟨h, ⟨m :: p, T⟩, br, false, m, st⟩ = (Except.ok out, d1)) :
    cborDecDriver.DecodeBytes bs zerocopy ⟨h, ⟨p, m :: T⟩, br, false, bd0, st⟩
      = (Except.ok (some out), { d1 with bdRead := false }) := by
  have ha := decAppendIndefiniteBytes_of_loop h (m :: p) T br false m st [] out d1 hloop
  unfold cborDecDriver.DecodeBytes
  rw [bind_ok (ensureBd_cons h p _ _ br bd0 st),
    bind_ok (skipTagsIfSt_nontag _ (by simp only; rcases hm with rfl | rfl <;> decide))]
  simp only [getD_bind, cborBdNil, cborBdUndefined, cborBdIndefiniteBytes,
    cborBdIndefiniteString]
  rw [if_neg (by rcases hm with rfl | rfl <;> decide), if_pos hm]
  simp only [modifyD_bind, ite_self]
  rw [bind_ok ha]
  rfl

/-- Source `encStringBytesS` in indefinite mode: the marker `m` of the major type, the
chunk loop, the break byte. -/
theorem encStringBytesS_indefinite (e : cborEncDriver) (bb m : Nat)
    (hm : (bb = 0x40 ∧ m = 0x5f) ∨ (bb = 0x60 ∧ m = 0x7f))
    (hind : e.h.IndefiniteLength = true) (v : List Nat) :
    e.encStringBytesS bb v
      = (cborEncDriver.encStringBytesSLoop bb v v.length
          (if v.length / 4 = 0 then 64 else if v.length / 4 > 1024 then 1024
            else v.length / 4) v.length 0 (e.writen1 m)).writen1 0xff := by
  unfold cborEncDriver.encStringBytesS
  rw [hind]
  rcases hm with ⟨rfl, rfl⟩ | ⟨rfl, rfl⟩ <;> rfl

/-- C5, as amended. String/bytes round trip and indefinite-length equivalence: for every
payload `v` (any length a Go string can have, the empty one included), for the
byte-string and the text-string base, and for either setting of `IndefiniteLength` in
the encoder handle, `DecodeBytes` on a fresh decoder over the bytes written by
`encStringBytesS` followed by `rest` returns a slice holding exactly the bytes `v`,
leaves exactly `rest` unread (so it consumes all the written bytes, the final break byte
included) and the cache flag cleared; the slice is `v` itself, except that for the empty
payload in the definite-length encoding the zero-copy path of a bytes reader returns the
nil slice. Hence the payloads decoded from the encodings of two handles that differ in
`IndefiniteLength` hold the same bytes, and are identical outside that one case. -/
theorem DecodeBytes_encStringBytesS (he he2 hd : CborHandle) (br : Bool) (bb : Nat)
    (v rest : List Nat) (bs : Option (List Nat)) (zerocopy : Bool)
    (hbb : bb = cborBaseBytes ∨ bb = cborBaseString) (hlen : v.length < 2 ^ 63) :
    (cborDecDriver.DecodeBytes bs zerocopy
        (hd.newDecDriver br ((he.newEncDriver.encStringBytesS bb v).w ++ rest))).1
      = Except.ok (if he.IndefiniteLength = true then some v
          else decodedSlice zerocopy br v) ∧
    (cborDecDriver.DecodeBytes bs zerocopy
        (hd.newDecDriver br ((he.newEncDriver.encStringBytesS bb v).w ++ rest))).2.r.rest
      = rest ∧
    (cborDecDriver.DecodeBytes bs zerocopy
        (hd.newDecDriver br ((he.newEncDriver.encStringBytesS bb v).w ++ rest))).2.bdRead
      = false ∧
    Except.map (fun o => o.getD [])
        (cborDecDriver.DecodeBytes bs zerocopy
          (hd.newDecDriver br ((he.newEncDriver.encStringBytesS bb v).w ++ rest))).1
      = Except.ok v ∧
    Except.map (fun o => o.getD [])
        (cborDecDriver.DecodeBytes bs zerocopy
          (hd.newDecDriver br ((he2.newEncDriver.encStringBytesS bb v).w ++ rest))).1
      = Except.map (fun o => o.getD [])
        (cborDecDriver.DecodeBytes bs zerocopy
          (hd.newDecDriver br ((he.newEncDriver.encStringBytesS bb v).w ++ rest))).1 ∧
    (v ≠ [] ∨ ¬(zerocopy = true ∧ br = true) →
      (cborDecDriver.DecodeBytes bs zerocopy
          (hd.newDecDriver br ((he.newEncDriver.encStringBytesS bb v).w ++ rest))).1
        = Except.ok (some v) ∧
      (cborDecDriver.DecodeBytes bs zerocopy
          (hd.newDecDriver br ((he2.newEncDriver.encStringBytesS bb v).w ++ rest))).1
        = (cborDecDriver.DecodeBytes bs zerocopy
          (hd.newDecDriver br ((he.newEncDriver.encStringBytesS bb v).w ++ rest))).1) := by
  have hbb2 : bb = 0x40 ∨ bb = 0x60 := hbb
  have hb32 : bb % 0x20 = 0 := by rcases hbb2 with rfl | rfl <;> rfl
  have hb256 : bb < 256 := by rcases hbb2 with rfl | rfl <;> decide
  have key : ∀ h0 : CborHandle,
      (cborDecDriver.DecodeBytes bs zerocopy
          (hd.newDecDriver br ((h0.newEncDriver.encStringBytesS bb v).w ++ rest))).1
        = Except.ok (if h0.IndefiniteLength = true then some v
            else decodedSlice zerocopy br v) ∧
      (cborDecDriver.DecodeBytes bs zerocopy
          (hd.newDecDriver br ((h0.newEncDriver.encStringBytesS bb v).w ++ rest))).2.r.rest
        = rest ∧
      (cborDecDriver.DecodeBytes bs zerocopy
          (hd.newDecDriver br ((h0.newEncDriver.encStringBytesS bb v).w ++ rest))).2.bdRead
        = false := by
    intro h0
    cases hind : h0.IndefiniteLength
    · have hw : (h0.newEncDriver.encStringBytesS bb v).w
          = frameDesc bb v.length :: frameTail v.length ++ v := by
        unfold cborEncDriver.encStringBytesS
        have : h0.newEncDriver.h.IndefiniteLength = false := hind
        rw [this]
        simp only [Bool.false_eq_true, if_false, cborEncDriver.writestr,
          (encLen_frame h0.newEncDriver bb v.length hlen hb32 hb256).1]
        rfl
      rw [hw]
      simp only [CborHandle.newDecDriver]
      rw [DecodeBytes_definite hd [] rest br 0 hd.SkipUnexpectedTags bb hbb2 v hlen bs zerocopy]
      exact ⟨rfl, rfl, rfl⟩
    · obtain ⟨m, hm⟩ : ∃ m : Nat, (bb = 0x40 ∧ m = 0x5f) ∨ (bb = 0x60 ∧ m = 0x7f) := by
        rcases hbb2 with hb | hb
        · exact ⟨0x5f, Or.inl ⟨hb, rfl⟩⟩
        · exact ⟨0x7f, Or.inr ⟨hb, rfl⟩⟩
      have hmk : m = 0x5f ∨ m = 0x7f := by
        rcases hm with ⟨_, hm⟩ | ⟨_, hm⟩
        · exact Or.inl hm
        · exact Or.inr hm
      have hpos : 0 < (if v.length / 4 = 0 then 64
          else if v.length / 4 > 1024 then 1024 else v.length / 4) := by
        split_ifs <;> omega
      obtain ⟨bytes, hw, _, hdec⟩ := chunk_loops_inverse bb hbb2 v hlen _ hpos v.length 0
        (h0.newEncDriver.writen1 m) (by omega)
      have hw2 : (h0.newEncDriver.encStringBytesS bb v).w = m :: (bytes ++ [0xff]) := by
        rw [encStringBytesS_indefinite h0.newEncDriver bb m hm hind v]
        show (cborEncDriver.encStringBytesSLoop bb v v.length _ v.length 0
          (h0.newEncDriver.writen1 m)).w ++ [0xff] = _
        rw [hw]
        rfl
      rw [hw2]
      simp only [CborHandle.newDecDriver, List.cons_append, List.append_assoc,
        List.singleton_append, List.nil_append]
      rw [DecodeBytes_indefinite hd [] (bytes ++ 0xff :: rest) br 0 hd.SkipUnexpectedTags m hmk
        ([] ++ v.drop 0) _ bs zerocopy
        (hdec hd _ rest br _ hd.SkipUnexpectedTags _ [] (by simp))]
      exact ⟨rfl, rfl, rfl⟩
  have hget : ∀ h0 : CborHandle,
      (if h0.IndefiniteLength = true then some v else decodedSlice zerocopy br v).getD []
        = v := by
    intro h0
    split_ifs
    · rfl
    · exact decodedSlice_getD zerocopy br v
  have hsome : (v ≠ [] ∨ ¬(zerocopy = true ∧ br = true)) → ∀ h0 : CborHandle,
      (if h0.IndefiniteLength = true then some v else decodedSlice zerocopy br v)
        = some v := by
    intro hc h0
    split_ifs
    · rfl
    · rcases hc with hc | hc
      · exact decodedSlice_of_ne_nil zerocopy br v hc
      · exact decodedSlice_of_copy zerocopy br v hc
  refine ⟨(key he).1, (key he).2.1, (key he).2.2, ?_, ?_, ?_⟩
  · rw [(key he).1]
    exact congrArg Except.ok (hget he)
  · rw [(key he).1, (key he2).1]
    exact congrArg Except.ok ((hget he2).trans (hget he).symm)
  · intro hc
    rw [(key he).1, (key he2).1, hsome hc he, hsome hc he2]
    exact ⟨rfl, rfl⟩

/-- Witness of C5: a three-byte text string, written in indefinite mode. -/
theorem DecodeBytes_encStringBytesS_witness :
    (cborBaseString = cborBaseBytes ∨ cborBaseString = cborBaseString) ∧
    ([0x61, 0x62, 0x63] : List Nat).length < 2 ^ 63 ∧
    (cborDecDriver.DecodeBytes none false
        ((⟨false, false, false⟩ : CborHandle).newDecDriver true
          (((⟨true, false, false⟩ : CborHandle).newEncDriver.encStringBytesS cborBaseString
            [0x61, 0x62, 0x63]).w ++ [7]))).1
      = Except.ok (some [0x61, 0x62, 0x63]) :=
  ⟨Or.inr rfl, by decide,
    (DecodeBytes_encStringBytesS ⟨true, false, false⟩ ⟨false, false, false⟩
      ⟨false, false, false⟩ true cborBaseString [0x61, 0x62, 0x63] [7] none false (Or.inr rfl)
      (by decide)).1⟩

/-- Counterexample to C5 as stated: the empty byte string, non-nil, is written as `40` in
definite mode and as `5f ff` in indefinite mode; on the zero-copy path of a bytes reader
`DecodeBytes` returns the nil slice for the first and the empty non-nil slice for the
second, so that the first result is not the payload itself and the two results are not
identical. -/
theorem DecodeBytes_encStringBytesS_counterexample :
    ((⟨false, false, false⟩ : CborHandle).newEncDriver.encStringBytesS cborBaseBytes []).w
      = [0x40] ∧
    ((⟨true, false, false⟩ : CborHandle).newEncDriver.encStringBytesS cborBaseBytes []).w
      = [0x5f, 0xff] ∧
    (cborDecDriver.DecodeBytes (some []) true
        ((⟨false, false, false⟩ : CborHandle).newDecDriver true [0x40])).1
      = Except.ok none ∧
    (cborDecDriver.DecodeBytes (some []) true
        ((⟨false, false, false⟩ : CborHandle).newDecDriver true [0x5f, 0xff])).1
      = Except.ok (some []) ∧
    (none : Option (List Nat)) ≠ some [] :=
  ⟨rfl, rfl, rfl, rfl, by decide⟩

/-! ## Well-formed frames of any width -/

theorem wfFrame_cons (major bd : Nat) (tail : List Nat) :
    wfFrame major (bd :: tail) ↔
      bd / 32 = major ∧ bd % 32 ≤ 0x1b ∧ tail.length = tailLen (bd % 32) := by
  simp [wfFrame]

theorem wfFrame_exists (major : Nat) (fr : List Nat) (hf : wfFrame major fr) :
    ∃ bd tail, fr = bd :: tail ∧ bd / 32 = major ∧ bd % 32 ≤ 0x1b ∧
      tail.length = tailLen (bd % 32) := by
  cases fr with
  | nil => exact absurd rfl hf.1
  | cons bd tail => exact ⟨bd, tail, rfl, (wfFrame_cons major bd tail).1 hf⟩

theorem frameValue_cons (bd : Nat) (tail : List Nat) :
    frameValue (bd :: tail) = if bd % 32 ≤ 0x17 then bd % 32 else bigenUint tail := rfl

/-- Source `decUint` over the trailing bytes of a well-formed frame of any width. -/
theorem decUint_wfFrame (h : CborHandle) (p t : List Nat) (br x : Bool) (st : Bool)
    (bd : Nat) (tail : List Nat) (hlow : bd % 32 ≤ 0x1b)
    (hlen : tail.length = tailLen (bd % 32)) :
    cborDecDriver.decUint ⟨h, ⟨p, tail ++ t⟩, br, x, bd, st⟩
      = (Except.ok (frameValue (bd :: tail)), ⟨h, ⟨tail.reverse ++ p, t⟩, br, x, bd, st⟩) := by
  rw [frameValue_cons]
  unfold tailLen at hlen
  by_cases h1 : bd % 32 ≤ 0x17
  · rw [if_pos h1] at hlen
    rw [if_pos h1, List.length_eq_zero.1 hlen]
    exact decUint_small h ⟨p, t⟩ br x bd st h1
  rw [if_neg h1] at hlen
  rw [if_neg h1]
  by_cases h2 : bd % 32 = 0x18
  · rw [if_pos h2] at hlen
    obtain ⟨b0, rfl⟩ := List.length_eq_one.1 hlen
    have e : bigenUint [b0] = b0 := by
      show 0 * 256 + b0 = b0
      omega
    rw [e]
    exact decUint_one h p t b0 br x bd st h2
  rw [if_neg h2] at hlen
  by_cases h3 : bd % 32 = 0x19
  · rw [if_pos h3] at hlen
    exact decUint_two h p tail t br x bd st h3 hlen
  rw [if_neg h3] at hlen
  by_cases h4 : bd % 32 = 0x1a
  · rw [if_pos h4] at hlen
    exact decUint_four h p tail t br x bd st h4 hlen
  rw [if_neg h4] at hlen
  exact decUint_eight h p tail t br x bd st (by omega) hlen

/-! ## Container headers: counts and mismatches -/

theorem wrapInt64_large (n : Nat) (hlo : 2 ^ 63 ≤ n) (hhi : n < 2 ^ 64) :
    wrapInt64 (n : Int) = (n : Int) - 2 ^ 64 := by
  unfold wrapInt64
  omega

/-- C11, at its failing input. The definite-length array header
`9b ff ff ff ff ff ff ff ff` declares the count `2^64-1`; `ReadArrayStart` over it returns
-1, the value it returns for the indefinite marker `0x9f`, because `decLen` converts the
`uint64` count with `int(...)` unchecked. The map header `bb ff ff ff ff ff ff ff ff` and
`ReadMapStart` behave alike, and every declared count `n ≥ 2^63` comes back as the
negative length `n - 2^64`. -/
theorem ReadArrayStart_max_count_is_sentinel (hd : CborHandle) (br : Bool)
    (rest : List Nat) :
    (cborDecDriver.ReadArrayStart (hd.newDecDriver br
        ([0x9b, 0xff, 0xff, 0xff, 0xff, 0xff, 0xff, 0xff, 0xff] ++ rest))).1 = Except.ok (-1) ∧
    (cborDecDriver.ReadArrayStart (hd.newDecDriver br (0x9f :: rest))).1 = Except.ok (-1) ∧
    (cborDecDriver.ReadMapStart (hd.newDecDriver br
        ([0xbb, 0xff, 0xff, 0xff, 0xff, 0xff, 0xff, 0xff, 0xff] ++ rest))).1 = Except.ok (-1) ∧
    (cborDecDriver.ReadMapStart (hd.newDecDriver br (0xbf :: rest))).1 = Except.ok (-1) ∧
    (∀ n : Nat, 2 ^ 63 ≤ n → n < 2 ^ 64 →
      (cborDecDriver.ReadArrayStart (hd.newDecDriver br
          (0x9b :: bigenPut 8 n ++ rest))).1 = Except.ok ((n : Int) - 2 ^ 64) ∧
      (cborDecDriver.ReadMapStart (hd.newDecDriver br
          (0xbb :: bigenPut 8 n ++ rest))).1 = Except.ok ((n : Int) - 2 ^ 64)) := by
  have hA : ∀ n : Nat, 2 ^ 63 ≤ n → n < 2 ^ 64 →
      (cborDecDriver.ReadArrayStart (hd.newDecDriver br
          (0x9b :: bigenPut 8 n ++ rest))).1 = Except.ok ((n : Int) - 2 ^ 64) := by
    intro n hlo hhi
    have h1 := ReadArrayStart_frame hd [] rest br 0 hd.SkipUnexpectedTags n hhi
    have e1 : frameDesc 0x80 n = 0x9b := by
      unfold frameDesc
      rw [if_neg (by omega), if_neg (by omega), if_neg (by omega), if_neg (by omega)]
    have e2 : frameTail n = bigenPut 8 n := by
      unfold frameTail
      rw [if_neg (by omega), if_neg (by omega), if_neg (by omega), if_neg (by omega)]
    rw [e1, e2, wrapInt64_large n hlo hhi] at h1
    exact congrArg Prod.fst h1
  have hM : ∀ n : Nat, 2 ^ 63 ≤ n → n < 2 ^ 64 →
      (cborDecDriver.ReadMapStart (hd.newDecDriver br
          (0xbb :: bigenPut 8 n ++ rest))).1 = Except.ok ((n : Int) - 2 ^ 64) := by
    intro n hlo hhi
    have h1 := ReadMapStart_frame hd [] rest br 0 hd.SkipUnexpectedTags n hhi
    have e1 : frameDesc 0xa0 n = 0xbb := by
      unfold frameDesc
      rw [if_neg (by omega), if_neg (by omega), if_neg (by omega), if_neg (by omega)]
    have e2 : frameTail n = bigenPut 8 n := by
      unfold frameTail
      rw [if_neg (by omega), if_neg (by omega), if_neg (by omega), if_neg (by omega)]
    rw [e1, e2, wrapInt64_large n hlo hhi] at h1
    exact congrArg Prod.fst h1
  have e8 : bigenPut 8 (2 ^ 64 - 1) = [0xff, 0xff, 0xff, 0xff, 0xff, 0xff, 0xff, 0xff] := by
    decide
  refine ⟨?_, ?_, ?_, ?_, fun n hlo hhi => ⟨hA n hlo hhi, hM n hlo hhi⟩⟩
  · have h1 := hA (2 ^ 64 - 1) (by norm_num) (by norm_num)
    rw [e8] at h1
    exact h1
  · exact congrArg Prod.fst (ReadArrayStart_indefinite hd [] rest br 0 hd.SkipUnexpectedTags)
  · have h1 := hM (2 ^ 64 - 1) (by norm_num) (by norm_num)
    rw [e8] at h1
    exact h1
  · exact congrArg Prod.fst (ReadMapStart_indefinite hd [] rest br 0 hd.SkipUnexpectedTags)

/-- C12. Container major-type mismatch: with tag skipping off, on a fresh decoder whose
next descriptor byte `b` has a major type other than 4, `ReadArrayStart` fails with the
array mismatch error naming that major type; when the major type of `b` is not 5,
`ReadMapStart` fails with the map mismatch error. Only the descriptor has been read. In
particular `ReadArrayStart` fails on the map descriptors `0xa2` and `0xbf`, and
`ReadMapStart` on the array descriptors `0x82` and `0x9f`. -/
theorem container_major_type_mismatch (h : CborHandle) (p t : List Nat) (b : Nat)
    (br : Bool) (bd0 : Nat) :
    (b >>> 5 ≠ cborMajorArray →
      cborDecDriver.ReadArrayStart ⟨h, ⟨p, b :: t⟩, br, false, bd0, false⟩
        = (Except.error (DecErr.notArray (b >>> 5)), ⟨h, ⟨b :: p, t⟩, br, false, b, false⟩)) ∧
    (b >>> 5 ≠ cborMajorMap →
      cborDecDriver.ReadMapStart ⟨h, ⟨p, b :: t⟩, br, false, bd0, false⟩
        = (Except.error (DecErr.notMap (b >>> 5)), ⟨h, ⟨b :: p, t⟩, br, false, b, false⟩)) ∧
    cborDecDriver.ReadArrayStart ⟨h, ⟨p, 0xa2 :: t⟩, br, false, bd0, false⟩
      = (Except.error (DecErr.notArray 5), ⟨h, ⟨0xa2 :: p, t⟩, br, false, 0xa2, false⟩) ∧
    cborDecDriver.ReadArrayStart ⟨h, ⟨p, 0xbf :: t⟩, br, false, bd0, false⟩
      = (Except.error (DecErr.notArray 5), ⟨h, ⟨0xbf :: p, t⟩, br, false, 0xbf, false⟩) ∧
    cborDecDriver.ReadMapStart ⟨h, ⟨p, 0x82 :: t⟩, br, false, bd0, false⟩
      = (Except.error (DecErr.notMap 4), ⟨h, ⟨0x82 :: p, t⟩, br, false, 0x82, false⟩) ∧
    cborDecDriver.ReadMapStart ⟨h, ⟨p, 0x9f :: t⟩, br, false, bd0, false⟩
      = (Except.error (DecErr.notMap 4), ⟨h, ⟨0x9f :: p, t⟩, br, false, 0x9f, false⟩) := by
  have hA : ∀ b : Nat, b >>> 5 ≠ cborMajorArray →
      cborDecDriver.ReadArrayStart ⟨h, ⟨p, b :: t⟩, br, false, bd0, false⟩
        = (Except.error (DecErr.notArray (b >>> 5)),
            ⟨h, ⟨b :: p, t⟩, br, false, b, false⟩) := by
    intro b hb
    rw [shr_5, cborMajorArray] at hb
    unfold cborDecDriver.ReadArrayStart
    rw [bind_ok (ensureBd_cons h p t b br bd0 false),
      bind_ok (skipTagsIfSt_off ⟨h, ⟨b :: p, t⟩, br, true, b, false⟩ rfl)]
    simp only [modifyD_bind, getD_bind, shr_5, cborBdIndefiniteArray, cborMajorArray]
    rw [if_neg (by omega), if_pos hb]
    rfl
  have hM : ∀ b : Nat, b >>> 5 ≠ cborMajorMap →
      cborDecDriver.ReadMapStart ⟨h, ⟨p, b :: t⟩, br, false, bd0, false⟩
        = (Except.error (DecErr.notMap (b >>> 5)),
            ⟨h, ⟨b :: p, t⟩, br, false, b, false⟩) := by
    intro b hb
    rw [shr_5, cborMajorMap] at hb
    unfold cborDecDriver.ReadMapStart
    rw [bind_ok (ensureBd_cons h p t b br bd0 false),
      bind_ok (skipTagsIfSt_off ⟨h, ⟨b :: p, t⟩, br, true, b, false⟩ rfl)]
    simp only [modifyD_bind, getD_bind, shr_5, cborBdIndefiniteMap, cborMajorMap]
    rw [if_neg (by omega), if_pos hb]
    rfl
  exact ⟨hA b, hM b, hA 0xa2 (by decide), hA 0xbf (by decide), hM 0x82 (by decide),
    hM 0x9f (by decide)⟩

/-- Witness of C12: `ReadArrayStart` on the unsigned integer `0x05`. -/
theorem container_major_type_mismatch_witness :
    cborDecDriver.ReadArrayStart ⟨⟨false, false, false⟩, ⟨[], [0x05, 0x07]⟩, true, false, 0, false⟩
      = (Except.error (DecErr.notArray 0),
          ⟨⟨false, false, false⟩, ⟨[0x05], [0x07]⟩, true, false, 0x05, false⟩) :=
  (container_major_type_mismatch ⟨false, false, false⟩ [] [0x07] 0x05 true 0).1 (by decide)

/-! ## Booleans -/

/-- C16. Boolean decode: `EncodeBool b` writes exactly one byte, `0xf5` for true and
`0xf4` for false, and `DecodeBool` on a fresh decoder over it (followed by any `rest`)
returns `b`, leaving `rest` unread and the cache flag cleared; with tag skipping off, for
every next descriptor byte `x` other than `0xf4` and `0xf5` `DecodeBool` fails with the
not-a-bool decode error, e.g. on nil `0xf6`, the integers `0x00` and `0x01` and break
`0xff`. -/
theorem DecodeBool_EncodeBool (e : cborEncDriver) (h : CborHandle) (p t : List Nat)
    (br : Bool) (bd0 : Nat) (st : Bool) (b : Bool) (x : Nat) :
    (e.EncodeBool b).w = e.w ++ [if b then 0xf5 else 0xf4] ∧
    cborDecDriver.DecodeBool ⟨h, ⟨p, (if b then 0xf5 else 0xf4) :: t⟩, br, false, bd0, st⟩
      = (Except.ok b, ⟨h, ⟨(if b then 0xf5 else 0xf4) :: p, t⟩, br, false,
          if b then 0xf5 else 0xf4, st⟩) ∧
    (x ≠ 0xf4 → x ≠ 0xf5 →
      cborDecDriver.DecodeBool ⟨h, ⟨p, x :: t⟩, br, false, bd0, false⟩
        = (Except.error (DecErr.notBool x), ⟨h, ⟨x :: p, t⟩, br, true, x, false⟩)) ∧
    (cborDecDriver.DecodeBool ⟨h, ⟨p, 0xf6 :: t⟩, br, false, bd0, false⟩).1
      = Except.error (DecErr.notBool 0xf6) ∧
    (cborDecDriver.DecodeBool ⟨h, ⟨p, 0x00 :: t⟩, br, false, bd0, false⟩).1
      = Except.error (DecErr.notBool 0x00) ∧
    (cborDecDriver.DecodeBool ⟨h, ⟨p, 0x01 :: t⟩, br, false, bd0, false⟩).1
      = Except.error (DecErr.notBool 0x01) ∧
    (cborDecDriver.DecodeBool ⟨h, ⟨p, 0xff :: t⟩, br, false, bd0, false⟩).1
      = Except.error (DecErr.notBool 0xff) := by
  have hbad : ∀ x : Nat, x ≠ 0xf4 → x ≠ 0xf5 →
      cborDecDriver.DecodeBool ⟨h, ⟨p, x :: t⟩, br, false, bd0, false⟩
        = (Except.error (DecErr.notBool x), ⟨h, ⟨x :: p, t⟩, br, true, x, false⟩) := by
    intro x h4 h5
    unfold cborDecDriver.DecodeBool
    rw [bind_ok (ensureBd_cons h p t x br bd0 false),
      bind_ok (skipTagsIfSt_off ⟨h, ⟨x :: p, t⟩, br, true, x, false⟩ rfl)]
    simp only [getD_bind, cborBdTrue, cborBdFalse]
    rw [if_neg h5, if_neg h4]
    rfl
  refine ⟨?_, ?_, hbad x, ?_, ?_, ?_, ?_⟩
  · cases b <;> rfl
  · unfold cborDecDriver.DecodeBool
    rw [bind_ok (ensureBd_cons h p t _ br bd0 st),
      bind_ok (skipTagsIfSt_nontag _ (by cases b <;> simp))]
    cases b <;> rfl
  · rw [hbad 0xf6 (by decide) (by decide)]
  · rw [hbad 0x00 (by decide) (by decide)]
  · rw [hbad 0x01 (by decide) (by decide)]
  · rw [hbad 0xff (by decide) (by decide)]

/-- Witness of C16: `DecodeBool` on the map header `0xa1`. -/
theorem DecodeBool_EncodeBool_witness :
    cborDecDriver.DecodeBool ⟨⟨false, false, false⟩, ⟨[], [0xa1, 0x07]⟩, true, false, 0, false⟩
      = (Except.error (DecErr.notBool 0xa1),
          ⟨⟨false, false, false⟩, ⟨[0xa1], [0x07]⟩, true, true, 0xa1, false⟩) :=
  (DecodeBool_EncodeBool ⟨[], ⟨false, false, false⟩⟩ ⟨false, false, false⟩ [] [0x07] true 0
    false true 0xa1).2.2.1 (by decide) (by decide)

/-! ## Floats, on bit patterns -/

theorem bigenPut_length (n v : Nat) : (bigenPut n v).length = n := by
  induction n generalizing v with
  | zero => rfl
  | succ n ih => simp [bigenPut, ih]

theorem DecodeFloat64_bits (rt : GoRuntime) (h : CborHandle) (p rest : List Nat) (br : Bool)
    (bd0 : Nat) (st : Bool) (w : Nat) (hw : w < 2 ^ 64) :
    cborDecDriver.DecodeFloat64 rt ⟨h, ⟨p, 0xfb :: bigenPut 8 w ++ rest⟩, br, false, bd0, st⟩
      = (Except.ok w, ⟨h, ⟨(bigenPut 8 w).reverse ++ 0xfb :: p, rest⟩, br, false, 0xfb, st⟩) := by
  unfold cborDecDriver.DecodeFloat64
  rw [List.cons_append, bind_ok (ensureBd_cons h p _ _ br bd0 st),
    bind_ok (skipTagsIfSt_nontag _ (by simp))]
  have hs : cborDecDriver.decodeFloat64Switch rt
      ⟨h, ⟨0xfb :: p, bigenPut 8 w ++ rest⟩, br, true, 0xfb, st⟩
      = (Except.ok w, ⟨h, ⟨(bigenPut 8 w).reverse ++ 0xfb :: p, rest⟩, br, true, 0xfb, st⟩) := by
    unfold cborDecDriver.decodeFloat64Switch
    simp only [getD_bind, cborBdFloat16, cborBdFloat32, cborBdFloat64, if_true]
    rw [if_neg (by decide), if_neg (by decide), bind_ok (readx_append h _ (bigenPut 8 w) rest 8 (bigenPut_length 8 w) br true _ st),
      bigenUint_bigenPut_eight w hw]
    rfl
  rw [bind_ok hs]
  rfl

/-- C18. Full-width float encoding, on bit patterns. For every 64-bit pattern `w`,
`EncodeFloat64` of the double with bits `w` writes exactly 9 bytes, `0xfb` followed by
the 8 big-endian bytes of `w`, and `DecodeFloat64` on a fresh decoder over those bytes
(followed by any `rest`) yields the double with bits `w`, leaves `rest` unread and the
cache flag cleared; for every 32-bit pattern `u`, `EncodeFloat32` writes exactly 5
bytes, `0xfa` followed by the 4 big-endian bytes of `u`. The width written does not
depend on the value, and the bytes after the marker have the big-endian value `w`
(resp. `u`). -/
theorem float_full_width (rt : GoRuntime) (e : cborEncDriver) (hd : CborHandle) (br : Bool)
    (w u : Nat) (rest : List Nat) (hw : w < 2 ^ 64) (hu : u < 2 ^ 32) :
    (e.EncodeFloat64 w).w = e.w ++ [0xfb, w / 2 ^ 56 % 256, w / 2 ^ 48 % 256,
      w / 2 ^ 40 % 256, w / 2 ^ 32 % 256, w / 2 ^ 24 % 256, w / 2 ^ 16 % 256,
      w / 2 ^ 8 % 256, w % 256] ∧
    (e.EncodeFloat64 w).w.length = e.w.length + 9 ∧
    cborDecDriver.DecodeFloat64 rt
        (hd.newDecDriver br ((hd.newEncDriver.EncodeFloat64 w).w ++ rest))
      = (Except.ok w, ⟨hd, ⟨(bigenPut 8 w).reverse ++ [0xfb], rest⟩, br, false, 0xfb,
          hd.SkipUnexpectedTags⟩) ∧
    (e.EncodeFloat32 u).w = e.w ++ [0xfa, u / 2 ^ 24 % 256, u / 2 ^ 16 % 256,
      u / 2 ^ 8 % 256, u % 256] ∧
    (e.EncodeFloat32 u).w.length = e.w.length + 5 ∧
    bigenUint (bigenPut 8 w) = w ∧ bigenUint (bigenPut 4 u) = u := by
  have h64 : (e.EncodeFloat64 w).w = e.w ++ 0xfb :: bigenPut 8 w := by
    simp [cborEncDriver.EncodeFloat64, cborEncDriver.writen1, cborEncDriver.writeUint64,
      cborBdFloat64]
  have h32 : (e.EncodeFloat32 u).w = e.w ++ 0xfa :: bigenPut 4 u := by
    simp [cborEncDriver.EncodeFloat32, cborEncDriver.writen1, cborEncDriver.writeUint32,
      cborBdFloat32]
  refine ⟨?_, ?_, ?_, ?_, ?_, bigenUint_bigenPut_eight w hw,
    bigenUint_bigenPut_four u (by omega)⟩
  · rw [h64, bigenPut_eight]
  · rw [h64]; simp [bigenPut_length]
  · have hh : (hd.newEncDriver.EncodeFloat64 w).w = 0xfb :: bigenPut 8 w := by
      simp [cborEncDriver.EncodeFloat64, cborEncDriver.writen1, cborEncDriver.writeUint64,
        cborBdFloat64, CborHandle.newEncDriver]
    rw [hh]
    exact DecodeFloat64_bits rt hd [] rest br 0 hd.SkipUnexpectedTags w hw
  · rw [h32, bigenPut_four]
  · rw [h32]; simp [bigenPut_length]

/-- Witness of C18: the double 1.0 (bits `0x3ff0000000000000`) and the single 1.0 (bits
`0x3f800000`). -/
theorem float_full_width_witness :
    ((0x3ff0000000000000 : Nat) < 2 ^ 64 ∧ (0x3f800000 : Nat) < 2 ^ 32) ∧
    (({ w := [], h := ⟨false, false, false⟩ } : cborEncDriver).EncodeFloat64
        0x3ff0000000000000).w = [0xfb, 0x3f, 0xf0, 0, 0, 0, 0, 0, 0] ∧
    (({ w := [], h := ⟨false, false, false⟩ } : cborEncDriver).EncodeFloat32 0x3f800000).w
      = [0xfa, 0x3f, 0x80, 0, 0] :=
  ⟨by decide,
    (float_full_width ⟨id, id, Int.toNat, fun _ => none, fun _ => 0, id, 0⟩
      ⟨[], ⟨false, false, false⟩⟩ ⟨false, false, false⟩ true 0x3ff0000000000000 0x3f800000 []
      (by decide) (by decide)).1,
    (float_full_width ⟨id, id, Int.toNat, fun _ => none, fun _ => 0, id, 0⟩
      ⟨[], ⟨false, false, false⟩⟩ ⟨false, false, false⟩ true 0x3ff0000000000000 0x3f800000 []
      (by decide) (by decide)).2.2.2.1⟩

/-! ## Timestamps -/

theorem decodeTime_invalid (rt : GoRuntime) (xtag : Nat) (d : cborDecDriver)
    (h0 : xtag ≠ 0) (h1 : xtag ≠ 1) :
    cborDecDriver.decodeTime rt xtag d = (Except.error (DecErr.invalidTimeTag xtag), d) := by
  unfold cborDecDriver.decodeTime
  rw [if_neg h0, if_neg h1]
  rfl

/-- Source `DecodeTime` over a well-formed tag frame: the frame is consumed, the cache
flag cleared, and `decodeTime` is entered with the tag number. -/
theorem DecodeTime_frame (rt : GoRuntime) (h : CborHandle) (p t : List Nat) (br : Bool)
    (bd0 : Nat) (st : Bool) (bd : Nat) (tail : List Nat)
    (hf : wfFrame cborMajorTag (bd :: tail)) :
    cborDecDriver.DecodeTime rt ⟨h, ⟨p, bd :: tail ++ t⟩, br, false, bd0, st⟩
      = cborDecDriver.decodeTime rt (frameValue (bd :: tail))
          ⟨h, ⟨tail.reverse ++ bd :: p, t⟩, br, false, bd, st⟩ := by
  obtain ⟨hm, hlow, hlen⟩ := (wfFrame_cons _ bd tail).1 hf
  rw [cborMajorTag] at hm
  unfold cborDecDriver.DecodeTime
  rw [List.cons_append, bind_ok (ensureBd_cons h p _ _ br bd0 st)]
  simp only [getD_bind, shr_5, cborBdNil, cborBdUndefined, cborMajorTag]
  rw [if_neg (by omega), if_neg (by omega),
    bind_ok (decUint_wfFrame h _ t br true st bd tail hlow hlen)]
  rfl

/-- C17. Invalid timestamp tag: on a fresh decoder over a well-formed tag frame (of any
width) carrying a tag number other than 0 and 1, whatever bytes `t` follow it,
`DecodeTime` fails with the invalid-tag-for-timestamp error and returns no timestamp;
the frame has been read and `t` is untouched. For tag number 0 `DecodeTime` goes on to
`DecodeStringAsBytes` on the wrapped value, and for tag number 1 to `DecodeFloat64`. -/
theorem DecodeTime_invalid_tag (rt : GoRuntime) (h : CborHandle) (p t : List Nat)
    (br : Bool) (bd0 : Nat) (st : Bool) (fr : List Nat) (hf : wfFrame cborMajorTag fr) :
    (frameValue fr ≠ 0 → frameValue fr ≠ 1 →
      cborDecDriver.DecodeTime rt ⟨h, ⟨p, fr ++ t⟩, br, false, bd0, st⟩
        = (Except.error (DecErr.invalidTimeTag (frameValue fr)),
            ⟨h, ⟨fr.reverse ++ p, t⟩, br, false, fr.headD 0, st⟩)) ∧
    (frameValue fr = 0 →
      cborDecDriver.DecodeTime rt ⟨h, ⟨p, fr ++ t⟩, br, false, bd0, st⟩
        = match cborDecDriver.DecodeStringAsBytes
              ⟨h, ⟨fr.reverse ++ p, t⟩, br, false, fr.headD 0, st⟩ with
          | (Except.ok bs, d1) =>
            (match rt.parseRFC3339 (bs.getD []) with
              | some tm => (Except.ok (rt.utcRoundMicrosecond tm), d1)
              | none => (Except.error DecErr.timeParse, d1))
          | (Except.error err, d1) => (Except.error err, d1)) ∧
    (frameValue fr = 1 →
      cborDecDriver.DecodeTime rt ⟨h, ⟨p, fr ++ t⟩, br, false, bd0, st⟩
        = match cborDecDriver.DecodeFloat64 rt
              ⟨h, ⟨fr.reverse ++ p, t⟩, br, false, fr.headD 0, st⟩ with
          | (Except.ok f, d1) => (Except.ok (rt.utcRoundMicrosecond (rt.unixFromFloat f)), d1)
          | (Except.error err, d1) => (Except.error err, d1)) := by
  obtain ⟨bd, tail, rfl, -⟩ := wfFrame_exists _ fr hf
  have hfr := DecodeTime_frame rt h p t br bd0 st bd tail hf
  have hrev : (bd :: tail).reverse ++ p = tail.reverse ++ bd :: p := by simp
  rw [hrev]
  refine ⟨?_, ?_, ?_⟩
  · intro h0 h1
    rw [hfr, decodeTime_invalid rt _ _ h0 h1]
    rfl
  · intro h0
    rw [hfr, h0]
    simp only [List.headD_cons]
    unfold cborDecDriver.decodeTime
    simp only [if_true]
    rcases hres : cborDecDriver.DecodeStringAsBytes
        ⟨h, ⟨tail.reverse ++ bd :: p, t⟩, br, false, bd, st⟩ with ⟨res, d1⟩
    cases res with
    | error err => rw [bind_error hres]
    | ok bs =>
      rw [bind_ok hres]
      cases hp : rt.parseRFC3339 (bs.getD []) with
      | none => simp only [hp]; rfl
      | some tm => simp only [hp]; rfl
  · intro h1
    rw [hfr, h1]
    simp only [List.headD_cons]
    unfold cborDecDriver.decodeTime
    rw [if_neg (by decide), if_pos rfl]
    rcases hres : cborDecDriver.DecodeFloat64 rt
        ⟨h, ⟨tail.reverse ++ bd :: p, t⟩, br, false, bd, st⟩ with ⟨res, d1⟩
    cases res with
    | error err => rw [bind_error hres]
    | ok f => rw [bind_ok hres]; rfl

/-- Witness of C17: the tag frame `0xc2` (tag number 2) before a text string. -/
theorem DecodeTime_invalid_tag_witness :
    wfFrame cborMajorTag [0xc2] ∧
    cborDecDriver.DecodeTime ⟨id, id, Int.toNat, fun _ => none, fun _ => 0, id, 0⟩
        ⟨⟨false, false, false⟩, ⟨[], [0xc2] ++ [0x61, 0x41]⟩, true, false, 0, false⟩
      = (Except.error (DecErr.invalidTimeTag 2),
          ⟨⟨false, false, false⟩, ⟨[0xc2], [0x61, 0x41]⟩, true, false, 0xc2, false⟩) :=
  ⟨by decide,
    (DecodeTime_invalid_tag ⟨id, id, Int.toNat, fun _ => none, fun _ => 0, id, 0⟩
      ⟨false, false, false⟩ [] [0x61, 0x41] true 0 false [0xc2] (by decide)).1
      (by decide) (by decide)⟩

/-! ## Chunks of an indefinite-length string -/

theorem chunksFuel_nil (c fuel : Nat) : chunksFuel c fuel [] = [] := by
  cases fuel <;> simp [chunksFuel]

theorem chunksFuel_cons (c fuel : Nat) (v : List Nat) (hv : v ≠ []) :
    chunksFuel c (fuel + 1) v = v.take c :: chunksFuel c fuel (v.drop c) := by
  simp [chunksFuel, hv]

/-- What the chunk loop of `encStringBytesS` writes from index `i` on: one frame per
chunk of `blen` bytes of the rest of the payload. -/
theorem encStringBytesSLoop_w (bb : Nat) (hb32 : bb % 0x20 = 0) (hb256 : bb < 256)
    (v : List Nat) (hlen : v.length < 2 ^ 63) (blen : Nat) (hblen : 0 < blen) :
    ∀ (fuel i : Nat) (e : cborEncDriver), v.length - i ≤ fuel →
      (cborEncDriver.encStringBytesSLoop bb v v.length blen fuel i e).w
        = e.w ++ (chunksFuel blen fuel (v.drop i)).flatMap (stringFrame bb) := by
  intro fuel
  induction fuel with
  | zero =>
    intro i e _
    simp [cborEncDriver.encStringBytesSLoop, chunksFuel]
  | succ fuel ih =>
    intro i e hi
    by_cases hlt : i < v.length
    · have hne : v.drop i ≠ [] := by
        intro h0
        have := congrArg List.length h0
        rw [List.length_drop] at this
        simp at this
        omega
      have hchunk : (if i + blen < v.length then (v.drop i).take (i + blen - i) else v.drop i)
          = (v.drop i).take blen := by
        split_ifs with h2
        · rw [Nat.add_sub_cancel_left]
        · rw [List.take_of_length_le]
          rw [List.length_drop]; omega
      have hcl : ((v.drop i).take blen).length < 2 ^ 63 := by
        rw [List.length_take, List.length_drop]; omega
      have hstep : cborEncDriver.encStringBytesSLoop bb v v.length blen (fuel + 1) i e
          = cborEncDriver.encStringBytesSLoop bb v v.length blen fuel (i + blen)
              ((e.encLen bb (((v.drop i).take blen).length : Int)).writestr
                ((v.drop i).take blen)) := by
        conv_lhs => unfold cborEncDriver.encStringBytesSLoop
        rw [if_pos hlt]
        simp only [hchunk]
      have hel := encLen_frame e bb ((v.drop i).take blen).length hcl hb32 hb256
      rw [hstep, ih (i + blen) _ (by omega), chunksFuel_cons blen fuel _ hne,
        List.flatMap_cons, List.drop_drop]
      simp only [cborEncDriver.writestr, hel.1, stringFrame, List.append_assoc,
        List.cons_append]
    · have hstep : cborEncDriver.encStringBytesSLoop bb v v.length blen (fuel + 1) i e = e := by
        conv_lhs => unfold cborEncDriver.encStringBytesSLoop
        rw [if_neg hlt]
      rw [hstep, List.drop_of_length_le (by omega), chunksFuel_nil]
      simp

/-- Shape of the chunks: they concatenate to the payload, every chunk before the last
has exactly `c` bytes, and the last has between 1 and `c` bytes. -/
theorem chunksFuel_shape (c : Nat) (hc : 0 < c) :
    ∀ (fuel : Nat) (v : List Nat), v.length ≤ fuel →
      (chunksFuel c fuel v).flatten = v ∧
      ∀ (j : Nat) (ch : List Nat), (chunksFuel c fuel v)[j]? = some ch →
        (j + 1 < (chunksFuel c fuel v).length → ch.length = c) ∧
        (j + 1 = (chunksFuel c fuel v).length → 1 ≤ ch.length ∧ ch.length ≤ c) := by
  intro fuel
  induction fuel with
  | zero =>
    intro v hv
    have : v = [] := List.length_eq_zero.1 (by omega)
    subst this
    simp [chunksFuel]
  | succ fuel ih =>
    intro v hv
    by_cases hne : v = []
    · subst hne
      simp [chunksFuel]
    · have hpos : 0 < v.length := List.length_pos.2 hne
      have hd : (v.drop c).length ≤ fuel := by rw [List.length_drop]; omega
      obtain ⟨ihf, ihs⟩ := ih (v.drop c) hd
      rw [chunksFuel_cons c fuel v hne]
      constructor
      · rw [List.flatten_cons, ihf, List.take_append_drop]
      · intro j ch hj
        cases j with
        | zero =>
          simp only [List.getElem?_cons_zero, Option.some.injEq] at hj
          subst hj
          simp only [List.length_cons, List.length_take]
          constructor
          · intro hlen
            have hR : chunksFuel c fuel (v.drop c) ≠ [] := by
              intro h0
              rw [h0] at hlen
              simp at hlen
            have hdne : v.drop c ≠ [] := by
              intro h0
              rw [h0, chunksFuel_nil] at hR
              exact hR rfl
            have : 0 < (v.drop c).length := List.length_pos.2 hdne
            rw [List.length_drop] at this
            omega
          · intro _
            omega
        | succ j =>
          simp only [List.getElem?_cons_succ] at hj
          obtain ⟨h1, h2⟩ := ihs j ch hj
          simp only [List.length_cons]
          exact ⟨fun hl => h1 (by omega), fun hl => h2 (by omega)⟩

/-- C20, as amended. In indefinite mode, for a payload of `L > 0` bytes,
`encStringBytesS` writes the marker of the major type, one definite-length frame of the
same major type per chunk and the break byte, where the chunks are consecutive pieces
of `c` bytes with `c = L/4` when `1 ≤ L/4 ≤ 1024`, `c = 64` when `L/4 = 0` and
`c = 1024` when `L/4 > 1024`: the chunks concatenate to the payload, every chunk before
the last has exactly `c` bytes, the last has between 1 and `c` bytes, and
`1 ≤ c ≤ 1024`. -/
theorem encStringBytesS_chunk_size (e : cborEncDriver) (bb m : Nat)
    (hm : (bb = 0x40 ∧ m = 0x5f) ∨ (bb = 0x60 ∧ m = 0x7f))
    (hind : e.h.IndefiniteLength = true) (v : List Nat) (hpos : 0 < v.length)
    (hlen : v.length < 2 ^ 63) :
    (e.encStringBytesS bb v).w
      = e.w ++ chunkedString m bb (chunksOf (chunkLen v.length) v) ∧
    (v.length / 4 = 0 → chunkLen v.length = 64) ∧
    (1 ≤ v.length / 4 → v.length / 4 ≤ 1024 → chunkLen v.length = v.length / 4) ∧
    (1024 < v.length / 4 → chunkLen v.length = 1024) ∧
    (1 ≤ chunkLen v.length ∧ chunkLen v.length ≤ 1024) ∧
    (chunksOf (chunkLen v.length) v).flatten = v ∧
    (∀ (j : Nat) (ch : List Nat), (chunksOf (chunkLen v.length) v)[j]? = some ch →
      (j + 1 < (chunksOf (chunkLen v.length) v).length → ch.length = chunkLen v.length) ∧
      (j + 1 = (chunksOf (chunkLen v.length) v).length →
        1 ≤ ch.length ∧ ch.length ≤ chunkLen v.length)) := by
  have hb32 : bb % 0x20 = 0 := by rcases hm with ⟨rfl, _⟩ | ⟨rfl, _⟩ <;> rfl
  have hb256 : bb < 256 := by rcases hm with ⟨rfl, _⟩ | ⟨rfl, _⟩ <;> decide
  have hc : 0 < chunkLen v.length := by
    unfold chunkLen
    split_ifs <;> omega
  have hshape := chunksFuel_shape (chunkLen v.length) hc v.length v (le_refl _)
  refine ⟨?_, ?_, ?_, ?_, ?_, hshape.1, hshape.2⟩
  · rw [encStringBytesS_indefinite e bb m hm hind v]
    show (cborEncDriver.encStringBytesSLoop bb v v.length (chunkLen v.length) v.length 0
      (e.writen1 m)).w ++ [0xff] = _
    rw [encStringBytesSLoop_w bb hb32 hb256 v hlen _ hc v.length 0 _ (by omega)]
    simp [cborEncDriver.writen1, chunkedString, chunksOf]
  · intro h0
    unfold chunkLen
    rw [if_pos h0]
  · intro h1 h2
    unfold chunkLen
    rw [if_neg (by omega), if_neg (by omega)]
  · intro h1
    unfold chunkLen
    rw [if_neg (by omega), if_pos h1]
  · unfold chunkLen
    split_ifs <;> omega

set_option maxRecDepth 100000 in
/-- Counterexample to C20 as stated: for a 100-byte payload the claim's chunk size is
`100/4` clamped to `[64, 1024]`, that is 64, but `encStringBytesS` writes four chunks of
25 bytes: the bytes written are not those of chunks of 64 bytes, and the first chunk
frame is `0x58 0x19` (length 25). -/
theorem encStringBytesS_chunk_size_counterexample :
    clampedChunkLen 100 = 64 ∧
    (({ w := [], h := ⟨true, false, false⟩ } : cborEncDriver).encStringBytesS 0x40
        (List.replicate 100 0x61)).w
      ≠ chunkedString 0x5f 0x40 (chunksOf (clampedChunkLen 100) (List.replicate 100 0x61)) ∧
    (({ w := [], h := ⟨true, false, false⟩ } : cborEncDriver).encStringBytesS 0x40
        (List.replicate 100 0x61)).w
      = chunkedString 0x5f 0x40 (List.replicate 4 (List.replicate 25 0x61)) ∧
    ((({ w := [], h := ⟨true, false, false⟩ } : cborEncDriver).encStringBytesS 0x40
        (List.replicate 100 0x61)).w).take 3 = [0x5f, 0x58, 0x19] := by
  decide

/-- Witness of C20 as amended: the 100-byte payload, written as a byte string. -/
theorem encStringBytesS_chunk_size_witness :
    ((0x40 = 0x40 ∧ 0x5f = 0x5f) ∨ (0x40 = 0x60 ∧ 0x5f = 0x7f)) ∧
    0 < (List.replicate 100 0x61).length ∧ (List.replicate 100 0x61).length < 2 ^ 63 ∧
    (({ w := [], h := ⟨true, false, false⟩ } : cborEncDriver).encStringBytesS 0x40
        (List.replicate 100 0x61)).w
      = [] ++ chunkedString 0x5f 0x40
          (chunksOf (chunkLen (List.replicate 100 0x61).length) (List.replicate 100 0x61)) :=
  ⟨Or.inl ⟨rfl, rfl⟩, by decide, by decide,
    (encStringBytesS_chunk_size ⟨[], ⟨true, false, false⟩⟩ 0x40 0x5f (Or.inl ⟨rfl, rfl⟩) rfl
      (List.replicate 100 0x61) (by decide) (by decide)).1⟩

/-! ## Draining an indefinite-length map -/

theorem DecodeInt64_cached (h : CborHandle) (p t : List Nat) (b : Nat) (br : Bool)
    (bd0 : Nat) (st : Bool) :
    cborDecDriver.DecodeInt64 ⟨h, ⟨b :: p, t⟩, br, true, b, st⟩
      = cborDecDriver.DecodeInt64 ⟨h, ⟨p, b :: t⟩, br, false, bd0, st⟩ := by
  unfold cborDecDriver.DecodeInt64
  apply bind_eq_of_eq
  unfold cborDecDriver.decCheckInteger
  rw [bind_ok (ensureBd_cached h ⟨b :: p, t⟩ br b st), bind_ok (ensureBd_cons h p t b br bd0 st)]

/-- Source `DecodeInt64` over an integer item of any width: the item is consumed, the
cache flag cleared, and the result is that of `cborDecInt64` on the magnitude read. -/
theorem DecodeInt64_item_any (h : CborHandle) (p t : List Nat) (br : Bool) (bd0 : Nat)
    (st : Bool) (it : List Nat) (hit : intItem it) :
    cborDecDriver.DecodeInt64 ⟨h, ⟨p, it ++ t⟩, br, false, bd0, st⟩
      = (cborDecInt64 (frameValue it) (decide (it.headD 0 / 32 = 1)),
          ⟨h, ⟨it.reverse ++ p, t⟩, br, false, it.headD 0, st⟩) := by
  have hex : ∃ bd tail, it = bd :: tail ∧ bd / 32 ≤ 1 ∧ bd % 32 ≤ 0x1b ∧
      tail.length = tailLen (bd % 32) := by
    rcases hit with hw | hw
    · obtain ⟨bd, tail, e, hm, hl, ht⟩ := wfFrame_exists _ it hw
      rw [cborMajorUint] at hm
      exact ⟨bd, tail, e, by omega, hl, ht⟩
    · obtain ⟨bd, tail, e, hm, hl, ht⟩ := wfFrame_exists _ it hw
      rw [cborMajorNegInt] at hm
      exact ⟨bd, tail, e, by omega, hl, ht⟩
  obtain ⟨bd, tail, rfl, hm, hlow, hlen⟩ := hex
  unfold cborDecDriver.DecodeInt64
  rw [List.cons_append, bind_ok (decCheckInteger_fresh h p _ bd br bd0 st hm),
    bind_ok (decUint_wfFrame h _ t br true st bd tail hlow hlen)]
  simp only [modifyD_bind, liftExcept_apply, List.reverse_cons, List.append_assoc,
    List.singleton_append, List.headD_cons]

/-- Source `cborDecInt64` on the magnitude of an integer item: the range error when the
item is one of the two that the check rejects, the decoded value otherwise. -/
theorem cborDecInt64_item (it : List Nat) :
    cborDecInt64 (frameValue it) (decide (it.headD 0 / 32 = 1))
      = if int64Rejected it then Except.error (DecErr.overflow (2 ^ 64 - 1))
        else Except.ok (int64Decoded it) := by
  unfold int64Rejected int64Decoded
  simp only [cborMajorNegInt]
  by_cases hneg : it.headD 0 / 32 = 1
  · simp only [hneg, decide_True, if_true]
    rw [cborDecInt64_neg_any]
    by_cases hr : (frameValue it + 1) % 2 ^ 64 = 2 ^ 64 - 1
    · rw [if_pos hr, if_pos hr, hr]
    · rw [if_neg hr, if_neg hr]
  · simp only [hneg, decide_False, if_false]
    rw [cborDecInt64_pos_any]
    by_cases hr : frameValue it = 2 ^ 64 - 1
    · rw [if_pos hr, if_pos hr, hr]
    · rw [if_neg hr, if_neg hr]

/-- An integer item whose value is an `int64` passes the range check of `cborDecInt64`
and is decoded to its value. -/
theorem int64Decoded_of_range (it : List Nat) (hlo : MinInt64 ≤ intItemValue it)
    (hhi : intItemValue it ≤ MaxInt64) :
    ¬int64Rejected it ∧ int64Decoded it = intItemValue it := by
  unfold intItemValue at hlo hhi ⊢
  unfold int64Rejected int64Decoded
  unfold MinInt64 at hlo
  unfold MaxInt64 at hhi
  by_cases hneg : it.headD 0 / 32 = cborMajorNegInt
  · rw [if_pos hneg] at hlo hhi
    rw [if_pos hneg, if_pos hneg, if_pos hneg]
    have e1 : (frameValue it + 1) % 2 ^ 64 = frameValue it + 1 := by omega
    rw [e1]
    refine ⟨by omega, ?_⟩
    unfold wrapInt64
    push_cast
    omega
  · rw [if_neg hneg] at hlo hhi
    rw [if_neg hneg, if_neg hneg, if_neg hneg]
    refine ⟨by omega, ?_⟩
    unfold wrapInt64
    omega

/-- Source `DecodeInt64` over an integer item of any width that the range check lets
through: the item is consumed and the decoded value returned. -/
theorem DecodeInt64_item (h : CborHandle) (p t : List Nat) (br : Bool) (bd0 : Nat)
    (st : Bool) (it : List Nat) (hit : intItem it) (hok : ¬int64Rejected it) :
    cborDecDriver.DecodeInt64 ⟨h, ⟨p, it ++ t⟩, br, false, bd0, st⟩
      = (Except.ok (int64Decoded it), ⟨h, ⟨it.reverse ++ p, t⟩, br, false, it.headD 0, st⟩) := by
  rw [DecodeInt64_item_any h p t br bd0 st it hit, cborDecInt64_item, if_neg hok]

/-- Source `DecodeInt64` over one of the two integer items that the range check rejects:
the range error. -/
theorem DecodeInt64_item_rejected (h : CborHandle) (p t : List Nat) (br : Bool) (bd0 : Nat)
    (st : Bool) (it : List Nat) (hit : intItem it) (hbad : int64Rejected it) :
    cborDecDriver.DecodeInt64 ⟨h, ⟨p, it ++ t⟩, br, false, bd0, st⟩
      = (Except.error (DecErr.overflow (2 ^ 64 - 1)),
          ⟨h, ⟨it.reverse ++ p, t⟩, br, false, it.headD 0, st⟩) := by
  rw [DecodeInt64_item_any h p t br bd0 st it hit, cborDecInt64_item, if_pos hbad]

theorem intItem_head (it : List Nat) (hit : intItem it) :
    ∃ b tl, it = b :: tl ∧ b ≠ 0xff := by
  rcases hit with hw | hw
  · obtain ⟨bd, tail, e, hm, _, _⟩ := wfFrame_exists _ _ hw
    rw [cborMajorUint] at hm
    exact ⟨bd, tail, e, by omega⟩
  · obtain ⟨bd, tail, e, hm, _, _⟩ := wfFrame_exists _ _ hw
    rw [cborMajorNegInt] at hm
    exact ⟨bd, tail, e, by omega⟩

/-- The bytes of a list of key/value pairs of items, in order. -/
theorem pairs_length_le (kvs : List (List Nat × List Nat))
    (hk : ∀ kv ∈ kvs, intItem kv.1 ∧ intItem kv.2) :
    kvs.length ≤ (kvs.flatMap (fun kv => kv.1 ++ kv.2)).length := by
  induction kvs with
  | nil => simp
  | cons kv kvs ih =>
    have h1 := (hk kv (List.mem_cons_self _ _)).1
    have hne : kv.1 ≠ [] := by
      rcases h1 with hw | hw <;> exact hw.1
    have hpos : 0 < kv.1.length := List.length_pos.2 hne
    have := ih (fun x hx => hk x (List.mem_cons_of_mem _ hx))
    simp only [List.flatMap_cons, List.length_append, List.length_cons]
    omega

/-- The draining loop over key/value pairs of integer items that the range check lets
through: the decoded pairs are collected in order, and the loop goes on with what
follows the pairs. -/
theorem drainIntMapLoop_prefix (h : CborHandle) (s : List Nat) (br : Bool) (st : Bool) :
    ∀ (kvs : List (List Nat × List Nat)),
      (∀ kv ∈ kvs, (intItem kv.1 ∧ ¬int64Rejected kv.1) ∧
        (intItem kv.2 ∧ ¬int64Rejected kv.2)) →
      ∀ (p : List Nat) (bd0 : Nat) (k : Nat) (acc : List (Int × Int)), kvs.length ≤ k →
        ∃ (k1 : Nat) (p1 : List Nat) (bd1 : Nat),
          p1 = (kvs.flatMap (fun kv => kv.1 ++ kv.2)).reverse ++ p ∧
          drainIntMapLoop (k + 1) acc
              ⟨h, ⟨p, kvs.flatMap (fun kv => kv.1 ++ kv.2) ++ s⟩, br, false, bd0, st⟩
            = drainIntMapLoop (k1 + 1)
                (acc ++ kvs.map (fun kv => (int64Decoded kv.1, int64Decoded kv.2)))
                ⟨h, ⟨p1, s⟩, br, false, bd1, st⟩ := by
  intro kvs
  induction kvs with
  | nil =>
    intro _ p bd0 k acc _
    refine ⟨k, p, bd0, by simp, ?_⟩
    simp only [List.flatMap_nil, List.nil_append, List.map_nil, List.append_nil]
  | cons kv kvs ih =>
    intro hk p bd0 k acc hlen
    obtain ⟨⟨hi1, hok1⟩, ⟨hi2, hok2⟩⟩ := hk kv (List.mem_cons_self _ _)
    have hk1 := fun x hx => hk x (List.mem_cons_of_mem kv hx)
    obtain ⟨k0, rfl⟩ : ∃ k0, k = k0 + 1 := ⟨k - 1, by simp at hlen; omega⟩
    obtain ⟨b, tl, hb, hbne⟩ := intItem_head kv.1 hi1
    have hD1 := DecodeInt64_item h p (kv.2 ++ (kvs.flatMap (fun kv => kv.1 ++ kv.2) ++ s))
      br bd0 st kv.1 hi1 hok1
    have hD2 := DecodeInt64_item h (kv.1.reverse ++ p)
      (kvs.flatMap (fun kv => kv.1 ++ kv.2) ++ s) br (kv.1.headD 0) st kv.2 hi2 hok2
    obtain ⟨k1, p1, bd1, hp1, e⟩ := ih hk1 (kv.2.reverse ++ (kv.1.reverse ++ p))
      (kv.2.headD 0) k0 (acc ++ [(int64Decoded kv.1, int64Decoded kv.2)])
      (by simp at hlen; omega)
    refine ⟨k1, p1, bd1, ?_, ?_⟩
    · rw [hp1]
      simp [List.flatMap_cons]
    have hstream : (kv :: kvs).flatMap (fun kv => kv.1 ++ kv.2) ++ s
        = b :: (tl ++ (kv.2 ++ (kvs.flatMap (fun kv => kv.1 ++ kv.2) ++ s))) := by
      simp [List.flatMap_cons, hb]
    conv_lhs => unfold drainIntMapLoop
    rw [hstream, bind_ok (CheckBreak_other h p _ b br bd0 st hbne)]
    simp only [Bool.false_eq_true, if_false]
    rw [hb, List.cons_append] at hD1
    rw [bind_ok ((DecodeInt64_cached h p _ b br bd0 st).trans hD1), ← hb, bind_ok hD2, e]
    simp only [List.map_cons, List.append_assoc, List.singleton_append]

/-- The draining loop meeting a pair whose key is one of the two integer items that the
range check rejects, or whose key is let through and whose value is rejected: the loop
ends in the range error. -/
theorem drainIntMapLoop_rejected (h : CborHandle) (p t : List Nat) (br : Bool) (bd0 : Nat)
    (st : Bool) (k : Nat) (acc : List (Int × Int)) (bad : List Nat) (hbad : intItem bad)
    (hrej : int64Rejected bad) :
    (drainIntMapLoop (k + 1) acc ⟨h, ⟨p, bad ++ t⟩, br, false, bd0, st⟩).1
      = Except.error (DecErr.overflow (2 ^ 64 - 1)) ∧
    (∀ key : List Nat, intItem key → ¬int64Rejected key →
      (drainIntMapLoop (k + 1) acc ⟨h, ⟨p, key ++ (bad ++ t)⟩, br, false, bd0, st⟩).1
        = Except.error (DecErr.overflow (2 ^ 64 - 1))) := by
  constructor
  · obtain ⟨b, tl, hb, hbne⟩ := intItem_head bad hbad
    have hD := DecodeInt64_item_rejected h p t br bd0 st bad hbad hrej
    unfold drainIntMapLoop
    rw [hb, List.cons_append] at hD ⊢
    rw [bind_ok (CheckBreak_other h p _ b br bd0 st hbne)]
    simp only [Bool.false_eq_true, if_false]
    rw [bind_error ((DecodeInt64_cached h p _ b br bd0 st).trans hD)]
  · intro key hkey hok
    obtain ⟨b, tl, hb, hbne⟩ := intItem_head key hkey
    have hD1 := DecodeInt64_item h p (bad ++ t) br bd0 st key hkey hok
    have hD2 := DecodeInt64_item_rejected h (key.reverse ++ p) t br (key.headD 0) st bad
      hbad hrej
    unfold drainIntMapLoop
    rw [hb, List.cons_append] at hD1
    rw [hb, List.cons_append, bind_ok (CheckBreak_other h p _ b br bd0 st hbne)]
    simp only [Bool.false_eq_true, if_false]
    rw [bind_ok ((DecodeInt64_cached h p _ b br bd0 st).trans hD1), ← hb, bind_error hD2]

theorem bind_ok_inv {α β : Type} {m : DecM α} {f : α → DecM β} {d d2 : cborDecDriver}
    {b : β} (h : (m >>= f) d = (Except.ok b, d2)) :
    ∃ a d1, m d = (Except.ok a, d1) ∧ f a d1 = (Except.ok b, d2) := by
  rcases hm : m d with ⟨res, d1⟩
  cases res with
  | error err =>
    rw [bind_error hm] at h
    cases h
  | ok a =>
    rw [bind_ok hm] at h
    exact ⟨a, d1, rfl, h⟩

theorem ClearsCache_bind_right {α β : Type} (m : DecM α) {f : α → DecM β}
    (hf : ∀ a, ClearsCache (f a)) : ClearsCache (m >>= f) := by
  intro d b d2 h
  obtain ⟨a, d1, _, h2⟩ := bind_ok_inv h
  exact hf a d1 b d2 h2

theorem ClearsCache_bind_keeps {α β : Type} {m : DecM α} {f : α → DecM β}
    (hm : ClearsCache m) (hf : ∀ a, KeepsCleared (f a)) : ClearsCache (m >>= f) := by
  intro d b d2 h
  obtain ⟨a, d1, h1, h2⟩ := bind_ok_inv h
  exact hf a d1 b d2 (hm d a d1 h1) h2

theorem KeepsCleared_bind {α β : Type} {m : DecM α} {f : α → DecM β}
    (hm : KeepsCleared m) (hf : ∀ a, KeepsCleared (f a)) : KeepsCleared (m >>= f) := by
  intro d b d2 hd h
  obtain ⟨a, d1, h1, h2⟩ := bind_ok_inv h
  exact hf a d1 b d2 (hm d a d1 hd h1) h2

theorem ClearsCache_keeps {α : Type} {m : DecM α} (hm : ClearsCache m) : KeepsCleared m :=
  fun d a d1 _ h => hm d a d1 h

theorem KeepsCleared_pure {α : Type} (a : α) : KeepsCleared (pure a : DecM α) := by
  intro d b d1 hd h
  cases h
  exact hd

theorem ClearsCache_errorf {α : Type} (err : DecErr) : ClearsCache (errorf err : DecM α) := by
  intro d b d1 h
  cases h

theorem KeepsCleared_liftExcept {α : Type} (x : Except DecErr α) :
    KeepsCleared (liftExcept x) := by
  intro d b d1 hd h
  cases h
  exact hd

theorem KeepsCleared_readn1 : KeepsCleared readn1 := by
  intro d b d1 hd h
  unfold Cbor.readn1 at h
  split at h
  · cases h
  · cases h
    exact hd

theorem KeepsCleared_readx (n : Nat) : KeepsCleared (readx n) := by
  intro d b d1 hd h
  unfold Cbor.readx at h
  split_ifs at h
  · cases h
    exact hd
  · cases h

theorem ClearsCache_clear_then {β : Type} {f : Unit → DecM β} (hf : ∀ a, KeepsCleared (f a)) :
    ClearsCache (modifyD (fun d => { d with bdRead := false }) >>= f) := by
  intro d b d2 h
  rw [modifyD_bind] at h
  exact hf () _ b d2 rfl h

theorem KeepsCleared_getD_bind {β : Type} {f : cborDecDriver → DecM β}
    (hf : ∀ a, KeepsCleared (f a)) : KeepsCleared (getD >>= f) := by
  intro d b d2 hd h
  rw [Cbor.getD_bind] at h
  exact hf d d b d2 hd h

theorem ClearsCache_getD_bind {β : Type} {f : cborDecDriver → DecM β}
    (hf : ∀ a, ClearsCache (f a)) : ClearsCache (getD >>= f) :=
  ClearsCache_bind_right _ hf

theorem KeepsCleared_decUint : KeepsCleared cborDecDriver.decUint := by
  unfold cborDecDriver.decUint
  apply KeepsCleared_getD_bind
  intro d
  simp only
  split_ifs
  · exact KeepsCleared_pure _
  · exact KeepsCleared_readn1
  · exact KeepsCleared_bind (KeepsCleared_readx 2) (fun _ => KeepsCleared_pure _)
  · exact KeepsCleared_bind (KeepsCleared_readx 4) (fun _ => KeepsCleared_pure _)
  · exact KeepsCleared_bind (KeepsCleared_readx 8) (fun _ => KeepsCleared_pure _)
  · exact ClearsCache_keeps (ClearsCache_errorf _)

theorem KeepsCleared_decLen : KeepsCleared cborDecDriver.decLen :=
  KeepsCleared_bind KeepsCleared_decUint (fun _ => KeepsCleared_pure _)

theorem ClearsCache_DecodeInt64 : ClearsCache cborDecDriver.DecodeInt64 := by
  unfold cborDecDriver.DecodeInt64
  refine ClearsCache_bind_right _ (fun neg => ClearsCache_bind_right _ (fun ui => ?_))
  exact ClearsCache_clear_then (fun _ => KeepsCleared_liftExcept _)

theorem ClearsCache_DecodeUint64 : ClearsCache cborDecDriver.DecodeUint64 := by
  unfold cborDecDriver.DecodeUint64
  refine ClearsCache_bind_right _ (fun neg => ?_)
  split_ifs
  · exact ClearsCache_errorf _
  · exact ClearsCache_bind_right _ (fun ui =>
      ClearsCache_clear_then (fun _ => KeepsCleared_pure _))

theorem ClearsCache_DecodeFloat64 (rt : GoRuntime) :
    ClearsCache (cborDecDriver.DecodeFloat64 rt) := by
  unfold cborDecDriver.DecodeFloat64
  refine ClearsCache_bind_right _ (fun _ => ClearsCache_bind_right _ (fun _ =>
    ClearsCache_bind_right _ (fun f => ?_)))
  exact ClearsCache_clear_then (fun _ => KeepsCleared_pure _)

theorem ClearsCache_DecodeBool : ClearsCache cborDecDriver.DecodeBool := by
  unfold cborDecDriver.DecodeBool
  refine ClearsCache_bind_right _ (fun _ => ClearsCache_bind_right _ (fun _ =>
    ClearsCache_getD_bind (fun d => ?_)))
  split_ifs
  · exact ClearsCache_clear_then (fun _ => KeepsCleared_pure _)
  · exact ClearsCache_clear_then (fun _ => KeepsCleared_pure _)
  · exact ClearsCache_errorf _

theorem ClearsCache_ReadMapStart : ClearsCache cborDecDriver.ReadMapStart := by
  unfold cborDecDriver.ReadMapStart
  refine ClearsCache_bind_right _ (fun _ => ClearsCache_bind_right _ (fun _ =>
    ClearsCache_clear_then (fun _ => KeepsCleared_getD_bind (fun d => ?_))))
  split_ifs
  · exact KeepsCleared_pure _
  · exact ClearsCache_keeps (ClearsCache_errorf _)
  · exact KeepsCleared_decLen

theorem ClearsCache_ReadArrayStart : ClearsCache cborDecDriver.ReadArrayStart := by
  unfold cborDecDriver.ReadArrayStart
  refine ClearsCache_bind_right _ (fun _ => ClearsCache_bind_right _ (fun _ =>
    ClearsCache_clear_then (fun _ => KeepsCleared_getD_bind (fun d => ?_))))
  split_ifs
  · exact KeepsCleared_pure _
  · exact ClearsCache_keeps (ClearsCache_errorf _)
  · exact KeepsCleared_decLen

theorem CheckBreak_true_clears (d d1 : cborDecDriver)
    (h : cborDecDriver.CheckBreak d = (Except.ok true, d1)) : d1.bdRead = false := by
  unfold cborDecDriver.CheckBreak at h
  obtain ⟨_, d2, _, h2⟩ := bind_ok_inv h
  rw [Cbor.getD_bind] at h2
  split_ifs at h2
  · rw [modifyD_bind] at h2
    cases h2
    rfl
  · cases h2

theorem TryDecodeAsNil_true_clears (d d1 : cborDecDriver)
    (h : cborDecDriver.TryDecodeAsNil d = (Except.ok true, d1)) : d1.bdRead = false := by
  unfold cborDecDriver.TryDecodeAsNil at h
  obtain ⟨_, d2, _, h2⟩ := bind_ok_inv h
  rw [Cbor.getD_bind] at h2
  split_ifs at h2
  · rw [modifyD_bind] at h2
    cases h2
    rfl
  · cases h2

theorem ClearsCache_decAppendIndefiniteBytes (bs : List Nat) :
    ClearsCache (cborDecDriver.decAppendIndefiniteBytes bs) := by
  unfold cborDecDriver.decAppendIndefiniteBytes
  refine ClearsCache_bind_right _ (fun _ => ClearsCache_getD_bind (fun d =>
    ClearsCache_bind_right _ (fun out => ?_)))
  exact ClearsCache_clear_then (fun _ => KeepsCleared_pure _)

theorem ClearsCache_decodeBytesArrayBreakLoop :
    ∀ (fuel : Nat) (bs : List Nat),
      ClearsCache (cborDecDriver.decodeBytesArrayBreakLoop fuel bs) := by
  intro fuel
  induction fuel with
  | zero =>
    intro bs
    unfold cborDecDriver.decodeBytesArrayBreakLoop
    exact ClearsCache_errorf _
  | succ fuel ih =>
    intro bs d a d2 h
    unfold cborDecDriver.decodeBytesArrayBreakLoop at h
    obtain ⟨brk, d1, h1, h2⟩ := bind_ok_inv h
    cases brk with
    | true =>
      simp only [if_true] at h2
      cases h2
      exact CheckBreak_true_clears d _ h1
    | false =>
      simp only [Bool.false_eq_true, if_false] at h2
      obtain ⟨u, d3, _, h4⟩ := bind_ok_inv h2
      obtain ⟨b, d4, _, h6⟩ := bind_ok_inv h4
      exact ih _ d4 a d2 h6

theorem KeepsCleared_decodeBytesArrayLoop :
    ∀ (n : Nat) (bs : List Nat), KeepsCleared (cborDecDriver.decodeBytesArrayLoop n bs) := by
  intro n
  induction n with
  | zero =>
    intro bs
    unfold cborDecDriver.decodeBytesArrayLoop
    exact KeepsCleared_pure _
  | succ n ih =>
    intro bs
    unfold cborDecDriver.decodeBytesArrayLoop
    exact ClearsCache_keeps (ClearsCache_bind_keeps ClearsCache_DecodeUint64 (fun u =>
      KeepsCleared_bind (KeepsCleared_liftExcept _) (fun b => ih _)))

theorem KeepsCleared_decByteSlice (clen : Int) : KeepsCleared (decByteSlice clen) := by
  unfold Cbor.decByteSlice
  split_ifs
  · exact ClearsCache_keeps (ClearsCache_errorf _)
  · exact KeepsCleared_readx _

theorem KeepsCleared_usableByteSlice (slen : Int) : KeepsCleared (usableByteSlice slen) := by
  unfold Cbor.usableByteSlice
  split_ifs
  · exact ClearsCache_keeps (ClearsCache_errorf _)
  · exact KeepsCleared_pure _

theorem ClearsCache_DecodeBytes (bs : Option (List Nat)) (zerocopy : Bool) :
    ClearsCache (cborDecDriver.DecodeBytes bs zerocopy) := by
  unfold cborDecDriver.DecodeBytes
  refine ClearsCache_bind_right _ (fun _ => ClearsCache_bind_right _ (fun _ =>
    ClearsCache_getD_bind (fun d => ?_)))
  simp only
  split_ifs
  · exact ClearsCache_clear_then (fun _ => KeepsCleared_pure _)
  · refine ClearsCache_bind_right _ (fun _ => ?_)
    exact ClearsCache_bind_keeps (ClearsCache_decAppendIndefiniteBytes _)
      (fun _ => KeepsCleared_pure _)
  · refine ClearsCache_bind_right _ (fun _ => ?_)
    exact ClearsCache_bind_keeps (ClearsCache_decAppendIndefiniteBytes _)
      (fun _ => KeepsCleared_pure _)
  · refine ClearsCache_bind_right _ (fun _ => ?_)
    exact ClearsCache_bind_keeps (ClearsCache_decAppendIndefiniteBytes _)
      (fun _ => KeepsCleared_pure _)
  · refine ClearsCache_bind_right _ (fun _ => ClearsCache_getD_bind (fun d1 => ?_))
    exact ClearsCache_bind_keeps (ClearsCache_decodeBytesArrayBreakLoop _ _)
      (fun _ => KeepsCleared_pure _)
  · refine ClearsCache_clear_then (fun _ => ?_)
    exact KeepsCleared_bind KeepsCleared_decLen (fun slen =>
      KeepsCleared_bind (KeepsCleared_usableByteSlice _) (fun n =>
        KeepsCleared_bind (KeepsCleared_decodeBytesArrayLoop _ _)
          (fun _ => KeepsCleared_pure _)))
  · refine ClearsCache_bind_right _ (fun clen => ClearsCache_clear_then (fun _ => ?_))
    exact KeepsCleared_bind (KeepsCleared_readx _) (fun _ => KeepsCleared_pure _)
  · refine ClearsCache_bind_right _ (fun clen => ClearsCache_clear_then (fun _ => ?_))
    exact KeepsCleared_bind (KeepsCleared_decByteSlice _) (fun _ => KeepsCleared_pure _)

theorem ClearsCache_decodeTime (rt : GoRuntime) (xtag : Nat) :
    ClearsCache (cborDecDriver.decodeTime rt xtag) := by
  unfold cborDecDriver.decodeTime
  split_ifs
  · refine @ClearsCache_bind_keeps _ _ cborDecDriver.DecodeStringAsBytes _
      (ClearsCache_DecodeBytes _ _) (fun bs => ?_)
    split
    · exact KeepsCleared_bind (KeepsCleared_pure _) (fun _ => KeepsCleared_pure _)
    · exact KeepsCleared_bind (ClearsCache_keeps (ClearsCache_errorf _)) (fun _ => KeepsCleared_pure _)
  · exact @ClearsCache_bind_keeps _ _ (cborDecDriver.DecodeFloat64 rt) _
      (ClearsCache_DecodeFloat64 rt)
      (fun _ => KeepsCleared_bind (KeepsCleared_pure _) (fun _ => KeepsCleared_pure _))
  · exact ClearsCache_bind_keeps (ClearsCache_errorf _) (fun _ => KeepsCleared_pure _)

theorem ClearsCache_DecodeTime (rt : GoRuntime) : ClearsCache (cborDecDriver.DecodeTime rt) := by
  unfold cborDecDriver.DecodeTime
  refine ClearsCache_bind_right _ (fun _ => ClearsCache_getD_bind (fun d => ?_))
  split_ifs
  · exact ClearsCache_clear_then (fun _ => KeepsCleared_pure _)
  · exact ClearsCache_errorf _
  · exact ClearsCache_bind_right _ (fun _ => ClearsCache_bind_right _ (fun _ =>
      ClearsCache_decodeTime rt _))

theorem ensureBd_of_cached (d : cborDecDriver) (hd : d.bdRead = true) :
    cborDecDriver.ensureBd d = (Except.ok (), d) := by
  unfold cborDecDriver.ensureBd
  simp [hd]

theorem ensureBd_of_clear (d : cborDecDriver) (hd : d.bdRead = false) :
    cborDecDriver.ensureBd d = cborDecDriver.readNextBd d := by
  unfold cborDecDriver.ensureBd
  simp [hd]

/-! ## The cached descriptor is the one decoded -/

theorem UsesCached_prelude {α : Type} (K : Unit → DecM α) :
    UsesCached (cborDecDriver.ensureBd >>= K) := by
  intro h p t b br bd0 st
  rw [bind_ok (ensureBd_cached h ⟨b :: p, t⟩ br b st), bind_ok (ensureBd_cons h p t b br bd0 st)]

theorem UsesCached_bind {α β : Type} {m : DecM α} (hm : UsesCached m) (f : α → DecM β) :
    UsesCached (m >>= f) := by
  intro h p t b br bd0 st
  exact bind_eq_of_eq (hm h p t b br bd0 st)

theorem UsesCached_decCheckInteger : UsesCached cborDecDriver.decCheckInteger := by
  unfold cborDecDriver.decCheckInteger
  exact UsesCached_prelude _

theorem UsesCached_DecodeInt64 : UsesCached cborDecDriver.DecodeInt64 := by
  unfold cborDecDriver.DecodeInt64
  exact UsesCached_bind UsesCached_decCheckInteger _

theorem UsesCached_DecodeUint64 : UsesCached cborDecDriver.DecodeUint64 := by
  unfold cborDecDriver.DecodeUint64
  exact UsesCached_bind UsesCached_decCheckInteger _

theorem UsesCached_DecodeFloat64 (rt : GoRuntime) :
    UsesCached (cborDecDriver.DecodeFloat64 rt) := by
  unfold cborDecDriver.DecodeFloat64
  exact UsesCached_prelude _

theorem UsesCached_DecodeBool : UsesCached cborDecDriver.DecodeBool := by
  unfold cborDecDriver.DecodeBool
  exact UsesCached_prelude _

theorem UsesCached_DecodeBytes (bs : Option (List Nat)) (zerocopy : Bool) :
    UsesCached (cborDecDriver.DecodeBytes bs zerocopy) := by
  unfold cborDecDriver.DecodeBytes
  exact UsesCached_prelude _

theorem UsesCached_ReadArrayStart : UsesCached cborDecDriver.ReadArrayStart := by
  unfold cborDecDriver.ReadArrayStart
  exact UsesCached_prelude _

theorem UsesCached_ReadMapStart : UsesCached cborDecDriver.ReadMapStart := by
  unfold cborDecDriver.ReadMapStart
  exact UsesCached_prelude _

theorem UsesCached_DecodeTime (rt : GoRuntime) :
    UsesCached (cborDecDriver.DecodeTime rt) := by
  unfold cborDecDriver.DecodeTime
  exact UsesCached_prelude _

theorem UsesCached_TryDecodeAsNil : UsesCached cborDecDriver.TryDecodeAsNil := by
  unfold cborDecDriver.TryDecodeAsNil
  exact UsesCached_prelude _

theorem UsesCached_CheckBreak : UsesCached cborDecDriver.CheckBreak := by
  unfold cborDecDriver.CheckBreak
  exact UsesCached_prelude _

/-! ## With tag skipping off the cached descriptor is not replaced -/

theorem KeepsDescriptor_pure {α : Type} (a : α) : KeepsDescriptor (pure a : DecM α) :=
  fun _ _ => ⟨rfl, rfl⟩

theorem KeepsDescriptor_errorf {α : Type} (err : DecErr) :
    KeepsDescriptor (errorf err : DecM α) :=
  fun _ _ => ⟨rfl, rfl⟩

theorem KeepsDescriptor_liftExcept {α : Type} (x : Except DecErr α) :
    KeepsDescriptor (liftExcept x) :=
  fun _ _ => ⟨rfl, rfl⟩

theorem KeepsDescriptor_clear :
    KeepsDescriptor (modifyD fun d => { d with bdRead := false }) :=
  fun _ _ => ⟨rfl, rfl⟩

theorem KeepsDescriptor_bind {α β : Type} {m : DecM α} {f : α → DecM β}
    (hm : KeepsDescriptor m) (hf : ∀ a, KeepsDescriptor (f a)) :
    KeepsDescriptor (m >>= f) := by
  intro d hst
  obtain ⟨h1, h2⟩ := hm d hst
  rcases hx : m d with ⟨res, d1⟩
  rw [hx] at h1 h2
  simp only at h1 h2
  cases res with
  | error err =>
    rw [bind_error hx]
    exact ⟨h1, h2⟩
  | ok a =>
    rw [bind_ok hx]
    obtain ⟨h3, h4⟩ := hf a d1 (by rw [h1, h2]; exact hst)
    exact ⟨h3.trans h1, h4.trans h2⟩

theorem KeepsDescriptor_getD_bind {β : Type} {f : cborDecDriver → DecM β}
    (hf : ∀ d0, KeepsDescriptor (f d0)) : KeepsDescriptor (getD >>= f) := by
  intro d hst
  rw [getD_bind]
  exact hf d d hst

theorem KeepsDescriptor_readn1 : KeepsDescriptor readn1 := by
  intro d hst
  obtain ⟨h, ⟨p, r⟩, br, x, bd, st⟩ := d
  cases r with
  | nil => exact ⟨rfl, rfl⟩
  | cons b t => exact ⟨rfl, rfl⟩

theorem KeepsDescriptor_readx (n : Nat) : KeepsDescriptor (readx n) := by
  intro d hst
  unfold readx
  split_ifs
  · exact ⟨rfl, rfl⟩
  · exact ⟨rfl, rfl⟩

theorem KeepsDescriptor_skipTagsIfSt : KeepsDescriptor cborDecDriver.skipTagsIfSt := by
  intro d hst
  have e : cborDecDriver.skipTagsIfSt d = (Except.ok (), d) := by
    rcases hst with hst | hst
    · exact skipTagsIfSt_off d hst
    · rw [shr_5, cborMajorTag] at hst
      exact skipTagsIfSt_nontag d hst
  rw [e]
  exact ⟨rfl, rfl⟩

theorem KeepsDescriptor_decUint : KeepsDescriptor cborDecDriver.decUint := by
  unfold cborDecDriver.decUint
  apply KeepsDescriptor_getD_bind
  intro d0
  dsimp only
  split_ifs
  · exact KeepsDescriptor_pure _
  · exact KeepsDescriptor_readn1
  · exact KeepsDescriptor_bind (KeepsDescriptor_readx _) (fun _ => KeepsDescriptor_pure _)
  · exact KeepsDescriptor_bind (KeepsDescriptor_readx _) (fun _ => KeepsDescriptor_pure _)
  · exact KeepsDescriptor_bind (KeepsDescriptor_readx _) (fun _ => KeepsDescriptor_pure _)
  · exact KeepsDescriptor_errorf _

theorem KeepsDescriptor_decLen : KeepsDescriptor cborDecDriver.decLen := by
  unfold cborDecDriver.decLen
  exact KeepsDescriptor_bind KeepsDescriptor_decUint (fun _ => KeepsDescriptor_pure _)

theorem KeepsDescriptor_decodeFloat64Switch (rt : GoRuntime) :
    KeepsDescriptor (cborDecDriver.decodeFloat64Switch rt) := by
  unfold cborDecDriver.decodeFloat64Switch
  apply KeepsDescriptor_getD_bind
  intro d0
  dsimp only
  split_ifs
  · exact KeepsDescriptor_bind (KeepsDescriptor_readx _) (fun _ => KeepsDescriptor_pure _)
  · exact KeepsDescriptor_bind (KeepsDescriptor_readx _) (fun _ => KeepsDescriptor_pure _)
  · exact KeepsDescriptor_bind (KeepsDescriptor_readx _) (fun _ => KeepsDescriptor_pure _)
  · exact KeepsDescriptor_bind KeepsDescriptor_decUint (fun _ =>
      KeepsDescriptor_bind (KeepsDescriptor_liftExcept _) (fun _ => KeepsDescriptor_pure _))
  · exact KeepsDescriptor_bind KeepsDescriptor_decUint (fun _ =>
      KeepsDescriptor_bind (KeepsDescriptor_liftExcept _) (fun _ => KeepsDescriptor_pure _))
  · exact KeepsDescriptor_errorf _

/-- A primitive that opens with `if !d.bdRead { d.readNextBd() }` and goes on without
touching the cached descriptor reads no descriptor over a cached one. -/
theorem CacheStable_prelude {α : Type} {K : Unit → DecM α} (hK : KeepsDescriptor (K ())) :
    CacheStable (cborDecDriver.ensureBd >>= K) := by
  intro d hflag hst
  rw [bind_ok (ensureBd_of_cached d hflag)]
  exact (hK d hst).1

theorem KeepsDescriptor_decCheckIntegerBody :
    KeepsDescriptor (cborDecDriver.skipTagsIfSt >>= fun _ => getD >>= fun d =>
      if d.bd >>> 5 = cborMajorUint then (pure false : DecM Bool)
      else if d.bd >>> 5 = cborMajorNegInt then pure true
      else errorf (DecErr.invalidInteger (d.bd >>> 5) d.bd)) := by
  refine KeepsDescriptor_bind KeepsDescriptor_skipTagsIfSt (fun _ => ?_)
  apply KeepsDescriptor_getD_bind
  intro d0
  dsimp only
  split_ifs
  · exact KeepsDescriptor_pure _
  · exact KeepsDescriptor_pure _
  · exact KeepsDescriptor_errorf _

theorem CacheStable_DecodeInt64 : CacheStable cborDecDriver.DecodeInt64 := by
  unfold cborDecDriver.DecodeInt64 cborDecDriver.decCheckInteger
  rw [DecM_bind_assoc]
  refine CacheStable_prelude ?_
  exact KeepsDescriptor_bind KeepsDescriptor_decCheckIntegerBody (fun _ =>
    KeepsDescriptor_bind KeepsDescriptor_decUint (fun _ =>
      KeepsDescriptor_bind KeepsDescriptor_clear (fun _ => KeepsDescriptor_liftExcept _)))

theorem CacheStable_DecodeUint64 : CacheStable cborDecDriver.DecodeUint64 := by
  unfold cborDecDriver.DecodeUint64 cborDecDriver.decCheckInteger
  rw [DecM_bind_assoc]
  refine CacheStable_prelude ?_
  refine KeepsDescriptor_bind KeepsDescriptor_decCheckIntegerBody (fun neg => ?_)
  split_ifs
  · exact KeepsDescriptor_errorf _
  · exact KeepsDescriptor_bind KeepsDescriptor_decUint (fun _ =>
      KeepsDescriptor_bind KeepsDescriptor_clear (fun _ => KeepsDescriptor_pure _))

theorem CacheStable_DecodeFloat64 (rt : GoRuntime) :
    CacheStable (cborDecDriver.DecodeFloat64 rt) := by
  unfold cborDecDriver.DecodeFloat64
  refine CacheStable_prelude ?_
  exact KeepsDescriptor_bind KeepsDescriptor_skipTagsIfSt (fun _ =>
    KeepsDescriptor_bind (KeepsDescriptor_decodeFloat64Switch rt) (fun _ =>
      KeepsDescriptor_bind KeepsDescriptor_clear (fun _ => KeepsDescriptor_pure _)))

theorem CacheStable_DecodeBool : CacheStable cborDecDriver.DecodeBool := by
  unfold cborDecDriver.DecodeBool
  refine CacheStable_prelude ?_
  refine KeepsDescriptor_bind KeepsDescriptor_skipTagsIfSt (fun _ => ?_)
  apply KeepsDescriptor_getD_bind
  intro d0
  dsimp only
  split_ifs
  · exact KeepsDescriptor_bind KeepsDescriptor_clear (fun _ => KeepsDescriptor_pure _)
  · exact KeepsDescriptor_bind KeepsDescriptor_clear (fun _ => KeepsDescriptor_pure _)
  · exact KeepsDescriptor_errorf _

theorem CacheStable_ReadArrayStart : CacheStable cborDecDriver.ReadArrayStart := by
  unfold cborDecDriver.ReadArrayStart
  refine CacheStable_prelude ?_
  refine KeepsDescriptor_bind KeepsDescriptor_skipTagsIfSt (fun _ =>
    KeepsDescriptor_bind KeepsDescriptor_clear (fun _ => ?_))
  apply KeepsDescriptor_getD_bind
  intro d0
  dsimp only
  split_ifs
  · exact KeepsDescriptor_pure _
  · exact KeepsDescriptor_errorf _
  · exact KeepsDescriptor_decLen

theorem CacheStable_ReadMapStart : CacheStable cborDecDriver.ReadMapStart := by
  unfold cborDecDriver.ReadMapStart
  refine CacheStable_prelude ?_
  refine KeepsDescriptor_bind KeepsDescriptor_skipTagsIfSt (fun _ =>
    KeepsDescriptor_bind KeepsDescriptor_clear (fun _ => ?_))
  apply KeepsDescriptor_getD_bind
  intro d0
  dsimp only
  split_ifs
  · exact KeepsDescriptor_pure _
  · exact KeepsDescriptor_errorf _
  · exact KeepsDescriptor_decLen

theorem CacheStable_TryDecodeAsNil : CacheStable cborDecDriver.TryDecodeAsNil := by
  unfold cborDecDriver.TryDecodeAsNil
  refine CacheStable_prelude ?_
  apply KeepsDescriptor_getD_bind
  intro d0
  dsimp only
  split_ifs
  · exact KeepsDescriptor_bind KeepsDescriptor_clear (fun _ => KeepsDescriptor_pure _)
  · exact KeepsDescriptor_pure _

theorem CacheStable_CheckBreak : CacheStable cborDecDriver.CheckBreak := by
  unfold cborDecDriver.CheckBreak
  refine CacheStable_prelude ?_
  apply KeepsDescriptor_getD_bind
  intro d0
  dsimp only
  split_ifs
  · exact KeepsDescriptor_bind KeepsDescriptor_clear (fun _ => KeepsDescriptor_pure _)
  · exact KeepsDescriptor_pure _

theorem KeepsDescriptor_readxSlice (n : Nat) : KeepsDescriptor (readxSlice n) := by
  unfold readxSlice
  exact KeepsDescriptor_bind (KeepsDescriptor_readx _) (fun _ => KeepsDescriptor_pure _)

theorem KeepsDescriptor_decByteSlice (clen : Int) : KeepsDescriptor (decByteSlice clen) := by
  unfold decByteSlice
  split_ifs
  · exact KeepsDescriptor_errorf _
  · exact KeepsDescriptor_readx _

/-- On the paths of `DecodeBytes` that decode no nested item (nil, undefined and the
definite-length string frame) the cached descriptor is not replaced. -/
theorem DecodeBytes_cache_stable (bs : Option (List Nat)) (zerocopy : Bool)
    (d : cborDecDriver) (hflag : d.bdRead = true)
    (hst : d.st = false ∨ d.bd >>> 5 ≠ cborMajorTag)
    (h1 : d.bd ≠ cborBdIndefiniteBytes) (h2 : d.bd ≠ cborBdIndefiniteString)
    (h3 : d.bd ≠ cborBdIndefiniteArray) (h4 : d.bd >>> 5 ≠ cborMajorArray) :
    (cborDecDriver.DecodeBytes bs zerocopy d).2.bd = d.bd := by
  have e : cborDecDriver.skipTagsIfSt d = (Except.ok (), d) := by
    rcases hst with hst | hst
    · exact skipTagsIfSt_off d hst
    · rw [shr_5, cborMajorTag] at hst
      exact skipTagsIfSt_nontag d hst
  unfold cborDecDriver.DecodeBytes
  rw [bind_ok (ensureBd_of_cached d hflag), bind_ok e, getD_bind]
  dsimp only
  by_cases c1 : d.bd = cborBdNil ∨ d.bd = cborBdUndefined
  · rw [if_pos c1]
    rfl
  · rw [if_neg c1, if_neg (by rintro (c | c); exact h1 c; exact h2 c), if_neg h3, if_neg h4]
    refine (KeepsDescriptor_bind KeepsDescriptor_decLen (fun clen =>
      KeepsDescriptor_bind KeepsDescriptor_clear (fun _ => ?_)) d hst).1
    split_ifs
    · exact KeepsDescriptor_readxSlice _
    · exact KeepsDescriptor_bind (KeepsDescriptor_decByteSlice _)
        (fun _ => KeepsDescriptor_pure _)

/-- On the paths of `DecodeTime` that decode no nested item (nil, undefined and a
descriptor that is not a tag) the cached descriptor is not replaced. -/
theorem DecodeTime_cache_stable (rt : GoRuntime) (d : cborDecDriver)
    (hflag : d.bdRead = true) (hbd : d.bd >>> 5 ≠ cborMajorTag) :
    (cborDecDriver.DecodeTime rt d).2.bd = d.bd := by
  unfold cborDecDriver.DecodeTime
  rw [bind_ok (ensureBd_of_cached d hflag), getD_bind]
  split_ifs
  · rfl
  · rfl

theorem erasePast_mk (h : CborHandle) (p rest : List Nat) (br x : Bool) (bd : Nat)
    (st : Bool) :
    erasePast ⟨h, ⟨p, rest⟩, br, x, bd, st⟩ = ⟨h, ⟨[], rest⟩, br, x, bd, st⟩ := rfl

theorem erasePast_eq_cases {d d1 : cborDecDriver} (he : erasePast d = erasePast d1) :
    ∃ (h : CborHandle) (p p1 rest : List Nat) (br x : Bool) (bd : Nat) (st : Bool),
      d = ⟨h, ⟨p, rest⟩, br, x, bd, st⟩ ∧ d1 = ⟨h, ⟨p1, rest⟩, br, x, bd, st⟩ := by
  obtain ⟨h, ⟨p, rest⟩, br, x, bd, st⟩ := d
  obtain ⟨h1, ⟨p1, rest1⟩, br1, x1, bd1, st1⟩ := d1
  simp only [erasePast, cborDecDriver.mk.injEq, decReader.mk.injEq, true_and] at he
  obtain ⟨rfl, rfl, rfl, rfl, rfl, rfl⟩ := he
  exact ⟨_, _, _, _, _, _, _, _, rfl, rfl⟩

theorem SameModuloPast_refl_of_eq {α : Type} {x y : Except DecErr α × cborDecDriver}
    (h1 : x.1 = y.1) (h2 : erasePast x.2 = erasePast y.2) : SameModuloPast x y := ⟨h1, h2⟩

theorem SameModuloPast_rest_eq {α : Type} {x y : Except DecErr α × cborDecDriver}
    (h : SameModuloPast x y) : x.2.r.rest = y.2.r.rest ∧ x.2.bdRead = y.2.bdRead ∧
      x.2.bd = y.2.bd := by
  have h2 := h.2
  obtain ⟨_, _, _, _, _, _, _, _, e1, e2⟩ := erasePast_eq_cases h2
  rw [e1, e2]
  exact ⟨rfl, rfl, rfl⟩

theorem PastIrrelevant_of_mk {α : Type} {m : DecM α}
    (hm : ∀ (h : CborHandle) (p p1 rest : List Nat) (br x : Bool) (bd : Nat) (st : Bool),
      SameModuloPast (m ⟨h, ⟨p, rest⟩, br, x, bd, st⟩) (m ⟨h, ⟨p1, rest⟩, br, x, bd, st⟩)) :
    PastIrrelevant m := by
  intro d d1 he
  obtain ⟨h, p, p1, rest, br, x, bd, st, rfl, rfl⟩ := erasePast_eq_cases he
  exact hm h p p1 rest br x bd st

theorem PastIrrelevant_pure {α : Type} (a : α) : PastIrrelevant (pure a : DecM α) :=
  fun _ _ he => ⟨rfl, he⟩

theorem PastIrrelevant_errorf {α : Type} (err : DecErr) :
    PastIrrelevant (errorf err : DecM α) :=
  fun _ _ he => ⟨rfl, he⟩

theorem PastIrrelevant_liftExcept {α : Type} (x : Except DecErr α) :
    PastIrrelevant (liftExcept x) :=
  fun _ _ he => ⟨rfl, he⟩

theorem PastIrrelevant_bind {α β : Type} {m : DecM α} {f : α → DecM β}
    (hm : PastIrrelevant m) (hf : ∀ a, PastIrrelevant (f a)) : PastIrrelevant (m >>= f) := by
  intro d d1 he
  obtain ⟨h1, h2⟩ := hm d d1 he
  rcases hx : m d with ⟨res, dx⟩
  rcases hy : m d1 with ⟨res1, dy⟩
  rw [hx, hy] at h1 h2
  simp only at h1 h2
  subst h1
  cases res with
  | error err =>
    rw [bind_error hx, bind_error hy]
    exact ⟨rfl, h2⟩
  | ok a =>
    rw [bind_ok hx, bind_ok hy]
    exact hf a dx dy h2

theorem PastIrrelevant_getD_bind {β : Type} {f : cborDecDriver → DecM β}
    (hf : ∀ (h : CborHandle) (p p1 rest : List Nat) (br x : Bool) (bd : Nat) (st : Bool),
      SameModuloPast (f ⟨h, ⟨p, rest⟩, br, x, bd, st⟩ ⟨h, ⟨p, rest⟩, br, x, bd, st⟩)
        (f ⟨h, ⟨p1, rest⟩, br, x, bd, st⟩ ⟨h, ⟨p1, rest⟩, br, x, bd, st⟩)) :
    PastIrrelevant (getD >>= f) :=
  PastIrrelevant_of_mk (fun h p p1 rest br x bd st => by
    rw [Cbor.getD_bind, Cbor.getD_bind]
    exact hf h p p1 rest br x bd st)

theorem PastIrrelevant_readn1 : PastIrrelevant readn1 :=
  PastIrrelevant_of_mk (fun h p p1 rest br x bd st => by
    cases rest with
    | nil => exact ⟨rfl, rfl⟩
    | cons b t => exact ⟨rfl, rfl⟩)

theorem PastIrrelevant_readx (n : Nat) : PastIrrelevant (readx n) :=
  PastIrrelevant_of_mk (fun h p p1 rest br x bd st => by
    unfold Cbor.readx
    simp only
    split_ifs
    · exact ⟨rfl, rfl⟩
    · exact ⟨rfl, rfl⟩)

theorem PastIrrelevant_clear : PastIrrelevant (modifyD fun d => { d with bdRead := false }) :=
  PastIrrelevant_of_mk (fun _ _ _ _ _ _ _ _ => ⟨rfl, rfl⟩)

theorem PastIrrelevant_readNextBd : PastIrrelevant cborDecDriver.readNextBd :=
  PastIrrelevant_of_mk (fun h p p1 rest br x bd st => by
    cases rest with
    | nil => exact ⟨rfl, rfl⟩
    | cons b t => exact ⟨rfl, rfl⟩)

theorem PastIrrelevant_ensureBd : PastIrrelevant cborDecDriver.ensureBd :=
  PastIrrelevant_of_mk (fun h p p1 rest br x bd st => by
    cases x with
    | true => exact ⟨rfl, rfl⟩
    | false =>
      cases rest with
      | nil => exact ⟨rfl, rfl⟩
      | cons b t => exact ⟨rfl, rfl⟩)

theorem PastIrrelevant_decUint : PastIrrelevant cborDecDriver.decUint := by
  unfold cborDecDriver.decUint
  apply PastIrrelevant_getD_bind
  intro h p p1 rest br x bd st
  simp only
  split_ifs
  · exact PastIrrelevant_pure _ _ _ rfl
  · exact PastIrrelevant_readn1 _ _ rfl
  · exact PastIrrelevant_bind (PastIrrelevant_readx 2) (fun _ => PastIrrelevant_pure _) _ _ rfl
  · exact PastIrrelevant_bind (PastIrrelevant_readx 4) (fun _ => PastIrrelevant_pure _) _ _ rfl
  · exact PastIrrelevant_bind (PastIrrelevant_readx 8) (fun _ => PastIrrelevant_pure _) _ _ rfl
  · exact PastIrrelevant_errorf _ _ _ rfl

theorem PastIrrelevant_decLen : PastIrrelevant cborDecDriver.decLen :=
  PastIrrelevant_bind PastIrrelevant_decUint (fun _ => PastIrrelevant_pure _)

theorem PastIrrelevant_skipTagsLoop :
    ∀ fuel : Nat, PastIrrelevant (cborDecDriver.skipTagsLoop fuel) := by
  intro fuel
  induction fuel with
  | zero =>
    unfold cborDecDriver.skipTagsLoop
    exact PastIrrelevant_errorf _
  | succ fuel ih =>
    unfold cborDecDriver.skipTagsLoop
    apply PastIrrelevant_getD_bind
    intro h p p1 rest br x bd st
    simp only
    split_ifs
    · refine PastIrrelevant_bind PastIrrelevant_decUint (fun _ =>
        PastIrrelevant_bind PastIrrelevant_readn1 (fun b =>
          PastIrrelevant_bind ?_ (fun _ => ih))) _ _ rfl
      exact PastIrrelevant_of_mk (fun _ _ _ _ _ _ _ _ => ⟨rfl, rfl⟩)
    · exact PastIrrelevant_pure _ _ _ rfl

theorem PastIrrelevant_skipTags : PastIrrelevant cborDecDriver.skipTags := by
  unfold cborDecDriver.skipTags
  apply PastIrrelevant_getD_bind
  intro h p p1 rest br x bd st
  exact PastIrrelevant_skipTagsLoop _ _ _ rfl

theorem PastIrrelevant_skipTagsIfSt : PastIrrelevant cborDecDriver.skipTagsIfSt := by
  unfold cborDecDriver.skipTagsIfSt
  apply PastIrrelevant_getD_bind
  intro h p p1 rest br x bd st
  simp only
  split_ifs
  · exact PastIrrelevant_skipTags _ _ rfl
  · exact PastIrrelevant_pure _ _ _ rfl

theorem PastIrrelevant_decCheckInteger : PastIrrelevant cborDecDriver.decCheckInteger := by
  unfold cborDecDriver.decCheckInteger
  refine PastIrrelevant_bind PastIrrelevant_ensureBd (fun _ =>
    PastIrrelevant_bind PastIrrelevant_skipTagsIfSt (fun _ => ?_))
  apply PastIrrelevant_getD_bind
  intro h p p1 rest br x bd st
  simp only
  split_ifs
  · exact PastIrrelevant_pure _ _ _ rfl
  · exact PastIrrelevant_pure _ _ _ rfl
  · exact PastIrrelevant_errorf _ _ _ rfl

theorem PastIrrelevant_DecodeInt64 : PastIrrelevant cborDecDriver.DecodeInt64 := by
  unfold cborDecDriver.DecodeInt64
  exact PastIrrelevant_bind PastIrrelevant_decCheckInteger (fun _ =>
    PastIrrelevant_bind PastIrrelevant_decUint (fun _ =>
      PastIrrelevant_bind PastIrrelevant_clear (fun _ => PastIrrelevant_liftExcept _)))

theorem PastIrrelevant_DecodeUint64 : PastIrrelevant cborDecDriver.DecodeUint64 := by
  unfold cborDecDriver.DecodeUint64
  refine PastIrrelevant_bind PastIrrelevant_decCheckInteger (fun neg => ?_)
  split_ifs
  · exact PastIrrelevant_errorf _
  · exact PastIrrelevant_bind PastIrrelevant_decUint (fun _ =>
      PastIrrelevant_bind PastIrrelevant_clear (fun _ => PastIrrelevant_pure _))

theorem PastIrrelevant_DecodeBool : PastIrrelevant cborDecDriver.DecodeBool := by
  unfold cborDecDriver.DecodeBool
  refine PastIrrelevant_bind PastIrrelevant_ensureBd (fun _ =>
    PastIrrelevant_bind PastIrrelevant_skipTagsIfSt (fun _ => ?_))
  apply PastIrrelevant_getD_bind
  intro h p p1 rest br x bd st
  simp only
  split_ifs
  · exact PastIrrelevant_bind PastIrrelevant_clear (fun _ => PastIrrelevant_pure _) _ _ rfl
  · exact PastIrrelevant_bind PastIrrelevant_clear (fun _ => PastIrrelevant_pure _) _ _ rfl
  · exact PastIrrelevant_errorf _ _ _ rfl

/-! ## Tag skipping -/

theorem readn1_rest {d d1 : cborDecDriver} {b : Nat} (h : readn1 d = (Except.ok b, d1)) :
    d1.r.rest.length + 1 = d.r.rest.length := by
  unfold readn1 at h
  split at h
  · cases h
  · rename_i b0 t heq
    cases h
    simp [heq]

theorem readx_rest {n : Nat} {d d1 : cborDecDriver} {bs : List Nat}
    (h : readx n d = (Except.ok bs, d1)) : d1.r.rest.length ≤ d.r.rest.length := by
  unfold readx at h
  split_ifs at h
  · cases h
    simp
  · cases h

theorem decUint_rest {d d1 : cborDecDriver} {u : Nat}
    (h : cborDecDriver.decUint d = (Except.ok u, d1)) :
    d1.r.rest.length ≤ d.r.rest.length := by
  unfold cborDecDriver.decUint at h
  rw [getD_bind] at h
  split_ifs at h
  · cases h
    exact le_refl _
  · have := readn1_rest h
    omega
  · obtain ⟨bs, d2, h1, h2⟩ := bind_ok_inv h
    cases h2
    exact readx_rest h1
  · obtain ⟨bs, d2, h1, h2⟩ := bind_ok_inv h
    cases h2
    exact readx_rest h1
  · obtain ⟨bs, d2, h1, h2⟩ := bind_ok_inv h
    cases h2
    exact readx_rest h1
  · cases h

/-- The loop of `skipTags` never uses up a fuel above the number of unread bytes: two
such fuels give the same result. -/
theorem skipTagsLoop_fuel :
    ∀ (fuel fuel1 : Nat) (d : cborDecDriver), d.r.rest.length < fuel →
      d.r.rest.length < fuel1 →
      cborDecDriver.skipTagsLoop fuel d = cborDecDriver.skipTagsLoop fuel1 d := by
  intro fuel
  induction fuel with
  | zero => intro fuel1 d h; omega
  | succ fuel ih =>
    intro fuel1 d hf hf1
    obtain ⟨fuel1, rfl⟩ : ∃ k, fuel1 = k + 1 := ⟨fuel1 - 1, by omega⟩
    unfold cborDecDriver.skipTagsLoop
    rw [getD_bind, getD_bind]
    simp only
    split_ifs
    · rcases hu : cborDecDriver.decUint d with ⟨res, d1⟩
      cases res with
      | error err => rw [bind_error hu, bind_error hu]
      | ok u =>
        rw [bind_ok hu, bind_ok hu]
        have hr1 := decUint_rest hu
        rcases hn : readn1 d1 with ⟨res, d2⟩
        cases res with
        | error err => rw [bind_error hn, bind_error hn]
        | ok b =>
          rw [bind_ok hn, bind_ok hn]
          have hr2 := readn1_rest hn
          rw [modifyD_bind, modifyD_bind]
          exact ih fuel1 _ (by simp only; omega) (by simp only; omega)
    · rfl

theorem SameModuloPast_sameOutcome {α : Type} {x y : Except DecErr α × cborDecDriver}
    (h : SameModuloPast x y) : SameOutcome x y :=
  ⟨h.1, (SameModuloPast_rest_eq h).1⟩

theorem SameOutcome_trans {α : Type} {x y z : Except DecErr α × cborDecDriver}
    (h1 : SameOutcome x y) (h2 : SameOutcome y z) : SameOutcome x z :=
  ⟨h1.1.trans h2.1, h1.2.trans h2.2⟩

/-- A primitive that opens with `if !d.bdRead { d.readNextBd() }` and
`if d.st { d.skipTags() }`, run on fresh drivers over the same input: the outcome does
not depend on the bytes already read nor on the stale content of `bd`. -/
theorem prelude_fresh {α : Type} (K : DecM α) (hK : PastIrrelevant K) (h : CborHandle)
    (p p1 s : List Nat) (br : Bool) (bd0 bd1 : Nat) (st : Bool) :
    SameOutcome
      ((cborDecDriver.ensureBd >>= fun _ => cborDecDriver.skipTagsIfSt >>= fun _ => K)
        ⟨h, ⟨p, s⟩, br, false, bd0, st⟩)
      ((cborDecDriver.ensureBd >>= fun _ => cborDecDriver.skipTagsIfSt >>= fun _ => K)
        ⟨h, ⟨p1, s⟩, br, false, bd1, st⟩) := by
  cases s with
  | nil =>
    rw [bind_error (ensureBd_nil h p br bd0 st), bind_error (ensureBd_nil h p1 br bd1 st)]
    exact ⟨rfl, rfl⟩
  | cons b t =>
    rw [bind_ok (ensureBd_cons h p t b br bd0 st), bind_ok (ensureBd_cons h p1 t b br bd1 st)]
    exact SameModuloPast_sameOutcome (PastIrrelevant_bind PastIrrelevant_skipTagsIfSt (fun _ => hK) _ _ (by rfl))

/-- One well-formed tag frame in front of the input is transparent to a primitive that
opens with the two statements above, when tag skipping is on. -/
theorem prelude_skip_frame {α : Type} (K : DecM α) (hK : PastIrrelevant K) (h : CborHandle)
    (p p1 u : List Nat) (br : Bool) (bd0 bd1 : Nat) (bd : Nat) (tail : List Nat)
    (hf : wfFrame cborMajorTag (bd :: tail)) :
    SameOutcome
      ((cborDecDriver.ensureBd >>= fun _ => cborDecDriver.skipTagsIfSt >>= fun _ => K)
        ⟨h, ⟨p, bd :: tail ++ u⟩, br, false, bd0, true⟩)
      ((cborDecDriver.ensureBd >>= fun _ => cborDecDriver.skipTagsIfSt >>= fun _ => K)
        ⟨h, ⟨p1, u⟩, br, false, bd1, true⟩) := by
  obtain ⟨hm, hlow, hlen⟩ := (wfFrame_cons _ bd tail).1 hf
  rw [cborMajorTag] at hm
  rw [List.cons_append, bind_ok (ensureBd_cons h p _ bd br bd0 true)]
  cases u with
  | nil =>
    rw [bind_error (ensureBd_nil h p1 br bd1 true)]
    have hs : cborDecDriver.skipTagsIfSt ⟨h, ⟨bd :: p, tail ++ []⟩, br, true, bd, true⟩
        = (Except.error DecErr.eof, ⟨h, ⟨tail.reverse ++ bd :: p, []⟩, br, true, bd, true⟩) := by
      unfold cborDecDriver.skipTagsIfSt cborDecDriver.skipTags
      simp only [getD_bind, if_true]
      unfold cborDecDriver.skipTagsLoop
      simp only [getD_bind, shr_5, cborMajorTag]
      rw [if_pos hm, bind_ok (decUint_wfFrame h _ [] br true true bd tail hlow hlen)]
      rfl
    rw [bind_error hs]
    exact ⟨rfl, rfl⟩
  | cons b t =>
    rw [bind_ok (ensureBd_cons h p1 t b br bd1 true)]
    have hs : cborDecDriver.skipTagsIfSt ⟨h, ⟨bd :: p, tail ++ b :: t⟩, br, true, bd, true⟩
        = cborDecDriver.skipTagsIfSt ⟨h, ⟨b :: (tail.reverse ++ bd :: p), t⟩, br, true, b, true⟩ := by
      unfold cborDecDriver.skipTagsIfSt cborDecDriver.skipTags
      simp only [getD_bind, if_true]
      conv_lhs => unfold cborDecDriver.skipTagsLoop
      simp only [getD_bind, shr_5, cborMajorTag]
      rw [if_pos hm, bind_ok (decUint_wfFrame h _ (b :: t) br true true bd tail hlow hlen)]
      simp only [readn1_cons_bind, modifyD_bind]
      exact skipTagsLoop_fuel _ _ _
        (by simp only [List.length_append, List.length_cons]; omega)
        (by simp only; omega)
    rw [bind_congr_apply hs]
    exact SameModuloPast_sameOutcome (PastIrrelevant_bind PastIrrelevant_skipTagsIfSt (fun _ => hK) _ _ (by rfl))

/-- Any number of well-formed tag frames in front of the input are transparent to a
primitive that opens with the two statements above, when tag skipping is on. -/
theorem prelude_skip_frames {α : Type} (K : DecM α) (hK : PastIrrelevant K) (h : CborHandle)
    (s : List Nat) (br : Bool) :
    ∀ (tags : List (List Nat)), (∀ fr ∈ tags, wfFrame cborMajorTag fr) →
      ∀ (p p1 : List Nat) (bd0 bd1 : Nat),
        SameOutcome
          ((cborDecDriver.ensureBd >>= fun _ => cborDecDriver.skipTagsIfSt >>= fun _ => K)
            ⟨h, ⟨p, tags.flatten ++ s⟩, br, false, bd0, true⟩)
          ((cborDecDriver.ensureBd >>= fun _ => cborDecDriver.skipTagsIfSt >>= fun _ => K)
            ⟨h, ⟨p1, s⟩, br, false, bd1, true⟩) := by
  intro tags
  induction tags with
  | nil =>
    intro _ p p1 bd0 bd1
    exact prelude_fresh K hK h p p1 s br bd0 bd1 true
  | cons fr tags ih =>
    intro hw p p1 bd0 bd1
    obtain ⟨bd, tail, rfl, -⟩ := wfFrame_exists _ fr (hw _ (List.mem_cons_self _ _))
    rw [List.flatten_cons, List.append_assoc]
    exact SameOutcome_trans (prelude_skip_frame K hK h p p (tags.flatten ++ s) br bd0 bd0 bd
      tail (hw _ (List.mem_cons_self _ _)))
      (ih (fun x hx => hw x (List.mem_cons_of_mem _ hx)) p p1 bd0 bd1)

theorem DecodeBool_prelude :
    ∃ K : DecM Bool, cborDecDriver.DecodeBool
        = (cborDecDriver.ensureBd >>= fun _ => cborDecDriver.skipTagsIfSt >>= fun _ => K) ∧
      PastIrrelevant K := by
  refine ⟨(do
      let d ← getD
      if d.bd = cborBdTrue then do
        modifyD fun d => { d with bdRead := false }
        pure true
      else if d.bd = cborBdFalse then do
        modifyD fun d => { d with bdRead := false }
        pure false
      else errorf (DecErr.notBool d.bd)), ?h1, ?h2⟩
  case h1 =>
    unfold cborDecDriver.DecodeBool
    rfl
  case h2 =>
    apply PastIrrelevant_getD_bind
    intro h p p1 rest br x bd st
    simp only
    split_ifs
    · exact PastIrrelevant_bind PastIrrelevant_clear (fun _ => PastIrrelevant_pure _) _ _ rfl
    · exact PastIrrelevant_bind PastIrrelevant_clear (fun _ => PastIrrelevant_pure _) _ _ rfl
    · exact PastIrrelevant_errorf _ _ _ rfl

theorem decCheckInteger_prelude :
    ∃ G : DecM Bool, cborDecDriver.decCheckInteger
        = (cborDecDriver.ensureBd >>= fun _ => cborDecDriver.skipTagsIfSt >>= fun _ => G) ∧
      PastIrrelevant G := by
  refine ⟨(do
      let d ← getD
      let major := d.bd >>> 5
      if major = cborMajorUint then pure false
      else if major = cborMajorNegInt then pure true
      else errorf (DecErr.invalidInteger major d.bd)), ?h1, ?h2⟩
  case h1 =>
    unfold cborDecDriver.decCheckInteger
    rfl
  case h2 =>
    apply PastIrrelevant_getD_bind
    intro h p p1 rest br x bd st
    simp only
    split_ifs
    · exact PastIrrelevant_pure _ _ _ rfl
    · exact PastIrrelevant_pure _ _ _ rfl
    · exact PastIrrelevant_errorf _ _ _ rfl

theorem DecodeInt64_prelude :
    ∃ K : DecM Int, cborDecDriver.DecodeInt64
        = (cborDecDriver.ensureBd >>= fun _ => cborDecDriver.skipTagsIfSt >>= fun _ => K) ∧
      PastIrrelevant K := by
  obtain ⟨G, hG, hGI⟩ := decCheckInteger_prelude
  refine ⟨G >>= fun neg => (do
      let ui ← cborDecDriver.decUint
      modifyD fun d => { d with bdRead := false }
      liftExcept (cborDecInt64 ui neg)), ?_, ?_⟩
  · unfold cborDecDriver.DecodeInt64
    rw [hG, DecM_bind_assoc]
    congr 1
    funext _
    rw [DecM_bind_assoc]
  · exact PastIrrelevant_bind hGI (fun _ =>
      PastIrrelevant_bind PastIrrelevant_decUint (fun _ =>
        PastIrrelevant_bind PastIrrelevant_clear (fun _ => PastIrrelevant_liftExcept _)))

theorem DecodeUint64_prelude :
    ∃ K : DecM Nat, cborDecDriver.DecodeUint64
        = (cborDecDriver.ensureBd >>= fun _ => cborDecDriver.skipTagsIfSt >>= fun _ => K) ∧
      PastIrrelevant K := by
  obtain ⟨G, hG, hGI⟩ := decCheckInteger_prelude
  refine ⟨G >>= fun neg => (if neg then errorf DecErr.negativeToUnsigned else do
      let ui ← cborDecDriver.decUint
      modifyD fun d => { d with bdRead := false }
      pure ui), ?_, ?_⟩
  · unfold cborDecDriver.DecodeUint64
    rw [hG, DecM_bind_assoc]
    congr 1
    funext _
    rw [DecM_bind_assoc]
  · refine PastIrrelevant_bind hGI (fun neg => ?_)
    split_ifs
    · exact PastIrrelevant_errorf _
    · exact PastIrrelevant_bind PastIrrelevant_decUint (fun _ =>
        PastIrrelevant_bind PastIrrelevant_clear (fun _ => PastIrrelevant_pure _))

/-- C15. Transparent tag skipping in typed decodes: with skip mode enabled, for every
`k ≥ 0`, every sequence of `k` well-formed tag frames (any tag numbers, each a tag
descriptor with its 0, 1, 2, 4 or 8 trailing bytes) and every following byte sequence
`s`, each of `DecodeInt64`, `DecodeUint64` and `DecodeBool`, run on a fresh decoder over
the tag frames followed by `s`, gives the same outcome (returned value or error) and
leaves the same unread suffix as the same primitive run on a fresh decoder over `s`
alone. -/
theorem tag_skipping_transparent (hd : CborHandle) (hst : hd.SkipUnexpectedTags = true)
    (br : Bool) (tags : List (List Nat)) (htags : ∀ fr ∈ tags, wfFrame cborMajorTag fr)
    (s : List Nat) :
    ((cborDecDriver.DecodeInt64 (hd.newDecDriver br (tags.flatten ++ s))).1
        = (cborDecDriver.DecodeInt64 (hd.newDecDriver br s)).1 ∧
      (cborDecDriver.DecodeInt64 (hd.newDecDriver br (tags.flatten ++ s))).2.r.rest
        = (cborDecDriver.DecodeInt64 (hd.newDecDriver br s)).2.r.rest) ∧
    ((cborDecDriver.DecodeUint64 (hd.newDecDriver br (tags.flatten ++ s))).1
        = (cborDecDriver.DecodeUint64 (hd.newDecDriver br s)).1 ∧
      (cborDecDriver.DecodeUint64 (hd.newDecDriver br (tags.flatten ++ s))).2.r.rest
        = (cborDecDriver.DecodeUint64 (hd.newDecDriver br s)).2.r.rest) ∧
    ((cborDecDriver.DecodeBool (hd.newDecDriver br (tags.flatten ++ s))).1
        = (cborDecDriver.DecodeBool (hd.newDecDriver br s)).1 ∧
      (cborDecDriver.DecodeBool (hd.newDecDriver br (tags.flatten ++ s))).2.r.rest
        = (cborDecDriver.DecodeBool (hd.newDecDriver br s)).2.r.rest) := by
  obtain ⟨KI, hI, hKI⟩ := DecodeInt64_prelude
  obtain ⟨KU, hU, hKU⟩ := DecodeUint64_prelude
  obtain ⟨KB, hB, hKB⟩ := DecodeBool_prelude
  simp only [CborHandle.newDecDriver, hst]
  rw [hI, hU, hB]
  exact ⟨prelude_skip_frames KI hKI hd s br tags htags [] [] 0 0,
    prelude_skip_frames KU hKU hd s br tags htags [] [] 0 0,
    prelude_skip_frames KB hKB hd s br tags htags [] [] 0 0⟩

/-- Witness of C15: the tags 2 (inline), 55799 (2-byte form) and 32 (1-byte form) in
front of the integer 5 and one more byte. -/
theorem tag_skipping_transparent_witness :
    (∀ fr ∈ [[0xc2], [0xd9, 0xd9, 0xf7], [0xd8, 0x20]], wfFrame cborMajorTag fr) ∧
    (cborDecDriver.DecodeInt64 ((⟨false, false, true⟩ : CborHandle).newDecDriver true
        ([[0xc2], [0xd9, 0xd9, 0xf7], [0xd8, 0x20]].flatten ++ [0x05, 0x07]))).1
      = (cborDecDriver.DecodeInt64 ((⟨false, false, true⟩ : CborHandle).newDecDriver true
        [0x05, 0x07])).1 :=
  ⟨by decide,
    (tag_skipping_transparent ⟨false, false, true⟩ rfl true
      [[0xc2], [0xd9, 0xd9, 0xf7], [0xd8, 0x20]] (by decide) [0x05, 0x07]).1.1⟩

/-! ## Past-irrelevance of the string, float and time decodes -/

theorem PastIrrelevant_CheckBreak : PastIrrelevant cborDecDriver.CheckBreak := by
  unfold cborDecDriver.CheckBreak
  refine PastIrrelevant_bind PastIrrelevant_ensureBd (fun _ => ?_)
  apply PastIrrelevant_getD_bind
  intro h p p1 rest br x bd st
  simp only
  split_ifs
  · exact PastIrrelevant_bind PastIrrelevant_clear (fun _ => PastIrrelevant_pure _) _ _ rfl
  · exact PastIrrelevant_pure _ _ _ rfl

theorem PastIrrelevant_decAppendIndefiniteBytesLoop :
    ∀ (fuel : Nat) (bs : List Nat),
      PastIrrelevant (cborDecDriver.decAppendIndefiniteBytesLoop fuel bs) := by
  intro fuel
  induction fuel with
  | zero =>
    intro bs
    unfold cborDecDriver.decAppendIndefiniteBytesLoop
    exact PastIrrelevant_errorf _
  | succ fuel ih =>
    intro bs
    unfold cborDecDriver.decAppendIndefiniteBytesLoop
    refine PastIrrelevant_bind PastIrrelevant_CheckBreak (fun brk => ?_)
    split_ifs
    · exact PastIrrelevant_pure _
    · apply PastIrrelevant_getD_bind
      intro h p p1 rest br x bd st
      simp only
      split_ifs
      · exact PastIrrelevant_errorf _ _ _ rfl
      · refine PastIrrelevant_bind PastIrrelevant_decLen (fun n => ?_) _ _ rfl
        split_ifs
        · exact PastIrrelevant_errorf _
        · exact PastIrrelevant_bind (PastIrrelevant_readx _) (fun _ =>
            PastIrrelevant_bind PastIrrelevant_clear (fun _ => ih _))

theorem PastIrrelevant_decAppendIndefiniteBytes (bs : List Nat) :
    PastIrrelevant (cborDecDriver.decAppendIndefiniteBytes bs) := by
  unfold cborDecDriver.decAppendIndefiniteBytes
  refine PastIrrelevant_bind PastIrrelevant_clear (fun _ => ?_)
  apply PastIrrelevant_getD_bind
  intro h p p1 rest br x bd st
  exact PastIrrelevant_bind (PastIrrelevant_decAppendIndefiniteBytesLoop _ _) (fun _ =>
    PastIrrelevant_bind PastIrrelevant_clear (fun _ => PastIrrelevant_pure _)) _ _ rfl

theorem PastIrrelevant_decodeBytesArrayBreakLoop :
    ∀ (fuel : Nat) (bs : List Nat),
      PastIrrelevant (cborDecDriver.decodeBytesArrayBreakLoop fuel bs) := by
  intro fuel
  induction fuel with
  | zero =>
    intro bs
    unfold cborDecDriver.decodeBytesArrayBreakLoop
    exact PastIrrelevant_errorf _
  | succ fuel ih =>
    intro bs
    unfold cborDecDriver.decodeBytesArrayBreakLoop
    refine PastIrrelevant_bind PastIrrelevant_CheckBreak (fun brk => ?_)
    split_ifs
    · exact PastIrrelevant_pure _
    · exact PastIrrelevant_bind PastIrrelevant_DecodeUint64 (fun _ =>
        PastIrrelevant_bind (PastIrrelevant_liftExcept _) (fun _ => ih _))

theorem PastIrrelevant_decodeBytesArrayLoop :
    ∀ (n : Nat) (bs : List Nat),
      PastIrrelevant (cborDecDriver.decodeBytesArrayLoop n bs) := by
  intro n
  induction n with
  | zero =>
    intro bs
    unfold cborDecDriver.decodeBytesArrayLoop
    exact PastIrrelevant_pure _
  | succ n ih =>
    intro bs
    unfold cborDecDriver.decodeBytesArrayLoop
    exact PastIrrelevant_bind PastIrrelevant_DecodeUint64 (fun _ =>
      PastIrrelevant_bind (PastIrrelevant_liftExcept _) (fun _ => ih _))

theorem PastIrrelevant_decByteSlice (clen : Int) : PastIrrelevant (decByteSlice clen) := by
  unfold Cbor.decByteSlice
  split_ifs
  · exact PastIrrelevant_errorf _
  · exact PastIrrelevant_readx _

theorem PastIrrelevant_usableByteSlice (slen : Int) :
    PastIrrelevant (usableByteSlice slen) := by
  unfold Cbor.usableByteSlice
  split_ifs
  · exact PastIrrelevant_errorf _
  · exact PastIrrelevant_pure _

theorem PastIrrelevant_DecodeBytes (bs : Option (List Nat)) (zerocopy : Bool) :
    PastIrrelevant (cborDecDriver.DecodeBytes bs zerocopy) := by
  unfold cborDecDriver.DecodeBytes
  refine PastIrrelevant_bind PastIrrelevant_ensureBd (fun _ =>
    PastIrrelevant_bind PastIrrelevant_skipTagsIfSt (fun _ => ?_))
  apply PastIrrelevant_getD_bind
  intro h p p1 rest br x bd st
  simp only
  split_ifs
  · exact PastIrrelevant_bind PastIrrelevant_clear (fun _ => PastIrrelevant_pure _) _ _ rfl
  · exact PastIrrelevant_bind PastIrrelevant_clear (fun _ =>
      PastIrrelevant_bind (PastIrrelevant_decAppendIndefiniteBytes _)
        (fun _ => PastIrrelevant_pure _)) _ _ rfl
  · exact PastIrrelevant_bind PastIrrelevant_clear (fun _ =>
      PastIrrelevant_bind (PastIrrelevant_decAppendIndefiniteBytes _)
        (fun _ => PastIrrelevant_pure _)) _ _ rfl
  · exact PastIrrelevant_bind PastIrrelevant_clear (fun _ =>
      PastIrrelevant_bind (PastIrrelevant_decAppendIndefiniteBytes _)
        (fun _ => PastIrrelevant_pure _)) _ _ rfl
  · refine PastIrrelevant_bind PastIrrelevant_clear (fun _ => ?_) _ _ rfl
    apply PastIrrelevant_getD_bind
    intro h p p1 rest br x bd st
    exact PastIrrelevant_bind (PastIrrelevant_decodeBytesArrayBreakLoop _ _)
      (fun _ => PastIrrelevant_pure _) _ _ rfl
  · exact PastIrrelevant_bind PastIrrelevant_clear (fun _ =>
      PastIrrelevant_bind PastIrrelevant_decLen (fun _ =>
        PastIrrelevant_bind (PastIrrelevant_usableByteSlice _) (fun _ =>
          PastIrrelevant_bind (PastIrrelevant_decodeBytesArrayLoop _ _)
            (fun _ => PastIrrelevant_pure _)))) _ _ rfl
  · exact PastIrrelevant_bind PastIrrelevant_decLen (fun _ =>
      PastIrrelevant_bind PastIrrelevant_clear (fun _ =>
        PastIrrelevant_bind (PastIrrelevant_readx _) (fun _ => PastIrrelevant_pure _))) _ _ rfl
  · exact PastIrrelevant_bind PastIrrelevant_decLen (fun _ =>
      PastIrrelevant_bind PastIrrelevant_clear (fun _ =>
        PastIrrelevant_bind (PastIrrelevant_decByteSlice _)
          (fun _ => PastIrrelevant_pure _))) _ _ rfl

theorem PastIrrelevant_DecodeString : PastIrrelevant cborDecDriver.DecodeString :=
  PastIrrelevant_bind (PastIrrelevant_DecodeBytes _ _) (fun _ => PastIrrelevant_pure _)

theorem PastIrrelevant_decodeFloat64Switch (rt : GoRuntime) :
    PastIrrelevant (cborDecDriver.decodeFloat64Switch rt) := by
  unfold cborDecDriver.decodeFloat64Switch
  apply PastIrrelevant_getD_bind
  intro h p p1 rest br x bd st
  simp only
  split_ifs
  · exact PastIrrelevant_bind (PastIrrelevant_readx _) (fun _ => PastIrrelevant_pure _) _ _ rfl
  · exact PastIrrelevant_bind (PastIrrelevant_readx _) (fun _ => PastIrrelevant_pure _) _ _ rfl
  · exact PastIrrelevant_bind (PastIrrelevant_readx _) (fun _ => PastIrrelevant_pure _) _ _ rfl
  · exact PastIrrelevant_bind PastIrrelevant_decUint (fun _ =>
      PastIrrelevant_bind (PastIrrelevant_liftExcept _) (fun _ => PastIrrelevant_pure _)) _ _ rfl
  · exact PastIrrelevant_bind PastIrrelevant_decUint (fun _ =>
      PastIrrelevant_bind (PastIrrelevant_liftExcept _) (fun _ => PastIrrelevant_pure _)) _ _ rfl
  · exact PastIrrelevant_errorf _ _ _ rfl

theorem PastIrrelevant_DecodeFloat64 (rt : GoRuntime) :
    PastIrrelevant (cborDecDriver.DecodeFloat64 rt) := by
  unfold cborDecDriver.DecodeFloat64
  exact PastIrrelevant_bind PastIrrelevant_ensureBd (fun _ =>
    PastIrrelevant_bind PastIrrelevant_skipTagsIfSt (fun _ =>
      PastIrrelevant_bind (PastIrrelevant_decodeFloat64Switch rt) (fun _ =>
        PastIrrelevant_bind PastIrrelevant_clear (fun _ => PastIrrelevant_pure _))))

theorem PastIrrelevant_decodeTime (rt : GoRuntime) (xtag : Nat) :
    PastIrrelevant (cborDecDriver.decodeTime rt xtag) := by
  unfold cborDecDriver.decodeTime
  split_ifs
  · refine @PastIrrelevant_bind _ _ cborDecDriver.DecodeStringAsBytes _
      (PastIrrelevant_DecodeBytes _ _) (fun bs => ?_)
    split
    · exact PastIrrelevant_bind (PastIrrelevant_pure _) (fun _ => PastIrrelevant_pure _)
    · exact PastIrrelevant_bind (PastIrrelevant_errorf _) (fun _ => PastIrrelevant_pure _)
  · exact @PastIrrelevant_bind _ _ (cborDecDriver.DecodeFloat64 rt) _
      (PastIrrelevant_DecodeFloat64 rt)
      (fun _ => PastIrrelevant_bind (PastIrrelevant_pure _) (fun _ => PastIrrelevant_pure _))
  · exact PastIrrelevant_bind (PastIrrelevant_errorf _) (fun _ => PastIrrelevant_pure _)

/-! ## Naked decode: independence from the scratch value, the fuel and the bytes read -/

theorem SameNaked_bind {α : Type} {m : DecM α} (hm : PastIrrelevant m)
    {f g : α → DecM decNaked} {d d1 : cborDecDriver} (he : erasePast d = erasePast d1)
    (hfg : ∀ a e e1, m d = (Except.ok a, e) → m d1 = (Except.ok a, e1) →
      erasePast e = erasePast e1 → SameNaked (f a e) (g a e1)) :
    SameNaked ((m >>= f) d) ((m >>= g) d1) := by
  obtain ⟨h1, h2⟩ := hm d d1 he
  rcases hx : m d with ⟨res, dx⟩
  rcases hy : m d1 with ⟨res1, dy⟩
  rw [hx, hy] at h1 h2
  simp only at h1 h2
  subst h1
  cases res with
  | error err =>
    rw [bind_error hx, bind_error hy]
    exact ⟨rfl, h2⟩
  | ok a =>
    rw [bind_ok hx, bind_ok hy]
    exact hfg a dx dy hx hy h2

theorem SameNaked_nakedDone {n n1 : decNaked} (hv : n.value = n1.value) (b : Bool)
    {d d1 : cborDecDriver} (he : erasePast d = erasePast d1) :
    SameNaked (cborDecDriver.nakedDone n b d) (cborDecDriver.nakedDone n1 b d1) := by
  obtain ⟨h, p, p1, rest, br, x, bd, st, rfl, rfl⟩ := erasePast_eq_cases he
  cases b
  · refine ⟨?_, rfl⟩
    show Except.map decNaked.value (Except.ok n) = Except.map decNaked.value (Except.ok n1)
    simp only [Except.map, hv]
  · refine ⟨?_, rfl⟩
    show Except.map decNaked.value (Except.ok n) = Except.map decNaked.value (Except.ok n1)
    simp only [Except.map, hv]

theorem SameNaked_bind_nakedDone {m m1 : DecM decNaked} {d d1 : cborDecDriver}
    (h : SameNaked (m d) (m1 d1)) (b : Bool) :
    SameNaked ((m >>= fun n => cborDecDriver.nakedDone n b) d)
      ((m1 >>= fun n => cborDecDriver.nakedDone n b) d1) := by
  rcases hx : m d with ⟨res, dx⟩
  rcases hy : m1 d1 with ⟨res1, dy⟩
  rw [hx, hy] at h
  obtain ⟨h1, h2⟩ := h
  simp only at h1 h2
  cases res with
  | error err =>
    cases res1 with
    | error err1 =>
      simp only [Except.map, Except.error.injEq] at h1
      subst h1
      rw [bind_error hx, bind_error hy]
      exact ⟨rfl, h2⟩
    | ok a1 => simp [Except.map] at h1
  | ok a =>
    cases res1 with
    | error err1 => simp [Except.map] at h1
    | ok a1 =>
      simp only [Except.map, Except.ok.injEq] at h1
      rw [bind_ok hx, bind_ok hy]
      exact SameNaked_nakedDone h1 b h2

theorem SameNaked_decNakedReadRawBytes (n n1 : decNaked) (raw : Bool)
    {d d1 : cborDecDriver} (he : erasePast d = erasePast d1) :
    SameNaked (decNakedReadRawBytes n raw d) (decNakedReadRawBytes n1 raw d1) := by
  unfold Cbor.decNakedReadRawBytes
  split_ifs
  · exact SameNaked_bind (PastIrrelevant_DecodeBytes _ _) he
      (fun a e e1 _ _ he1 => ⟨rfl, he1⟩)
  · exact SameNaked_bind (PastIrrelevant_DecodeBytes _ _) he
      (fun a e e1 _ _ he1 => ⟨rfl, he1⟩)

theorem SameNaked_ite {c : Prop} [Decidable c] {A B A1 B1 : DecM decNaked}
    {d d1 : cborDecDriver} (hA : c → SameNaked (A d) (A1 d1))
    (hB : ¬c → SameNaked (B d) (B1 d1)) :
    SameNaked ((if c then A else B) d) ((if c then A1 else B1) d1) := by
  by_cases hc : c
  · rw [if_pos hc, if_pos hc]
    exact hA hc
  · rw [if_neg hc, if_neg hc]
    exact hB hc

theorem DecodeNakedFuel_fresh_cons (rt : GoRuntime) (bh : BasicHandle) (fuel : Nat)
    (n : decNaked) (h : CborHandle) (p t : List Nat) (b : Nat) (br : Bool) (bd : Nat)
    (st : Bool) :
    cborDecDriver.DecodeNakedFuel rt bh (fuel + 1) n ⟨h, ⟨p, b :: t⟩, br, false, bd, st⟩
      = cborDecDriver.DecodeNakedFuel rt bh (fuel + 1) n ⟨h, ⟨b :: p, t⟩, br, true, b, st⟩ := by
  unfold cborDecDriver.DecodeNakedFuel
  rw [bind_ok (ensureBd_cons h p t b br bd st), bind_ok (ensureBd_cached h _ br b st)]

set_option maxHeartbeats 4000000 in
theorem DecodeNakedFuel_same (rt : GoRuntime) (bh : BasicHandle) :
    ∀ (fuel fuel1 : Nat) (n n1 : decNaked) (d d1 : cborDecDriver),
      erasePast d = erasePast d1 →
      d.r.rest.length + (if d.bdRead then 1 else 0) < fuel →
      d.r.rest.length + (if d.bdRead then 1 else 0) < fuel1 →
      SameNaked (cborDecDriver.DecodeNakedFuel rt bh fuel n d)
        (cborDecDriver.DecodeNakedFuel rt bh fuel1 n1 d1) := by
  intro fuel
  induction fuel with
  | zero =>
    intro fuel1 n n1 d d1 _ hf _
    omega
  | succ fuel ih =>
    intro fuel1 n n1 d d1 he hf hf1
    cases fuel1 with
    | zero => omega
    | succ fuel1 =>
      obtain ⟨h, p, p1, rest, br, x, bd, st, rfl, rfl⟩ := erasePast_eq_cases he
      simp only at hf hf1
      have key : ∀ (q q1 r : List Nat) (c : Nat), r.length < fuel → r.length < fuel1 →
          SameNaked
            (cborDecDriver.DecodeNakedFuel rt bh (fuel + 1) n ⟨h, ⟨q, r⟩, br, true, c, st⟩)
            (cborDecDriver.DecodeNakedFuel rt bh (fuel1 + 1) n1
              ⟨h, ⟨q1, r⟩, br, true, c, st⟩) := by
        intro q q1 r c hr hr1
        unfold cborDecDriver.DecodeNakedFuel
        rw [bind_ok (ensureBd_cached h _ br c st), bind_ok (ensureBd_cached h _ br c st),
          getD_bind, getD_bind]
        dsimp only
        have tagCase : SameNaked
            ((cborDecDriver.decUint >>= fun u =>
              if u = 0 ∨ u = 1 then do
                modifyD fun d => { d with bdRead := false }
                let t ← cborDecDriver.decodeTime rt u
                cborDecDriver.nakedDone
                  { v := valueType.valueTypeTime, i := n.i, u := u, f := n.f, b := n.b,
                    s := n.s, l := none, t := t } false
              else if st = true ∧ bh.getExtForTagIsNil u = true then do
                modifyD fun d => { d with bdRead := false }
                cborDecDriver.DecodeNakedFuel rt bh fuel
                  { v := valueType.valueTypeExt, i := n.i, u := u, f := n.f, b := n.b,
                    s := n.s, l := none, t := n.t }
              else cborDecDriver.nakedDone
                { v := valueType.valueTypeExt, i := n.i, u := u, f := n.f, b := n.b,
                  s := n.s, l := none, t := n.t } false)
              ⟨h, ⟨q, r⟩, br, true, c, st⟩)
            ((cborDecDriver.decUint >>= fun u =>
              if u = 0 ∨ u = 1 then do
                modifyD fun d => { d with bdRead := false }
                let t ← cborDecDriver.decodeTime rt u
                cborDecDriver.nakedDone
                  { v := valueType.valueTypeTime, i := n1.i, u := u, f := n1.f, b := n1.b,
                    s := n1.s, l := none, t := t } false
              else if st = true ∧ bh.getExtForTagIsNil u = true then do
                modifyD fun d => { d with bdRead := false }
                cborDecDriver.DecodeNakedFuel rt bh fuel1
                  { v := valueType.valueTypeExt, i := n1.i, u := u, f := n1.f, b := n1.b,
                    s := n1.s, l := none, t := n1.t }
              else cborDecDriver.nakedDone
                { v := valueType.valueTypeExt, i := n1.i, u := u, f := n1.f, b := n1.b,
                  s := n1.s, l := none, t := n1.t } false)
              ⟨h, ⟨q1, r⟩, br, true, c, st⟩) := by
          refine SameNaked_bind PastIrrelevant_decUint rfl (fun u e e1 hx hy he1 => ?_)
          have hle := decUint_rest hx
          obtain ⟨h2, p2, p3, r2, br2, x2, bd2, st2, rfl, rfl⟩ := erasePast_eq_cases he1
          simp only at hle
          by_cases hu : u = 0 ∨ u = 1
          · rw [if_pos hu, if_pos hu]
            exact SameNaked_bind PastIrrelevant_clear rfl (fun _ e2 e3 _ _ he2 =>
              SameNaked_bind (PastIrrelevant_decodeTime rt u) he2 (fun t _ _ _ _ he3 =>
                SameNaked_nakedDone rfl false he3))
          · rw [if_neg hu, if_neg hu]
            by_cases hs : st = true ∧ bh.getExtForTagIsNil u = true
            · rw [if_pos hs, if_pos hs]
              exact ih fuel1 _ _ ⟨h2, ⟨p2, r2⟩, br2, false, bd2, st2⟩
                ⟨h2, ⟨p3, r2⟩, br2, false, bd2, st2⟩ rfl
                (by simp only [Bool.false_eq_true, if_false]; omega)
                (by simp only [Bool.false_eq_true, if_false]; omega)
            · rw [if_neg hs, if_neg hs]
              exact SameNaked_nakedDone rfl false rfl
        refine SameNaked_ite (fun _ => ?_) (fun _ => ?_)
        · refine SameNaked_ite (fun _ => ?_) (fun _ => ?_)
          · exact SameNaked_bind PastIrrelevant_DecodeInt64 rfl
              (fun a e e1 _ _ he1 => SameNaked_nakedDone rfl false he1)
          · exact SameNaked_bind PastIrrelevant_DecodeUint64 rfl
              (fun a e e1 _ _ he1 => SameNaked_nakedDone rfl false he1)
        refine SameNaked_ite (fun _ => ?_) (fun _ => ?_)
        · exact SameNaked_bind PastIrrelevant_DecodeInt64 rfl
            (fun a e e1 _ _ he1 => SameNaked_nakedDone rfl false he1)
        refine SameNaked_ite (fun _ => ?_) (fun _ => ?_)
        · exact SameNaked_bind_nakedDone (SameNaked_decNakedReadRawBytes n n1 _ (by rfl)) false
        refine SameNaked_ite (fun _ => ?_) (fun _ => ?_)
        · exact SameNaked_bind PastIrrelevant_DecodeString rfl
            (fun a e e1 _ _ he1 => SameNaked_nakedDone rfl false he1)
        refine SameNaked_ite (fun _ => ?_) (fun _ => ?_)
        · exact SameNaked_nakedDone rfl true rfl
        refine SameNaked_ite (fun _ => ?_) (fun _ => ?_)
        · exact SameNaked_nakedDone rfl true rfl
        refine SameNaked_ite (fun _ => ?_) (fun _ => ?_)
        · exact tagCase
        refine SameNaked_ite (fun _ => ?_) (fun _ => ⟨rfl, rfl⟩)
        refine SameNaked_ite (fun _ => ?_) (fun _ => ?_)
        · exact SameNaked_nakedDone rfl false rfl
        refine SameNaked_ite (fun _ => ?_) (fun _ => ?_)
        · exact SameNaked_nakedDone rfl false rfl
        refine SameNaked_ite (fun _ => ?_) (fun _ => ?_)
        · exact SameNaked_nakedDone rfl false rfl
        refine SameNaked_ite (fun _ => ?_) (fun _ => ?_)
        · exact SameNaked_bind (PastIrrelevant_DecodeFloat64 rt) rfl
            (fun a e e1 _ _ he1 => SameNaked_nakedDone rfl false he1)
        refine SameNaked_ite (fun _ => ?_) (fun _ => ?_)
        · exact SameNaked_bind_nakedDone (SameNaked_decNakedReadRawBytes n n1 _ (by rfl)) false
        refine SameNaked_ite (fun _ => ?_) (fun _ => ?_)
        · exact SameNaked_bind PastIrrelevant_DecodeString rfl
            (fun a e e1 _ _ he1 => SameNaked_nakedDone rfl false he1)
        refine SameNaked_ite (fun _ => ?_) (fun _ => ?_)
        · exact SameNaked_nakedDone rfl true rfl
        refine SameNaked_ite (fun _ => ?_) (fun _ => ⟨rfl, rfl⟩)
        exact SameNaked_nakedDone rfl true rfl
      cases x with
      | true =>
        exact key p p1 rest bd (by simp only [if_true] at hf; omega)
          (by simp only [if_true] at hf1; omega)
      | false =>
        cases rest with
        | nil =>
          unfold cborDecDriver.DecodeNakedFuel
          rw [bind_error (ensureBd_nil h p br bd st), bind_error (ensureBd_nil h p1 br bd st)]
          exact ⟨rfl, rfl⟩
        | cons b t =>
          rw [DecodeNakedFuel_fresh_cons, DecodeNakedFuel_fresh_cons]
          exact key (b :: p) (b :: p1) t b
            (by simp only [List.length_cons, Bool.false_eq_true, if_false] at hf; omega)
            (by simp only [List.length_cons, Bool.false_eq_true, if_false] at hf1; omega)

theorem SameNaked_flags {x y : Except DecErr decNaked × cborDecDriver} (h : SameNaked x y) :
    x.2.bdRead = y.2.bdRead ∧ x.2.r.rest = y.2.r.rest := by
  obtain ⟨_, _, _, _, _, _, _, _, e1, e2⟩ := erasePast_eq_cases h.2
  rw [e1, e2]
  exact ⟨rfl, rfl⟩

theorem getExtForTagIsNil_of_none (bh : BasicHandle) (hext : bh.extTags = []) (u : Nat) :
    bh.getExtForTagIsNil u = true := by
  unfold BasicHandle.getExtForTagIsNil
  rw [hext]
  rfl

set_option maxHeartbeats 4000000 in
/-- One step of the naked decode over a skipped tag: with skip mode on and no extension
registered, a well-formed tag frame whose number is neither 0 nor 1 is read, the cache is
cleared, and the decode starts again on what follows. -/
theorem DecodeNakedFuel_skip_frame (rt : GoRuntime) (bh : BasicHandle)
    (hext : bh.extTags = []) (fuel : Nat) (n : decNaked) (h : CborHandle)
    (p u : List Nat) (br : Bool) (bd0 bd : Nat) (tail : List Nat)
    (hf : wfFrame cborMajorTag (bd :: tail))
    (h0 : frameValue (bd :: tail) ≠ 0) (h1 : frameValue (bd :: tail) ≠ 1) :
    cborDecDriver.DecodeNakedFuel rt bh (fuel + 1) n
        ⟨h, ⟨p, bd :: tail ++ u⟩, br, false, bd0, true⟩
      = cborDecDriver.DecodeNakedFuel rt bh fuel
          { n with v := valueType.valueTypeExt, u := frameValue (bd :: tail), l := none }
          ⟨h, ⟨tail.reverse ++ bd :: p, u⟩, br, false, bd, true⟩ := by
  obtain ⟨hm, hlow, hlen⟩ := (wfFrame_cons _ bd tail).1 hf
  have hu : ¬(frameValue (bd :: tail) = 0 ∨ frameValue (bd :: tail) = 1) := by
    rintro (e | e)
    · exact h0 e
    · exact h1 e
  conv_lhs => unfold cborDecDriver.DecodeNakedFuel
  rw [List.cons_append, bind_ok (ensureBd_cons h p _ bd br bd0 true), getD_bind]
  dsimp only
  rw [if_neg (by rw [shr_5, hm]; decide), if_neg (by rw [shr_5, hm]; decide),
    if_neg (by rw [shr_5, hm]; decide), if_neg (by rw [shr_5, hm]; decide),
    if_neg (by rw [shr_5, hm]; decide), if_neg (by rw [shr_5, hm]; decide),
    if_pos (by rw [shr_5, hm]),
    bind_ok (decUint_wfFrame h (bd :: p) u br true true bd tail hlow hlen),
    if_neg hu, if_pos ⟨rfl, getExtForTagIsNil_of_none bh hext _⟩]
  rfl

theorem DecodeNakedFuel_skip_frames (rt : GoRuntime) (bh : BasicHandle)
    (hext : bh.extTags = []) (h : CborHandle) (s : List Nat) (br : Bool) :
    ∀ (tags : List (List Nat)),
      (∀ fr ∈ tags, wfFrame cborMajorTag fr ∧ frameValue fr ≠ 0 ∧ frameValue fr ≠ 1) →
      ∀ (fuel : Nat) (n : decNaked) (p : List Nat) (bd0 : Nat),
        (tags.flatten ++ s).length < fuel →
        ∃ (fuel1 : Nat) (n1 : decNaked) (p1 : List Nat) (bd1 : Nat), s.length < fuel1 ∧
          cborDecDriver.DecodeNakedFuel rt bh fuel n
              ⟨h, ⟨p, tags.flatten ++ s⟩, br, false, bd0, true⟩
            = cborDecDriver.DecodeNakedFuel rt bh fuel1 n1
                ⟨h, ⟨p1, s⟩, br, false, bd1, true⟩ := by
  intro tags
  induction tags with
  | nil =>
    intro _ fuel n p bd0 hlt
    exact ⟨fuel, n, p, bd0, hlt, rfl⟩
  | cons fr tags ih =>
    intro htags fuel n p bd0 hlt
    obtain ⟨hf, h0, h1⟩ := htags fr (List.mem_cons_self _ _)
    obtain ⟨bd, tail, rfl, -⟩ := wfFrame_exists _ fr hf
    rw [List.flatten_cons, List.append_assoc] at hlt ⊢
    cases fuel with
    | zero => omega
    | succ fuel =>
      rw [DecodeNakedFuel_skip_frame rt bh hext fuel n h p _ br bd0 bd tail hf h0 h1]
      refine ih (fun fr1 hfr1 => htags fr1 (List.mem_cons_of_mem _ hfr1)) fuel _ _ _ ?_
      simp only [List.length_append, List.length_cons] at hlt ⊢
      omega

/-- C14. Tag-skip idempotence of the naked decode: with skip mode enabled
(`SkipUnexpectedTags`) and no extension registered, for every number `k` of well-formed
tag frames (of any width) whose tag numbers are neither 0 nor 1, and every input `s` that
follows them (an item and whatever comes after it, or nothing), `DecodeNaked` over the
tag frames followed by `s` gives the same outcome as `DecodeNaked` over `s` alone: the
same error, or the same dynamic value (the same kind, and the same payload of that kind),
with the same cache flag and the same unread suffix. This holds whatever the scratch
value held before either run. -/
theorem DecodeNaked_tag_skip_idempotent (rt : GoRuntime) (bh : BasicHandle)
    (hext : bh.extTags = []) (hd : CborHandle) (hst : hd.SkipUnexpectedTags = true)
    (br : Bool) (tags : List (List Nat))
    (htags : ∀ fr ∈ tags, wfFrame cborMajorTag fr ∧ frameValue fr ≠ 0 ∧ frameValue fr ≠ 1)
    (s : List Nat) (n n1 : decNaked) :
    Except.map decNaked.value
        (cborDecDriver.DecodeNaked rt bh n (hd.newDecDriver br (tags.flatten ++ s))).1
      = Except.map decNaked.value
        (cborDecDriver.DecodeNaked rt bh n1 (hd.newDecDriver br s)).1 ∧
    (cborDecDriver.DecodeNaked rt bh n (hd.newDecDriver br (tags.flatten ++ s))).2.bdRead
      = (cborDecDriver.DecodeNaked rt bh n1 (hd.newDecDriver br s)).2.bdRead ∧
    (cborDecDriver.DecodeNaked rt bh n (hd.newDecDriver br (tags.flatten ++ s))).2.r.rest
      = (cborDecDriver.DecodeNaked rt bh n1 (hd.newDecDriver br s)).2.r.rest := by
  simp only [CborHandle.newDecDriver, hst]
  unfold cborDecDriver.DecodeNaked
  rw [getD_bind, getD_bind]
  dsimp only
  obtain ⟨fuel1, n2, p1, bd1, hlt, heq⟩ :=
    DecodeNakedFuel_skip_frames rt bh hext hd s br tags htags
      ((tags.flatten ++ s).length + 2) n [] 0 (by omega)
  rw [heq]
  cases fuel1 with
  | zero => omega
  | succ fuel1 =>
    cases s with
    | nil =>
      have e : ([] : List Nat).length + 2 = 1 + 1 := rfl
      rw [e]
      unfold cborDecDriver.DecodeNakedFuel
      rw [bind_error (ensureBd_nil hd p1 br bd1 true),
        bind_error (ensureBd_nil hd [] br 0 true)]
      exact ⟨rfl, rfl, rfl⟩
    | cons b t =>
      have e : (b :: t).length + 2 = (t.length + 2) + 1 := by
        simp only [List.length_cons]
      rw [e, DecodeNakedFuel_fresh_cons, DecodeNakedFuel_fresh_cons]
      have hs := DecodeNakedFuel_same rt bh (fuel1 + 1) (t.length + 2 + 1) n2 n1
        ⟨hd, ⟨b :: p1, t⟩, br, true, b, true⟩ ⟨hd, ⟨[b], t⟩, br, true, b, true⟩ rfl
        (by simp only [List.length_cons, if_true] at hlt ⊢; omega)
        (by simp only [if_true]; omega)
      exact ⟨hs.1, (SameNaked_flags hs).1, (SameNaked_flags hs).2⟩

/-- Witness of C14: three tag frames (tag 2 inline, tag 55799 in the 2-byte form, tag 32
in the 1-byte form) in front of the integer 5 and one more byte. -/
theorem DecodeNaked_tag_skip_idempotent_witness :
    (∀ fr ∈ [[0xc2], [0xd9, 0xd9, 0xf7], [0xd8, 0x20]],
      wfFrame cborMajorTag fr ∧ frameValue fr ≠ 0 ∧ frameValue fr ≠ 1) ∧
    Except.map decNaked.value
        (cborDecDriver.DecodeNaked ⟨id, id, Int.toNat, fun _ => none, fun _ => 0, id, 0⟩
          ⟨false, false, []⟩ ⟨valueType.valueTypeUnset, 0, 0, 0, false, [], none, 0⟩
          ((⟨false, false, true⟩ : CborHandle).newDecDriver true
            ([[0xc2], [0xd9, 0xd9, 0xf7], [0xd8, 0x20]].flatten ++ [0x05, 0x07]))).1
      = Except.map decNaked.value
        (cborDecDriver.DecodeNaked ⟨id, id, Int.toNat, fun _ => none, fun _ => 0, id, 0⟩
          ⟨false, false, []⟩ ⟨valueType.valueTypeBool, 7, 9, 0, true, [], none, 0⟩
          ((⟨false, false, true⟩ : CborHandle).newDecDriver true [0x05, 0x07])).1 :=
  ⟨by decide,
    (DecodeNaked_tag_skip_idempotent ⟨id, id, Int.toNat, fun _ => none, fun _ => 0, id, 0⟩
      ⟨false, false, []⟩ rfl ⟨false, false, true⟩ rfl true
      [[0xc2], [0xd9, 0xd9, 0xf7], [0xd8, 0x20]] (by decide) [0x05, 0x07]
      ⟨valueType.valueTypeUnset, 0, 0, 0, false, [], none, 0⟩
      ⟨valueType.valueTypeBool, 7, 9, 0, true, [], none, 0⟩).1⟩

/-- C24. `uncacheRead` restores the stream. On a driver with the descriptor byte `b`
cached (the byte read last, flag set), `uncacheRead` pushes exactly that byte back and
clears the flag, so that the unread stream is again `b` followed by what was unread; this
is the state after `readNextBd`, after `TryDecodeAsNil` returned false and after
`CheckBreak` returned false on a fresh driver. The prelude of the next primitive then
reads `b` again and is back at the cached state. When nothing is cached `uncacheRead`
changes nothing, and calling it twice equals calling it once, from any state. -/
theorem uncacheRead_restores (h : CborHandle) (p t : List Nat) (b : Nat) (br : Bool)
    (bd0 : Nat) (st : Bool) :
    cborDecDriver.uncacheRead ⟨h, ⟨b :: p, t⟩, br, true, b, st⟩
      = (Except.ok (), ⟨h, ⟨p, b :: t⟩, br, false, b, st⟩) ∧
    (cborDecDriver.readNextBd >>= fun _ => cborDecDriver.uncacheRead)
        ⟨h, ⟨p, b :: t⟩, br, false, bd0, st⟩
      = (Except.ok (), ⟨h, ⟨p, b :: t⟩, br, false, b, st⟩) ∧
    (b ≠ 0xf6 → b ≠ 0xf7 →
      cborDecDriver.TryDecodeAsNil ⟨h, ⟨p, b :: t⟩, br, false, bd0, st⟩
        = (Except.ok false, ⟨h, ⟨b :: p, t⟩, br, true, b, st⟩) ∧
      (cborDecDriver.TryDecodeAsNil >>= fun _ => cborDecDriver.uncacheRead)
          ⟨h, ⟨p, b :: t⟩, br, false, bd0, st⟩
        = (Except.ok (), ⟨h, ⟨p, b :: t⟩, br, false, b, st⟩)) ∧
    (b ≠ 0xff →
      cborDecDriver.CheckBreak ⟨h, ⟨p, b :: t⟩, br, false, bd0, st⟩
        = (Except.ok false, ⟨h, ⟨b :: p, t⟩, br, true, b, st⟩) ∧
      (cborDecDriver.CheckBreak >>= fun _ => cborDecDriver.uncacheRead)
          ⟨h, ⟨p, b :: t⟩, br, false, bd0, st⟩
        = (Except.ok (), ⟨h, ⟨p, b :: t⟩, br, false, b, st⟩)) ∧
    cborDecDriver.ensureBd ⟨h, ⟨p, b :: t⟩, br, false, b, st⟩
      = (Except.ok (), ⟨h, ⟨b :: p, t⟩, br, true, b, st⟩) ∧
    (∀ d : cborDecDriver, d.bdRead = false →
      cborDecDriver.uncacheRead d = (Except.ok (), d)) ∧
    (∀ d : cborDecDriver,
      (cborDecDriver.uncacheRead >>= fun _ => cborDecDriver.uncacheRead) d
        = cborDecDriver.uncacheRead d) := by
  have hclear : ∀ d : cborDecDriver, d.bdRead = false →
      cborDecDriver.uncacheRead d = (Except.ok (), d) := by
    intro d hd
    unfold cborDecDriver.uncacheRead
    rw [getD_bind, if_neg (by rw [hd]; decide)]
    rfl
  have hnil : b ≠ 0xf6 → b ≠ 0xf7 →
      cborDecDriver.TryDecodeAsNil ⟨h, ⟨p, b :: t⟩, br, false, bd0, st⟩
        = (Except.ok false, ⟨h, ⟨b :: p, t⟩, br, true, b, st⟩) := by
    intro h6 h7
    unfold cborDecDriver.TryDecodeAsNil
    rw [bind_ok (ensureBd_cons h p t b br bd0 st), getD_bind]
    simp only [cborBdNil, cborBdUndefined]
    rw [if_neg (by rintro (e | e); exact h6 e; exact h7 e)]
    rfl
  refine ⟨rfl, rfl, ?_, ?_, rfl, hclear, ?_⟩
  · intro h6 h7
    exact ⟨hnil h6 h7, by rw [bind_ok (hnil h6 h7)]; rfl⟩
  · intro hb
    exact ⟨CheckBreak_other h p t b br bd0 st hb,
      by rw [bind_ok (CheckBreak_other h p t b br bd0 st hb)]; rfl⟩
  · intro d
    obtain ⟨h1, ⟨p1, r1⟩, br1, x1, bd1, st1⟩ := d
    cases x1 with
    | false =>
      rw [bind_ok (hclear ⟨h1, ⟨p1, r1⟩, br1, false, bd1, st1⟩ rfl)]
    | true =>
      cases p1 with
      | nil =>
        have e : cborDecDriver.uncacheRead ⟨h1, ⟨[], r1⟩, br1, true, bd1, st1⟩
            = (Except.ok (), ⟨h1, ⟨[], r1⟩, br1, false, bd1, st1⟩) := rfl
        rw [bind_ok e, e]
        exact hclear _ rfl
      | cons a q =>
        have e : cborDecDriver.uncacheRead ⟨h1, ⟨a :: q, r1⟩, br1, true, bd1, st1⟩
            = (Except.ok (), ⟨h1, ⟨q, a :: r1⟩, br1, false, bd1, st1⟩) := rfl
        rw [bind_ok e, e]
        exact hclear _ rfl

/-- The last path of `DecodeBytes` has no check of the major type: with tag skipping
off, any descriptor `b` with low bits at most `0x1b` that is not an array, nil or
undefined is read as the head of a length frame, and `DecodeBytes` returns as many of
the bytes after the frame as the frame says (as the nil slice when there is none and the
path is the zero-copy one of a bytes reader). -/
theorem DecodeBytes_any_major (h : CborHandle) (p t : List Nat) (br : Bool) (bd0 : Nat)
    (bs : Option (List Nat)) (zerocopy : Bool) (b : Nat) (tail payload : List Nat)
    (hlow : b % 32 ≤ 0x1b) (htail : tail.length = tailLen (b % 32))
    (hnil : b ≠ 0xf6) (hund : b ≠ 0xf7) (harr : b / 32 ≠ 4)
    (hlen : payload.length = frameValue (b :: tail)) (hlt : payload.length < 2 ^ 63) :
    cborDecDriver.DecodeBytes bs zerocopy
        ⟨h, ⟨p, b :: tail ++ payload ++ t⟩, br, false, bd0, false⟩
      = (Except.ok (decodedSlice zerocopy br payload),
          ⟨h, ⟨payload.reverse ++ (tail.reverse ++ b :: p), t⟩, br, false, b, false⟩) := by
  have hw : wrapInt64 ((payload.length : Nat) : Int) = ((payload.length : Nat) : Int) :=
    wrapInt64_of_range _ (by simp only [MinInt64]; omega) (by simp only [MaxInt64]; omega)
  have hl : cborDecDriver.decLen ⟨h, ⟨b :: p, tail ++ (payload ++ t)⟩, br, true, b, false⟩
      = (Except.ok ((payload.length : Nat) : Int),
          ⟨h, ⟨tail.reverse ++ b :: p, payload ++ t⟩, br, true, b, false⟩) := by
    unfold cborDecDriver.decLen
    rw [bind_ok (decUint_wfFrame h (b :: p) (payload ++ t) br true false b tail hlow htail),
      ← hlen, pure_apply, hw]
  unfold cborDecDriver.DecodeBytes
  rw [List.cons_append, List.cons_append, List.append_assoc,
    bind_ok (ensureBd_cons h p _ b br bd0 false),
    bind_ok (skipTagsIfSt_off _ rfl), getD_bind]
  dsimp only
  rw [if_neg (by simp only [cborBdNil, cborBdUndefined]; omega),
    if_neg (by simp only [cborBdIndefiniteBytes, cborBdIndefiniteString]; omega),
    if_neg (by simp only [cborBdIndefiniteArray]; omega),
    if_neg (by rw [shr_5]; exact harr),
    bind_ok hl, modifyD_bind]
  have htn : ((payload.length : Nat) : Int).toNat = payload.length := Int.toNat_natCast _
  have htu : toUint64 ((payload.length : Nat) : Int) = payload.length := by
    unfold toUint64
    rw [Int.emod_eq_of_lt (by omega) (by omega)]
    exact Int.toNat_natCast _
  split_ifs with hz
  · rw [htu, readxSlice_append, decodedSlice_of_zerocopy zerocopy br payload hz]
  · unfold Cbor.decByteSlice
    rw [if_neg (by omega), htn,
      bind_ok (readx_append h (tail.reverse ++ b :: p) payload t _ rfl br false b false),
      decodedSlice_of_copy zerocopy br payload hz]
    rfl

/-- C23, at its failing inputs. With tag skipping off, `DecodeBytes` over the unsigned
integer `0x05` followed by five bytes returns those five bytes as a payload instead of
failing; over the map header `0xa1` it returns the next byte, over the boolean `0xf5`
the next 21 bytes, and over the float marker `0xfb` it takes the eight bytes of the
float as a length and returns that many of the bytes after them. Any descriptor with
low bits at most `0x1b` that is not an array, nil or undefined behaves like this,
whatever its major type: it is read as the head of a length frame and the bytes after
the frame are returned (as the nil slice when the frame gives the length 0 and the path
is the zero-copy one of a bytes reader). -/
theorem DecodeBytes_accepts_non_string (h : CborHandle) (p t : List Nat) (br : Bool)
    (bd0 : Nat) (bs : Option (List Nat)) (zerocopy : Bool) :
    cborDecDriver.DecodeBytes bs zerocopy
        ⟨h, ⟨p, [0x05, 1, 2, 3, 4, 5] ++ t⟩, br, false, bd0, false⟩
      = (Except.ok (some [1, 2, 3, 4, 5]),
          ⟨h, ⟨[5, 4, 3, 2, 1, 0x05] ++ p, t⟩, br, false, 0x05, false⟩) ∧
    cborDecDriver.DecodeBytes bs zerocopy ⟨h, ⟨p, [0xa1, 0x01] ++ t⟩, br, false, bd0, false⟩
      = (Except.ok (some [0x01]), ⟨h, ⟨[0x01, 0xa1] ++ p, t⟩, br, false, 0xa1, false⟩) ∧
    (cborDecDriver.DecodeBytes bs zerocopy
        ⟨h, ⟨p, 0xf5 :: List.replicate 21 0x61 ++ t⟩, br, false, bd0, false⟩).1
      = Except.ok (some (List.replicate 21 0x61)) ∧
    (cborDecDriver.DecodeBytes bs zerocopy
        ⟨h, ⟨p, [0xfb, 0, 0, 0, 0, 0, 0, 0, 2, 0x61, 0x62] ++ t⟩, br, false, bd0, false⟩).1
      = Except.ok (some [0x61, 0x62]) ∧
    (∀ (b : Nat) (tail payload : List Nat), b % 32 ≤ 0x1b →
      tail.length = tailLen (b % 32) → b ≠ 0xf6 → b ≠ 0xf7 → b / 32 ≠ 4 →
      payload.length = frameValue (b :: tail) → payload.length < 2 ^ 63 →
      (cborDecDriver.DecodeBytes bs zerocopy
          ⟨h, ⟨p, b :: tail ++ payload ++ t⟩, br, false, bd0, false⟩).1
        = Except.ok (decodedSlice zerocopy br payload) ∧
      (payload ≠ [] →
        (cborDecDriver.DecodeBytes bs zerocopy
            ⟨h, ⟨p, b :: tail ++ payload ++ t⟩, br, false, bd0, false⟩).1
          = Except.ok (some payload))) := by
  refine ⟨?_, ?_, ?_, ?_, ?_⟩
  · have e := DecodeBytes_any_major h p t br bd0 bs zerocopy 0x05 [] [1, 2, 3, 4, 5]
      (by decide) (by decide) (by decide) (by decide) (by decide) (by decide) (by decide)
    rw [decodedSlice_of_ne_nil _ _ _ (by decide)] at e
    exact e
  · have e := DecodeBytes_any_major h p t br bd0 bs zerocopy 0xa1 [] [0x01]
      (by decide) (by decide) (by decide) (by decide) (by decide) (by decide) (by decide)
    rw [decodedSlice_of_ne_nil _ _ _ (by decide)] at e
    exact e
  · have e := DecodeBytes_any_major h p t br bd0 bs zerocopy 0xf5 [] (List.replicate 21 0x61)
      (by decide) (by decide) (by decide) (by decide) (by decide) (by decide) (by decide)
    rw [List.cons_append, List.nil_append, decodedSlice_of_ne_nil _ _ _ (by decide)] at e
    rw [e]
  · have e := DecodeBytes_any_major h p t br bd0 bs zerocopy 0xfb [0, 0, 0, 0, 0, 0, 0, 2]
      [0x61, 0x62]
      (by decide) (by decide) (by decide) (by decide) (by decide) (by decide) (by decide)
    rw [decodedSlice_of_ne_nil _ _ _ (by decide)] at e
    exact congrArg Prod.fst e
  · intro b tail payload hlow htail hnil hund harr hlen hlt
    rw [DecodeBytes_any_major h p t br bd0 bs zerocopy b tail payload hlow htail hnil hund
      harr hlen hlt]
    exact ⟨rfl, fun hne => by rw [decodedSlice_of_ne_nil _ _ _ hne]⟩

/-! ## Integer items of any width -/

theorem DecodeUint64_cached (h : CborHandle) (p t : List Nat) (b : Nat) (br : Bool)
    (bd0 : Nat) (st : Bool) :
    cborDecDriver.DecodeUint64 ⟨h, ⟨b :: p, t⟩, br, true, b, st⟩
      = cborDecDriver.DecodeUint64 ⟨h, ⟨p, b :: t⟩, br, false, bd0, st⟩ := by
  unfold cborDecDriver.DecodeUint64
  apply bind_eq_of_eq
  unfold cborDecDriver.decCheckInteger
  rw [bind_ok (ensureBd_cached h ⟨b :: p, t⟩ br b st), bind_ok (ensureBd_cons h p t b br bd0 st)]

/-- Source `DecodeUint64` over an unsigned-integer frame of any width: the frame is
consumed and its value returned. -/
theorem DecodeUint64_wfFrame (h : CborHandle) (p t : List Nat) (br : Bool) (bd0 : Nat)
    (st : Bool) (bd : Nat) (tail : List Nat) (hf : wfFrame cborMajorUint (bd :: tail)) :
    cborDecDriver.DecodeUint64 ⟨h, ⟨p, bd :: tail ++ t⟩, br, false, bd0, st⟩
      = (Except.ok (frameValue (bd :: tail)),
          ⟨h, ⟨tail.reverse ++ bd :: p, t⟩, br, false, bd, st⟩) := by
  obtain ⟨hm, hlow, hlen⟩ := (wfFrame_cons _ bd tail).1 hf
  rw [cborMajorUint] at hm
  unfold cborDecDriver.DecodeUint64
  rw [List.cons_append, bind_ok (decCheckInteger_fresh h p _ bd br bd0 st (by omega))]
  rw [hm, if_neg (by decide)]
  rw [bind_ok (decUint_wfFrame h _ t br true st bd tail hlow hlen)]
  rfl

/-- Source `DecodeUint64` over a negative-integer descriptor: the decode error of a
negative value for an unsigned target, whatever follows the descriptor. -/
theorem DecodeUint64_negative_head (h : CborHandle) (p t : List Nat) (br : Bool) (bd0 : Nat)
    (st : Bool) (bd : Nat) (hm : bd / 32 = 1) :
    cborDecDriver.DecodeUint64 ⟨h, ⟨p, bd :: t⟩, br, false, bd0, st⟩
      = (Except.error DecErr.negativeToUnsigned, ⟨h, ⟨bd :: p, t⟩, br, true, bd, st⟩) := by
  unfold cborDecDriver.DecodeUint64
  rw [bind_ok (decCheckInteger_fresh h p _ bd br bd0 st (by omega))]
  rw [hm, if_pos (by decide)]
  rfl

theorem bigenUint_append_one (l : List Nat) (x : Nat) :
    bigenUint (l ++ [x]) = bigenUint l * 256 + x := by
  simp [bigenUint, List.foldl_append]

theorem bigenUint_lt (l : List Nat) (hb : ∀ x ∈ l, x < 256) :
    bigenUint l < 256 ^ l.length := by
  induction l using List.reverseRecOn with
  | nil => simp [bigenUint]
  | append_singleton l x ih =>
    have h1 := ih (fun y hy => hb y (List.mem_append_left _ hy))
    have h2 := hb x (List.mem_append_right _ (List.mem_singleton_self x))
    rw [bigenUint_append_one, List.length_append, List.length_singleton, pow_succ]
    omega

/-- The big-endian bytes of the big-endian value of a byte sequence are that sequence. -/
theorem bigenPut_bigenUint (l : List Nat) (hb : ∀ x ∈ l, x < 256) :
    bigenPut l.length (bigenUint l) = l := by
  induction l using List.reverseRecOn with
  | nil => rfl
  | append_singleton l x ih =>
    have h1 := ih (fun y hy => hb y (List.mem_append_left _ hy))
    have h2 := hb x (List.mem_append_right _ (List.mem_singleton_self x))
    rw [bigenUint_append_one, List.length_append, List.length_singleton]
    show bigenPut l.length ((bigenUint l * 256 + x) / 256) ++ [(bigenUint l * 256 + x) % 256] = _
    rw [show (bigenUint l * 256 + x) / 256 = bigenUint l by omega,
      show (bigenUint l * 256 + x) % 256 = x by omega, h1]

/-- An unsigned-integer frame of bytes against the frame that `encUint` writes for its
value: the value fits 64 bits, the written tail is not longer, and the written frame is
the given one exactly when the given one has the least width able to hold the value. -/
theorem frame_canonical (bd : Nat) (tail : List Nat) (hm : bd / 32 = 0)
    (hlow : bd % 32 ≤ 0x1b) (hlen : tail.length = tailLen (bd % 32))
    (hb : ∀ x ∈ tail, x < 256) :
    frameValue (bd :: tail) < 2 ^ 64 ∧
    (frameTail (frameValue (bd :: tail))).length ≤ tail.length ∧
    ((frameDesc 0 (frameValue (bd :: tail)) = bd ∧
        frameTail (frameValue (bd :: tail)) = tail) ↔
      ∀ f ∈ uintForms, frameValue (bd :: tail) ≤ f.2 → tail.length + 1 ≤ f.1) := by
  have hbd : bd % 32 = bd := by omega
  have hv := bigenUint_lt tail hb
  have hput := bigenPut_bigenUint tail hb
  rw [frameValue_cons]
  rw [hbd] at hlen hlow ⊢
  unfold tailLen at hlen
  simp only [uintForms, List.mem_cons, List.mem_singleton, forall_eq_or_imp, forall_eq,
    List.not_mem_nil, false_imp_iff, implies_true, and_true]
  by_cases h1 : bd ≤ 0x17
  · rw [if_pos h1] at hlen ⊢
    rw [List.length_eq_zero.1 hlen]
    unfold frameDesc frameTail
    simp only [if_pos h1, List.length_nil, zero_add, true_and, le_refl]
    refine ⟨by omega, ?_⟩
    simp
  · rw [if_neg h1] at hlen ⊢
    generalize hvdef : bigenUint tail = v at hv hput ⊢
    rw [← hput]
    by_cases h2 : bd = 0x18
    · rw [if_pos h2] at hlen
      rw [hlen] at hv ⊢
      subst h2
      have e1 : bigenPut 1 v = [v] := by
        show [] ++ [v % 256] = [v]
        rw [List.nil_append, Nat.mod_eq_of_lt (by omega)]
      unfold frameDesc frameTail
      split_ifs <;> simp [e1, bigenPut_length] <;> omega
    · rw [if_neg h2] at hlen
      by_cases h3 : bd = 0x19
      · rw [if_pos h3] at hlen
        rw [hlen] at hv ⊢
        subst h3
        unfold frameDesc frameTail
        split_ifs <;> simp [bigenPut_length] <;> omega
      · rw [if_neg h3] at hlen
        by_cases h4 : bd = 0x1a
        · rw [if_pos h4] at hlen
          rw [hlen] at hv ⊢
          subst h4
          unfold frameDesc frameTail
          split_ifs <;> simp [bigenPut_length] <;> omega
        · rw [if_neg h4] at hlen
          rw [hlen] at hv ⊢
          obtain rfl : bd = 0x1b := by omega
          unfold frameDesc frameTail
          split_ifs <;> simp [bigenPut_length] <;> omega

/-- C25. The decoder accepts non-minimal integer encodings and the encoder canonicalises
them. For every well-formed unsigned-integer item `b` (a major-type-0 descriptor with low
bits at most `0x1b` and its 0, 1, 2, 4 or 8 trailing bytes), `DecodeUint64` on a fresh
decoder over `b` (followed by any `rest`) returns the value of `b`, also when `b` is wider
than necessary; `EncodeUint` of that value writes at most as many bytes as `b` has, and
writes exactly `b` if and only if `b` has the least width able to hold its value; and
decoding the re-encoded item gives the same value again, so that re-encoding decoder
output changes nothing. In particular `18 05` decodes to 5 and `1b` followed by eight
zero bytes decodes to 0, and they are re-encoded as `05` and `00`. -/
theorem reencode_canonical (e : cborEncDriver) (h : CborHandle) (p rest : List Nat)
    (br : Bool) (bd0 : Nat) (st : Bool) (b : List Nat) (hwf : wfFrame cborMajorUint b)
    (hbytes : ∀ x ∈ b, x < 256) :
    cborDecDriver.DecodeUint64 ⟨h, ⟨p, b ++ rest⟩, br, false, bd0, st⟩
      = (Except.ok (frameValue b), ⟨h, ⟨b.reverse ++ p, rest⟩, br, false, b.headD 0, st⟩) ∧
    (e.EncodeUint (frameValue b)).w.length ≤ e.w.length + b.length ∧
    ((e.EncodeUint (frameValue b)).w = e.w ++ b ↔
      ∀ f ∈ uintForms, frameValue b ≤ f.2 → b.length ≤ f.1) ∧
    (cborDecDriver.DecodeUint64
        ⟨h, ⟨p, (h.newEncDriver.EncodeUint (frameValue b)).w ++ rest⟩, br, false, bd0, st⟩).1
      = Except.ok (frameValue b) ∧
    (cborDecDriver.DecodeUint64 ⟨h, ⟨p, [0x18, 0x05] ++ rest⟩, br, false, bd0, st⟩).1
      = Except.ok 5 ∧
    (cborDecDriver.DecodeUint64
        ⟨h, ⟨p, [0x1b, 0, 0, 0, 0, 0, 0, 0, 0] ++ rest⟩, br, false, bd0, st⟩).1
      = Except.ok 0 ∧
    (e.EncodeUint 5).w = e.w ++ [0x05] ∧
    (e.EncodeUint 0).w = e.w ++ [0x00] := by
  obtain ⟨bd, tail, rfl, hm, hlow, hlen⟩ := wfFrame_exists _ b hwf
  rw [cborMajorUint] at hm
  obtain ⟨hv, hle, hiff⟩ := frame_canonical bd tail hm hlow hlen
    (fun x hx => hbytes x (List.mem_cons_of_mem _ hx))
  refine ⟨?_, ?_, ?_, ?_, ?_, ?_, ?_, ?_⟩
  · rw [DecodeUint64_wfFrame h p rest br bd0 st bd tail hwf]
    simp only [List.reverse_cons, List.append_assoc, List.singleton_append, List.headD_cons]
  · rw [EncodeUint_frame e _ hv]
    simp only [List.length_append, List.length_cons]
    omega
  · rw [EncodeUint_frame e _ hv, List.append_cancel_left_eq, List.cons.injEq,
      List.length_cons]
    exact hiff
  · rw [EncodeUint_frame _ _ hv]
    show (cborDecDriver.DecodeUint64 ⟨h, ⟨p, frameDesc 0 (frameValue (bd :: tail)) ::
      frameTail (frameValue (bd :: tail)) ++ rest⟩, br, false, bd0, st⟩).1 = _
    rw [DecodeUint64_frame h p rest br bd0 st _ hv]
  · exact congrArg Prod.fst
      (DecodeUint64_wfFrame h p rest br bd0 st 0x18 [0x05] (by decide))
  · exact congrArg Prod.fst
      (DecodeUint64_wfFrame h p rest br bd0 st 0x1b [0, 0, 0, 0, 0, 0, 0, 0] (by decide))
  · exact EncodeUint_frame e 5 (by norm_num)
  · exact EncodeUint_frame e 0 (by norm_num)

/-- Witness of C25: the item `18 05`, the value 5 in the one-byte form, which is wider
than necessary. -/
theorem reencode_canonical_witness :
    wfFrame cborMajorUint [0x18, 0x05] ∧ (∀ x ∈ [0x18, 0x05], x < 256) ∧
    cborDecDriver.DecodeUint64 ⟨⟨false, false, false⟩, ⟨[], [0x18, 0x05] ++ [0x07]⟩, true,
        false, 0, false⟩
      = (Except.ok (frameValue [0x18, 0x05]),
          ⟨⟨false, false, false⟩, ⟨[0x18, 0x05].reverse ++ [], [0x07]⟩, true, false,
            [0x18, 0x05].headD 0, false⟩) ∧
    ((⟨[], ⟨false, false, false⟩⟩ : cborEncDriver).EncodeUint (frameValue [0x18, 0x05])).w.length
      ≤ ([] : List Nat).length + [0x18, 0x05].length :=
  ⟨by decide, by decide,
    (reencode_canonical ⟨[], ⟨false, false, false⟩⟩ ⟨false, false, false⟩ [] [0x07] true 0
      false [0x18, 0x05] (by decide) (by decide)).1,
    (reencode_canonical ⟨[], ⟨false, false, false⟩⟩ ⟨false, false, false⟩ [] [0x07] true 0
      false [0x18, 0x05] (by decide) (by decide)).2.1⟩

/-! ## The array paths of `DecodeBytes` -/

theorem items_length_le (items : List (List Nat)) (hne : ∀ it ∈ items, it ≠ []) :
    items.length ≤ items.flatten.length := by
  induction items with
  | nil => simp
  | cons it items ih =>
    have hpos : 0 < it.length := List.length_pos.2 (hne it (List.mem_cons_self _ _))
    have := ih (fun x hx => hne x (List.mem_cons_of_mem _ hx))
    simp only [List.flatten_cons, List.length_append, List.length_cons]
    omega

/-- One element of the array paths of `DecodeBytes`: an unsigned-integer frame with a
value of at most 255 is stored as one byte. -/
theorem DecodeUint64_byte (h : CborHandle) (p t : List Nat) (br : Bool) (bd0 : Nat)
    (st : Bool) (it : List Nat) (hf : wfFrame cborMajorUint it) (hv : frameValue it ≤ 255)
    {β : Type} (f : Nat → DecM β) :
    (cborDecDriver.DecodeUint64 >>= fun u => liftExcept (UintV u 8) >>= f)
        ⟨h, ⟨p, it ++ t⟩, br, false, bd0, st⟩
      = f (frameValue it) ⟨h, ⟨it.reverse ++ p, t⟩, br, false, it.headD 0, st⟩ := by
  obtain ⟨bd, tail, rfl, -⟩ := wfFrame_exists _ it hf
  rw [bind_ok (DecodeUint64_wfFrame h p t br bd0 st bd tail hf)]
  have e : UintV (frameValue (bd :: tail)) 8 = Except.ok (frameValue (bd :: tail)) := by
    unfold UintV
    rw [if_neg (by omega)]
  rw [bind_ok (show liftExcept (UintV (frameValue (bd :: tail)) 8) _ = (Except.ok _, _) by
    rw [liftExcept_apply, e])]
  simp only [List.reverse_cons, List.append_assoc, List.singleton_append, List.headD_cons]

/-- One element of the array paths of `DecodeBytes`: an unsigned-integer frame with a
value above 255 is the integer-overflow error. -/
theorem DecodeUint64_byte_overflow (h : CborHandle) (p t : List Nat) (br : Bool) (bd0 : Nat)
    (st : Bool) (it : List Nat) (hf : wfFrame cborMajorUint it) (hv : 256 ≤ frameValue it)
    {β : Type} (f : Nat → DecM β) :
    ((cborDecDriver.DecodeUint64 >>= fun u => liftExcept (UintV u 8) >>= f)
        ⟨h, ⟨p, it ++ t⟩, br, false, bd0, st⟩).1
      = Except.error (DecErr.overflow (frameValue it)) := by
  obtain ⟨bd, tail, rfl, -⟩ := wfFrame_exists _ it hf
  rw [bind_ok (DecodeUint64_wfFrame h p t br bd0 st bd tail hf)]
  have e : UintV (frameValue (bd :: tail)) 8
      = Except.error (DecErr.overflow (frameValue (bd :: tail))) := by
    unfold UintV
    rw [if_pos ⟨by decide, by omega⟩]
  rw [bind_error (show liftExcept (UintV (frameValue (bd :: tail)) 8) _
    = (Except.error _, _) by rw [liftExcept_apply, e])]

/-- One element of the array paths of `DecodeBytes`: a negative-integer item is the
decode error of a negative value for an unsigned target. -/
theorem DecodeUint64_byte_negative (h : CborHandle) (p t : List Nat) (br : Bool) (bd0 : Nat)
    (st : Bool) (it : List Nat) (hf : wfFrame cborMajorNegInt it)
    {β : Type} (f : Nat → DecM β) :
    ((cborDecDriver.DecodeUint64 >>= fun u => liftExcept (UintV u 8) >>= f)
        ⟨h, ⟨p, it ++ t⟩, br, false, bd0, st⟩).1
      = Except.error DecErr.negativeToUnsigned := by
  obtain ⟨bd, tail, rfl, hm, -⟩ := wfFrame_exists _ it hf
  rw [cborMajorNegInt] at hm
  rw [List.cons_append, bind_error (DecodeUint64_negative_head h p _ br bd0 st bd hm)]

/-- The loop of the definite-length array path over elements that are bytes: they are
stored in order and the loop goes on with the count that is left. -/
theorem decodeBytesArrayLoop_prefix (h : CborHandle) (s : List Nat) (br : Bool) (st : Bool) :
    ∀ (items : List (List Nat)),
      (∀ it ∈ items, wfFrame cborMajorUint it ∧ frameValue it ≤ 255) →
      ∀ (n : Nat) (acc p : List Nat) (bd0 : Nat), ∃ (p1 : List Nat) (bd1 : Nat),
        cborDecDriver.decodeBytesArrayLoop (items.length + n) acc
            ⟨h, ⟨p, items.flatten ++ s⟩, br, false, bd0, st⟩
          = cborDecDriver.decodeBytesArrayLoop n (acc ++ items.map frameValue)
              ⟨h, ⟨p1, s⟩, br, false, bd1, st⟩ := by
  intro items
  induction items with
  | nil =>
    intro _ n acc p bd0
    refine ⟨p, bd0, ?_⟩
    simp only [List.length_nil, zero_add, List.flatten_nil, List.nil_append, List.map_nil,
      List.append_nil]
  | cons it items ih =>
    intro hit n acc p bd0
    obtain ⟨hf, hv⟩ := hit it (List.mem_cons_self _ _)
    obtain ⟨p1, bd1, e⟩ := ih (fun x hx => hit x (List.mem_cons_of_mem _ hx)) n
      (acc ++ [frameValue it % 256]) (it.reverse ++ p) (it.headD 0)
    refine ⟨p1, bd1, ?_⟩
    rw [show (it :: items).length + n = (items.length + n) + 1 by
      simp only [List.length_cons]; omega]
    conv_lhs => unfold cborDecDriver.decodeBytesArrayLoop
    rw [List.flatten_cons, List.append_assoc,
      DecodeUint64_byte h p _ br bd0 st it hf hv, e, Nat.mod_eq_of_lt (by omega)]
    simp only [List.map_cons, List.append_assoc, List.singleton_append]

/-- The loop of the indefinite-length array path over elements that are bytes: they are
stored in order and the loop goes on with what follows them. -/
theorem decodeBytesArrayBreakLoop_prefix (h : CborHandle) (s : List Nat) (br : Bool)
    (st : Bool) :
    ∀ (items : List (List Nat)),
      (∀ it ∈ items, wfFrame cborMajorUint it ∧ frameValue it ≤ 255) →
      ∀ (fuel : Nat) (acc p : List Nat) (bd0 : Nat), items.length < fuel →
        ∃ (fuel1 : Nat) (p1 : List Nat) (bd1 : Nat),
          cborDecDriver.decodeBytesArrayBreakLoop fuel acc
              ⟨h, ⟨p, items.flatten ++ s⟩, br, false, bd0, st⟩
            = cborDecDriver.decodeBytesArrayBreakLoop (fuel1 + 1)
                (acc ++ items.map frameValue) ⟨h, ⟨p1, s⟩, br, false, bd1, st⟩ := by
  intro items
  induction items with
  | nil =>
    intro _ fuel acc p bd0 hlt
    refine ⟨fuel - 1, p, bd0, ?_⟩
    rw [show fuel - 1 + 1 = fuel by simp only [List.length_nil] at hlt; omega]
    simp only [List.flatten_nil, List.nil_append, List.map_nil, List.append_nil]
  | cons it items ih =>
    intro hit fuel acc p bd0 hlt
    obtain ⟨hf, hv⟩ := hit it (List.mem_cons_self _ _)
    obtain ⟨bd, tail, rfl, hm, -⟩ := wfFrame_exists _ it hf
    rw [cborMajorUint] at hm
    obtain ⟨fuel0, rfl⟩ : ∃ k, fuel = k + 1 :=
      ⟨fuel - 1, by simp only [List.length_cons] at hlt; omega⟩
    obtain ⟨fuel1, p1, bd1, e⟩ := ih (fun x hx => hit x (List.mem_cons_of_mem _ hx)) fuel0
      (acc ++ [frameValue (bd :: tail) % 256]) ((bd :: tail).reverse ++ p) bd
      (by simp only [List.length_cons] at hlt; omega)
    refine ⟨fuel1, p1, bd1, ?_⟩
    conv_lhs => unfold cborDecDriver.decodeBytesArrayBreakLoop
    rw [List.flatten_cons, List.append_assoc, List.cons_append,
      bind_ok (CheckBreak_other h p _ bd br bd0 st (by omega))]
    simp only [Bool.false_eq_true, if_false]
    have hD := DecodeUint64_byte h p (items.flatten ++ s) br bd0 st (bd :: tail) hf hv
      (fun b => cborDecDriver.decodeBytesArrayBreakLoop fuel0 (acc ++ [b % 256]))
    rw [List.cons_append] at hD
    rw [bind_congr_apply (DecodeUint64_cached h p _ bd br bd0 st), hD]
    simp only [List.headD_cons]
    rw [e, Nat.mod_eq_of_lt (by omega)]
    simp only [List.map_cons, List.append_assoc, List.singleton_append]

/-- Source `DecodeBytes` on a definite-length array header: the count is read and the
element loop runs over what follows the header. -/
theorem DecodeBytes_array_definite (h : CborHandle) (p s : List Nat) (br : Bool) (bd0 : Nat)
    (st : Bool) (bs : Option (List Nat)) (zerocopy : Bool) (hdr : List Nat)
    (hf : wfFrame cborMajorArray hdr) (hn : frameValue hdr < 2 ^ 63) :
    cborDecDriver.DecodeBytes bs zerocopy ⟨h, ⟨p, hdr ++ s⟩, br, false, bd0, st⟩
      = (cborDecDriver.decodeBytesArrayLoop (frameValue hdr) [] >>= fun out => pure (some out))
          ⟨h, ⟨hdr.reverse ++ p, s⟩, br, false, hdr.headD 0, st⟩ := by
  obtain ⟨bd, tail, rfl, hm, hlow, hlen⟩ := wfFrame_exists _ hdr hf
  rw [cborMajorArray] at hm
  have hw : wrapInt64 ((frameValue (bd :: tail) : Nat) : Int)
      = ((frameValue (bd :: tail) : Nat) : Int) :=
    wrapInt64_of_range _ (by simp only [MinInt64]; omega) (by simp only [MaxInt64]; omega)
  have hl : cborDecDriver.decLen ⟨h, ⟨bd :: p, tail ++ s⟩, br, false, bd, st⟩
      = (Except.ok ((frameValue (bd :: tail) : Nat) : Int),
          ⟨h, ⟨tail.reverse ++ bd :: p, s⟩, br, false, bd, st⟩) := by
    unfold cborDecDriver.decLen
    rw [bind_ok (decUint_wfFrame h (bd :: p) s br false st bd tail hlow hlen), pure_apply, hw]
  have hu : usableByteSlice ((frameValue (bd :: tail) : Nat) : Int)
        ⟨h, ⟨tail.reverse ++ bd :: p, s⟩, br, false, bd, st⟩
      = (Except.ok (frameValue (bd :: tail)),
          ⟨h, ⟨tail.reverse ++ bd :: p, s⟩, br, false, bd, st⟩) := by
    unfold Cbor.usableByteSlice
    rw [if_neg (by omega), pure_apply, Int.toNat_natCast]
  unfold cborDecDriver.DecodeBytes
  rw [List.cons_append, bind_ok (ensureBd_cons h p _ bd br bd0 st),
    bind_ok (skipTagsIfSt_nontag _ (show bd / 32 ≠ 6 by omega)), getD_bind]
  dsimp only
  rw [if_neg (by simp only [cborBdNil, cborBdUndefined]; omega),
    if_neg (by simp only [cborBdIndefiniteBytes, cborBdIndefiniteString]; omega),
    if_neg (by simp only [cborBdIndefiniteArray]; omega),
    if_pos (by rw [shr_5, hm, cborMajorArray]),
    modifyD_bind, bind_ok hl, bind_ok hu]
  simp only [List.reverse_cons, List.append_assoc, List.singleton_append, List.headD_cons]

/-- Source `DecodeBytes` on the indefinite-length array marker: the element loop runs
over what follows the marker. -/
theorem DecodeBytes_array_indefinite (h : CborHandle) (p s : List Nat) (br : Bool) (bd0 : Nat)
    (st : Bool) (bs : Option (List Nat)) (zerocopy : Bool) :
    cborDecDriver.DecodeBytes bs zerocopy ⟨h, ⟨p, 0x9f :: s⟩, br, false, bd0, st⟩
      = (cborDecDriver.decodeBytesArrayBreakLoop (s.length + 1) []
            >>= fun out => pure (some out))
          ⟨h, ⟨0x9f :: p, s⟩, br, false, 0x9f, st⟩ := by
  unfold cborDecDriver.DecodeBytes
  rw [bind_ok (ensureBd_cons h p _ 0x9f br bd0 st),
    bind_ok (skipTagsIfSt_nontag _ (show 0x9f / 32 ≠ 6 by decide)), getD_bind]
  dsimp only
  rw [if_neg (by decide), if_neg (by decide), if_pos (by decide), modifyD_bind, getD_bind]

/-- C22. The array-as-bytes path of `DecodeBytes` with its 8-bit overflow check. Let
`items` be unsigned-integer items (frames of any width) with values `b_0..b_{n-1}`, all at
most 255. Over a definite-length array header declaring `n` elements followed by the
items, and over the indefinite-length marker `0x9f` followed by the items and the break
byte, `DecodeBytes` returns exactly the bytes `b_0..b_{n-1}` in order, leaves what
follows unread and clears the cache flag. When the items are followed by one more
element (the header declaring more than `n` elements, or in the indefinite form) that is
an unsigned integer of value 256 or more, `DecodeBytes` fails with the integer-overflow
error; when that element is a negative integer it fails with the decode error of a
negative value for an unsigned target. In particular the array `[256]`, bytes
`81 19 01 00`, is the integer-overflow error. -/
theorem DecodeBytes_array_as_bytes (h : CborHandle) (p rest : List Nat) (br : Bool)
    (bd0 : Nat) (st : Bool) (bs : Option (List Nat)) (zerocopy : Bool)
    (items : List (List Nat))
    (hitems : ∀ it ∈ items, wfFrame cborMajorUint it ∧ frameValue it ≤ 255) :
    (∀ hdr : List Nat, wfFrame cborMajorArray hdr → frameValue hdr = items.length →
      items.length < 2 ^ 63 →
      ∃ d1 : cborDecDriver,
        cborDecDriver.DecodeBytes bs zerocopy
            ⟨h, ⟨p, hdr ++ (items.flatten ++ rest)⟩, br, false, bd0, st⟩
          = (Except.ok (some (items.map frameValue)), d1) ∧
        d1.r.rest = rest ∧ d1.bdRead = false) ∧
    (∃ d1 : cborDecDriver,
      cborDecDriver.DecodeBytes bs zerocopy
          ⟨h, ⟨p, 0x9f :: (items.flatten ++ 0xff :: rest)⟩, br, false, bd0, st⟩
        = (Except.ok (some (items.map frameValue)), d1) ∧
      d1.r.rest = rest ∧ d1.bdRead = false) ∧
    (∀ hdr bad : List Nat, wfFrame cborMajorArray hdr → items.length < frameValue hdr →
      frameValue hdr < 2 ^ 63 →
      (wfFrame cborMajorUint bad → 256 ≤ frameValue bad →
        (cborDecDriver.DecodeBytes bs zerocopy
            ⟨h, ⟨p, hdr ++ (items.flatten ++ (bad ++ rest))⟩, br, false, bd0, st⟩).1
          = Except.error (DecErr.overflow (frameValue bad))) ∧
      (wfFrame cborMajorNegInt bad →
        (cborDecDriver.DecodeBytes bs zerocopy
            ⟨h, ⟨p, hdr ++ (items.flatten ++ (bad ++ rest))⟩, br, false, bd0, st⟩).1
          = Except.error DecErr.negativeToUnsigned)) ∧
    (∀ bad : List Nat,
      (wfFrame cborMajorUint bad → 256 ≤ frameValue bad →
        (cborDecDriver.DecodeBytes bs zerocopy
            ⟨h, ⟨p, 0x9f :: (items.flatten ++ (bad ++ rest))⟩, br, false, bd0, st⟩).1
          = Except.error (DecErr.overflow (frameValue bad))) ∧
      (wfFrame cborMajorNegInt bad →
        (cborDecDriver.DecodeBytes bs zerocopy
            ⟨h, ⟨p, 0x9f :: (items.flatten ++ (bad ++ rest))⟩, br, false, bd0, st⟩).1
          = Except.error DecErr.negativeToUnsigned)) ∧
    (cborDecDriver.DecodeBytes bs zerocopy
        ⟨h, ⟨p, [0x81, 0x19, 0x01, 0x00] ++ rest⟩, br, false, bd0, st⟩).1
      = Except.error (DecErr.overflow 256) := by
  have hne : ∀ it ∈ items, it ≠ [] := fun it hit => (hitems it hit).1.1
  have hbrk : ∀ (s : List Nat), ∃ (fuel1 : Nat) (p1 : List Nat) (bd1 : Nat),
      cborDecDriver.decodeBytesArrayBreakLoop ((items.flatten ++ s).length + 1) []
          ⟨h, ⟨0x9f :: p, items.flatten ++ s⟩, br, false, 0x9f, st⟩
        = cborDecDriver.decodeBytesArrayBreakLoop (fuel1 + 1) (items.map frameValue)
            ⟨h, ⟨p1, s⟩, br, false, bd1, st⟩ := by
    intro s
    have hle := items_length_le items hne
    obtain ⟨fuel1, p1, bd1, e⟩ := decodeBytesArrayBreakLoop_prefix h s br st items hitems
      ((items.flatten ++ s).length + 1) [] (0x9f :: p) 0x9f
      (by simp only [List.length_append]; omega)
    exact ⟨fuel1, p1, bd1, by rw [e, List.nil_append]⟩
  refine ⟨?_, ?_, ?_, ?_, ?_⟩
  · intro hdr hf hn hlt
    obtain ⟨p1, bd1, e⟩ := decodeBytesArrayLoop_prefix h rest br st items hitems 0 []
      (hdr.reverse ++ p) (hdr.headD 0)
    rw [DecodeBytes_array_definite h p _ br bd0 st bs zerocopy hdr hf (by omega), hn]
    rw [Nat.add_zero, List.nil_append] at e
    refine ⟨⟨h, ⟨p1, rest⟩, br, false, bd1, st⟩, ?_, rfl, rfl⟩
    rw [bind_congr_apply e]
    unfold cborDecDriver.decodeBytesArrayLoop
    rfl
  · obtain ⟨fuel1, p1, bd1, e⟩ := hbrk (0xff :: rest)
    rw [DecodeBytes_array_indefinite, bind_congr_apply e]
    refine ⟨⟨h, ⟨0xff :: p1, rest⟩, br, false, 0xff, st⟩, ?_, rfl, rfl⟩
    have eb : cborDecDriver.decodeBytesArrayBreakLoop (fuel1 + 1) (items.map frameValue)
          ⟨h, ⟨p1, 0xff :: rest⟩, br, false, bd1, st⟩
        = (Except.ok (items.map frameValue), ⟨h, ⟨0xff :: p1, rest⟩, br, false, 0xff, st⟩) := by
      unfold cborDecDriver.decodeBytesArrayBreakLoop
      rw [bind_ok (CheckBreak_break h p1 rest br bd1 st)]
      rfl
    rw [bind_ok eb]
    rfl
  · intro hdr bad hf hgt hlt
    obtain ⟨k, hk⟩ : ∃ k, frameValue hdr = items.length + (k + 1) :=
      ⟨frameValue hdr - items.length - 1, by omega⟩
    obtain ⟨p1, bd1, e⟩ := decodeBytesArrayLoop_prefix h (bad ++ rest) br st items hitems
      (k + 1) [] (hdr.reverse ++ p) (hdr.headD 0)
    rw [DecodeBytes_array_definite h p _ br bd0 st bs zerocopy hdr hf hlt, hk]
    constructor
    · intro hb hv
      apply bind_error_fst
      rw [e]
      unfold cborDecDriver.decodeBytesArrayLoop
      exact DecodeUint64_byte_overflow h p1 rest br bd1 st bad hb hv _
    · intro hb
      apply bind_error_fst
      rw [e]
      unfold cborDecDriver.decodeBytesArrayLoop
      exact DecodeUint64_byte_negative h p1 rest br bd1 st bad hb _
  · intro bad
    obtain ⟨fuel1, p1, bd1, e⟩ := hbrk (bad ++ rest)
    rw [DecodeBytes_array_indefinite]
    constructor
    · intro hb hv
      obtain ⟨bd, tail, rfl, hm, -⟩ := wfFrame_exists _ bad hb
      rw [cborMajorUint] at hm
      apply bind_error_fst
      rw [e]
      unfold cborDecDriver.decodeBytesArrayBreakLoop
      rw [List.cons_append, bind_ok (CheckBreak_other h p1 _ bd br bd1 st (by omega))]
      simp only [Bool.false_eq_true, if_false]
      rw [bind_congr_apply (DecodeUint64_cached h p1 _ bd br bd1 st)]
      exact DecodeUint64_byte_overflow h p1 rest br bd1 st (bd :: tail) hb hv _
    · intro hb
      obtain ⟨bd, tail, rfl, hm, -⟩ := wfFrame_exists _ bad hb
      rw [cborMajorNegInt] at hm
      apply bind_error_fst
      rw [e]
      unfold cborDecDriver.decodeBytesArrayBreakLoop
      rw [List.cons_append, bind_ok (CheckBreak_other h p1 _ bd br bd1 st (by omega))]
      simp only [Bool.false_eq_true, if_false]
      rw [bind_congr_apply (DecodeUint64_cached h p1 _ bd br bd1 st)]
      exact DecodeUint64_byte_negative h p1 rest br bd1 st (bd :: tail) hb _
  · have e := DecodeBytes_array_definite h p ([0x19, 0x01, 0x00] ++ rest) br bd0 st bs
      zerocopy [0x81] (by decide) (by decide)
    rw [show [0x81, 0x19, 0x01, 0x00] ++ rest = [0x81] ++ ([0x19, 0x01, 0x00] ++ rest) by rfl,
      e]
    apply bind_error_fst
    rw [show frameValue [0x81] = 0 + 1 by decide]
    unfold cborDecDriver.decodeBytesArrayLoop
    exact DecodeUint64_byte_overflow h _ rest br _ st [0x19, 0x01, 0x00] (by decide)
      (by decide) _

/-- Witness of C22: the three unsigned-integer items `01`, `18 ff` and `17`, that is the
bytes 1, 255 and 23. -/
theorem DecodeBytes_array_as_bytes_witness :
    (∀ it ∈ [[0x01], [0x18, 0xff], [0x17]], wfFrame cborMajorUint it ∧ frameValue it ≤ 255) ∧
    ∃ d1 : cborDecDriver,
      cborDecDriver.DecodeBytes none false
          ⟨⟨false, false, false⟩,
            ⟨[], 0x9f :: ([[0x01], [0x18, 0xff], [0x17]].flatten ++ 0xff :: [0x07])⟩,
            true, false, 0, false⟩
        = (Except.ok (some ([[0x01], [0x18, 0xff], [0x17]].map frameValue)), d1) ∧
      d1.r.rest = [0x07] ∧ d1.bdRead = false :=
  ⟨by decide,
    (DecodeBytes_array_as_bytes ⟨false, false, false⟩ [] [0x07] true 0 false none false
      [[0x01], [0x18, 0xff], [0x17]] (by decide)).2.1⟩

/-! ## What a successful read has consumed -/

theorem readx_inv {h : CborHandle} {p r : List Nat} {br x : Bool} {bd : Nat} {st : Bool}
    {n : Nat} {bs : List Nat} {d1 : cborDecDriver}
    (he : readx n ⟨h, ⟨p, r⟩, br, x, bd, st⟩ = (Except.ok bs, d1)) :
    bs.length = n ∧ ∃ r1 : List Nat, r = bs ++ r1 ∧
      d1 = ⟨h, ⟨bs.reverse ++ p, r1⟩, br, x, bd, st⟩ := by
  unfold readx at he
  split_ifs at he with hn
  · cases he
    simp only at hn
    refine ⟨?_, r.drop n, ?_, rfl⟩
    · show (List.take n r).length = n
      rw [List.length_take]
      omega
    · exact (List.take_append_drop n r).symm
  · cases he

/-- Source `decUint` when it returns: the cached descriptor has low bits at most `0x1b`,
the bytes read are the trailing bytes that the descriptor announces, and the value is
that of the frame. -/
theorem decUint_inv {h : CborHandle} {p r : List Nat} {br x : Bool} {bd : Nat} {st : Bool}
    {u : Nat} {d1 : cborDecDriver}
    (he : cborDecDriver.decUint ⟨h, ⟨p, r⟩, br, x, bd, st⟩ = (Except.ok u, d1)) :
    bd % 32 ≤ 0x1b ∧ ∃ tail r1 : List Nat, r = tail ++ r1 ∧
      tail.length = tailLen (bd % 32) ∧ u = frameValue (bd :: tail) ∧
      d1 = ⟨h, ⟨tail.reverse ++ p, r1⟩, br, x, bd, st⟩ := by
  unfold cborDecDriver.decUint at he
  rw [getD_bind] at he
  simp only [land_1f] at he
  split_ifs at he with h1 h2 h3 h4 h5
  · cases he
    exact ⟨by omega, [], r, rfl, by simp [tailLen, h1], by rw [frameValue_cons, if_pos h1], rfl⟩
  · cases r with
    | nil => cases he
    | cons b t =>
      rw [readn1_cons] at he
      cases he
      exact ⟨by omega, [u], t, rfl, by simp [tailLen, h2],
        by rw [frameValue_cons, if_neg h1]; simp [bigenUint], rfl⟩
  · obtain ⟨bs, d2, e1, e2⟩ := bind_ok_inv he
    cases e2
    obtain ⟨hl, r1, hr, hd⟩ := readx_inv e1
    exact ⟨by omega, bs, r1, hr, by simp [tailLen, h3, hl],
      by rw [frameValue_cons, if_neg h1], hd⟩
  · obtain ⟨bs, d2, e1, e2⟩ := bind_ok_inv he
    cases e2
    obtain ⟨hl, r1, hr, hd⟩ := readx_inv e1
    exact ⟨by omega, bs, r1, hr, by simp [tailLen, h4, hl],
      by rw [frameValue_cons, if_neg h1], hd⟩
  · obtain ⟨bs, d2, e1, e2⟩ := bind_ok_inv he
    cases e2
    obtain ⟨hl, r1, hr, hd⟩ := readx_inv e1
    exact ⟨by omega, bs, r1, hr, by simp [tailLen, h5, hl],
      by rw [frameValue_cons, if_neg h1], hd⟩
  · cases he

theorem CheckBreak_nil (h : CborHandle) (p : List Nat) (br : Bool) (bd0 : Nat) (st : Bool) :
    cborDecDriver.CheckBreak ⟨h, ⟨p, []⟩, br, false, bd0, st⟩
      = (Except.error DecErr.eof, ⟨h, ⟨p, []⟩, br, false, bd0, st⟩) := by
  unfold cborDecDriver.CheckBreak
  rw [bind_error (ensureBd_nil h p br bd0 st)]

theorem frameValue_lt_of_bytes (bd : Nat) (tail : List Nat)
    (hlen : tail.length = tailLen (bd % 32)) (hb : ∀ x ∈ tail, x < 256) :
    frameValue (bd :: tail) < 2 ^ 64 := by
  have hv := bigenUint_lt tail hb
  have hk : tail.length ≤ 8 := by
    rw [hlen]
    unfold tailLen
    split_ifs <;> omega
  have hp : 256 ^ tail.length ≤ 256 ^ 8 := Nat.pow_le_pow_right (by decide) hk
  rw [frameValue_cons]
  split_ifs
  · omega
  · have : (256 : Nat) ^ 8 = 2 ^ 64 := by norm_num
    omega

theorem wrapInt64_toNat_of_nonneg (v : Nat) (hv : v < 2 ^ 64)
    (hn : ¬wrapInt64 (v : Int) < 0) : (wrapInt64 (v : Int)).toNat = v := by
  unfold wrapInt64 at hn ⊢
  omega

/-! ## Chunks of an indefinite-length string -/

/-- The chunk loop of `decAppendIndefiniteBytes` when it returns: what it has read is a
sequence of chunks, each a definite-length frame of major type 2 or 3 with its payload,
and the break byte; what it returns are the payloads, appended in order. -/
theorem decAppendIndefiniteBytesLoop_inv (h : CborHandle) (br : Bool) (st : Bool) :
    ∀ (fuel : Nat) (acc p r : List Nat) (bd0 : Nat) (out : List Nat) (d1 : cborDecDriver),
      (∀ x ∈ r, x < 256) →
      cborDecDriver.decAppendIndefiniteBytesLoop fuel acc ⟨h, ⟨p, r⟩, br, false, bd0, st⟩
        = (Except.ok out, d1) →
      ∃ chunks : List (List Nat × List Nat),
        r = chunkBytes chunks ++ 0xff :: d1.r.rest ∧ (∀ c ∈ chunks, stringChunk c) ∧
        out = acc ++ chunkPayload chunks := by
  intro fuel
  induction fuel with
  | zero =>
    intro acc p r bd0 out d1 _ he
    unfold cborDecDriver.decAppendIndefiniteBytesLoop at he
    cases he
  | succ fuel ih =>
    intro acc p r bd0 out d1 hbytes he
    unfold cborDecDriver.decAppendIndefiniteBytesLoop at he
    cases r with
    | nil =>
      rw [bind_error (CheckBreak_nil h p br bd0 st)] at he
      cases he
    | cons b t =>
      by_cases hb : b = 0xff
      · subst hb
        rw [bind_ok (CheckBreak_break h p t br bd0 st)] at he
        simp only [if_true, pure_apply] at he
        cases he
        exact ⟨[], rfl, fun c hc => absurd hc (List.not_mem_nil c), by simp [chunkPayload]⟩
      · rw [bind_ok (CheckBreak_other h p t b br bd0 st hb)] at he
        simp only [Bool.false_eq_true, if_false] at he
        rw [getD_bind] at he
        dsimp only at he
        by_cases hmaj : b >>> 5 ≠ cborMajorBytes ∧ b >>> 5 ≠ cborMajorString
        · have he2 := (congrFun (if_pos hmaj) _).symm.trans he
          rw [errorf_apply] at he2
          cases he2
        · have he2 := (congrFun (if_neg hmaj) _).symm.trans he
          obtain ⟨n, d2, e1, e2⟩ := bind_ok_inv he2
          unfold cborDecDriver.decLen at e1
          obtain ⟨u, d3, e3, e4⟩ := bind_ok_inv e1
          rw [pure_apply] at e4
          obtain ⟨hn, hd⟩ := Prod.mk.inj e4
          have hn1 := Except.ok.inj hn
          subst hd
          subst hn1
          obtain ⟨hlow, tail, r1, hr, hlen, rfl, rfl⟩ := decUint_inv e3
          subst hr
          have hbt : ∀ x ∈ tail, x < 256 := fun x hx =>
            hbytes x (List.mem_cons_of_mem _ (List.mem_append_left _ hx))
          have hv := frameValue_lt_of_bytes b tail hlen hbt
          by_cases hneg : wrapInt64 ((frameValue (b :: tail) : Nat) : Int) < 0
          · rw [if_pos hneg, errorf_apply] at e2
            cases e2
          · rw [if_neg hneg] at e2
            obtain ⟨chunk, d4, e5, e6⟩ := bind_ok_inv e2
            obtain ⟨hl, r2, hr2, rfl⟩ := readx_inv e5
            subst hr2
            rw [modifyD_bind] at e6
            rw [wrapInt64_toNat_of_nonneg _ hv hneg] at hl
            obtain ⟨chunks, hc1, hc2, hc3⟩ := ih (acc ++ chunk) _ r2 b out d1
              (fun x hx => hbytes x (List.mem_cons_of_mem _
                (List.mem_append_right _ (List.mem_append_right _ hx)))) e6
            refine ⟨(b :: tail, chunk) :: chunks, ?_, ?_, ?_⟩
            · rw [hc1]
              simp [chunkBytes]
            · intro c hc
              rcases List.mem_cons.1 hc with rfl | hc
              · refine ⟨?_, hl⟩
                have hm : b / 32 = cborMajorBytes ∨ b / 32 = cborMajorString := by
                  rw [shr_5] at hmaj
                  by_cases h2 : b / 32 = cborMajorBytes
                  · exact Or.inl h2
                  · by_cases h3 : b / 32 = cborMajorString
                    · exact Or.inr h3
                    · exact absurd ⟨h2, h3⟩ hmaj
                rcases hm with hm | hm
                · exact Or.inl ((wfFrame_cons _ b tail).2 ⟨hm, hlow, hlen⟩)
                · exact Or.inr ((wfFrame_cons _ b tail).2 ⟨hm, hlow, hlen⟩)
              · exact hc2 c hc
            · rw [hc3]
              simp [chunkPayload]

/-- Source `DecodeBytes` on an indefinite-length string marker: the chunk loop runs over
what follows the marker, and the cache flag is cleared when it returns. -/
theorem DecodeBytes_indefinite_loop (h : CborHandle) (p T : List Nat) (br : Bool)
    (bd0 : Nat) (st : Bool) (m : Nat) (hm : m = 0x5f ∨ m = 0x7f) (bs : Option (List Nat))
    (zerocopy : Bool) :
    cborDecDriver.DecodeBytes bs zerocopy ⟨h, ⟨p, m :: T⟩, br, false, bd0, st⟩
      = (cborDecDriver.decAppendIndefiniteBytesLoop (T.length + 1) [] >>= fun out =>
          modifyD (fun d => { d with bdRead := false }) >>= fun _ => pure (some out))
          ⟨h, ⟨m :: p, T⟩, br, false, m, st⟩ := by
  rcases hl : cborDecDriver.decAppendIndefiniteBytesLoop (T.length + 1) []
    ⟨h, ⟨m :: p, T⟩, br, false, m, st⟩ with ⟨res, d2⟩
  cases res with
  | ok out =>
    rw [bind_ok hl, DecodeBytes_indefinite h p T br bd0 st m hm out d2 bs zerocopy hl]
    rfl
  | error err =>
    rw [bind_error hl]
    have ha : cborDecDriver.decAppendIndefiniteBytes [] ⟨h, ⟨m :: p, T⟩, br, false, m, st⟩
        = (Except.error err, d2) := by
      unfold cborDecDriver.decAppendIndefiniteBytes
      rw [modifyD_bind, getD_bind]
      exact bind_error hl
    unfold cborDecDriver.DecodeBytes
    rw [bind_ok (ensureBd_cons h p _ m br bd0 st),
      bind_ok (skipTagsIfSt_nontag _ (show m / 32 ≠ 6 by omega)), getD_bind]
    dsimp only
    rw [if_neg (by simp only [cborBdNil, cborBdUndefined]; omega),
      if_pos (by simp only [cborBdIndefiniteBytes, cborBdIndefiniteString]; omega),
      modifyD_bind]
    simp only [ite_self]
    exact bind_error ha

/-- One turn of the chunk loop of `decAppendIndefiniteBytes` over a chunk of either
string type, of any width: the payload is appended. -/
theorem decAppendIndefiniteBytesLoop_stringChunk (h : CborHandle) (p t : List Nat)
    (br : Bool) (bd0 : Nat) (st : Bool) (c : List Nat × List Nat) (hc : stringChunk c)
    (hlt : c.2.length < 2 ^ 63) (acc : List Nat) (k : Nat) :
    ∃ (p1 : List Nat) (bd1 : Nat),
      cborDecDriver.decAppendIndefiniteBytesLoop (k + 1) acc
          ⟨h, ⟨p, c.1 ++ c.2 ++ t⟩, br, false, bd0, st⟩
        = cborDecDriver.decAppendIndefiniteBytesLoop k (acc ++ c.2)
            ⟨h, ⟨p1, t⟩, br, false, bd1, st⟩ := by
  obtain ⟨fr, payload⟩ := c
  obtain ⟨hw, hlen⟩ := hc
  simp only at hw hlen hlt ⊢
  have hex : ∃ bd tail, fr = bd :: tail ∧ (bd / 32 = 2 ∨ bd / 32 = 3) ∧ bd % 32 ≤ 0x1b ∧
      tail.length = tailLen (bd % 32) := by
    rcases hw with hw | hw
    · obtain ⟨bd, tail, e, hm, hl, ht⟩ := wfFrame_exists _ fr hw
      exact ⟨bd, tail, e, Or.inl hm, hl, ht⟩
    · obtain ⟨bd, tail, e, hm, hl, ht⟩ := wfFrame_exists _ fr hw
      exact ⟨bd, tail, e, Or.inr hm, hl, ht⟩
  obtain ⟨bd, tail, rfl, hm, hlow, htl⟩ := hex
  have hw2 : wrapInt64 ((payload.length : Nat) : Int) = ((payload.length : Nat) : Int) :=
    wrapInt64_of_range _ (by simp only [MinInt64]; omega) (by simp only [MaxInt64]; omega)
  have hl : cborDecDriver.decLen ⟨h, ⟨bd :: p, tail ++ (payload ++ t)⟩, br, true, bd, st⟩
      = (Except.ok ((payload.length : Nat) : Int),
          ⟨h, ⟨tail.reverse ++ bd :: p, payload ++ t⟩, br, true, bd, st⟩) := by
    unfold cborDecDriver.decLen
    rw [bind_ok (decUint_wfFrame h (bd :: p) (payload ++ t) br true st bd tail hlow htl),
      ← hlen, pure_apply, hw2]
  refine ⟨payload.reverse ++ (tail.reverse ++ bd :: p), bd, ?_⟩
  conv_lhs => unfold cborDecDriver.decAppendIndefiniteBytesLoop
  rw [List.cons_append, List.cons_append, List.append_assoc,
    bind_ok (CheckBreak_other h p _ bd br bd0 st (by omega))]
  simp only [Bool.false_eq_true, if_false]
  rw [getD_bind]
  dsimp only
  rw [if_neg (by rw [shr_5, cborMajorBytes, cborMajorString]; omega), bind_ok hl,
    if_neg (by omega), Int.toNat_natCast,
    bind_ok (readx_append h (tail.reverse ++ bd :: p) payload t _ rfl br true bd st),
    modifyD_bind]

theorem chunks_length_le (chunks : List (List Nat × List Nat))
    (hc : ∀ c ∈ chunks, stringChunk c) : chunks.length ≤ (chunkBytes chunks).length := by
  induction chunks with
  | nil => simp
  | cons c chunks ih =>
    have hne : c.1 ≠ [] := by
      rcases (hc c (List.mem_cons_self _ _)).1 with hw | hw <;> exact hw.1
    have hpos : 0 < c.1.length := List.length_pos.2 hne
    have := ih (fun x hx => hc x (List.mem_cons_of_mem _ hx))
    simp only [chunkBytes, List.flatMap_cons, List.length_append, List.length_cons] at this ⊢
    omega

/-- The chunk loop of `decAppendIndefiniteBytes` over chunks of either string type: the
payloads are appended in order and the loop goes on with what follows the chunks. -/
theorem decAppendIndefiniteBytesLoop_prefix (h : CborHandle) (s : List Nat) (br : Bool)
    (st : Bool) :
    ∀ (chunks : List (List Nat × List Nat)),
      (∀ c ∈ chunks, stringChunk c ∧ c.2.length < 2 ^ 63) →
      ∀ (fuel : Nat) (acc p : List Nat) (bd0 : Nat), chunks.length < fuel →
        ∃ (fuel1 : Nat) (p1 : List Nat) (bd1 : Nat),
          cborDecDriver.decAppendIndefiniteBytesLoop fuel acc
              ⟨h, ⟨p, chunkBytes chunks ++ s⟩, br, false, bd0, st⟩
            = cborDecDriver.decAppendIndefiniteBytesLoop (fuel1 + 1)
                (acc ++ chunkPayload chunks) ⟨h, ⟨p1, s⟩, br, false, bd1, st⟩ := by
  intro chunks
  induction chunks with
  | nil =>
    intro _ fuel acc p bd0 hlt
    refine ⟨fuel - 1, p, bd0, ?_⟩
    rw [show fuel - 1 + 1 = fuel by simp only [List.length_nil] at hlt; omega]
    simp only [chunkBytes, chunkPayload, List.flatMap_nil, List.nil_append, List.append_nil]
  | cons c chunks ih =>
    intro hc fuel acc p bd0 hlt
    obtain ⟨hc1, hc2⟩ := hc c (List.mem_cons_self _ _)
    obtain ⟨fuel0, rfl⟩ : ∃ k, fuel = k + 1 :=
      ⟨fuel - 1, by simp only [List.length_cons] at hlt; omega⟩
    obtain ⟨p0, bd2, e0⟩ := decAppendIndefiniteBytesLoop_stringChunk h p
      (chunkBytes chunks ++ s) br bd0 st c hc1 hc2 acc fuel0
    obtain ⟨fuel1, p1, bd1, e1⟩ := ih (fun x hx => hc x (List.mem_cons_of_mem _ hx)) fuel0
      (acc ++ c.2) p0 bd2 (by simp only [List.length_cons] at hlt; omega)
    refine ⟨fuel1, p1, bd1, ?_⟩
    have hs : chunkBytes (c :: chunks) ++ s = c.1 ++ c.2 ++ (chunkBytes chunks ++ s) := by
      simp [chunkBytes]
    rw [hs, e0, e1]
    simp [chunkPayload]

/-- C21, as amended. Chunks of an indefinite-length string: over an indefinite-length
byte string (marker `0x5f`) or text string (marker `0x7f`), `DecodeBytes` succeeds only
if what follows the marker is a sequence of chunks, each a well-formed definite-length
frame of major type 2 or 3 (of either string type, whatever the marker) with its
payload, and then the break byte; it then returns the payloads concatenated and leaves
what follows the break unread. Conversely it succeeds on every such sequence, and a
chunk descriptor of any other major type (other than the break byte) is the decode error
of `decAppendIndefiniteBytes`. The input is a sequence of bytes. -/
theorem DecodeBytes_indefinite_chunks (h : CborHandle) (p : List Nat) (br : Bool)
    (bd0 : Nat) (st : Bool) (bs : Option (List Nat)) (zerocopy : Bool) (m : Nat)
    (hm : m = 0x5f ∨ m = 0x7f) :
    (∀ (s : List Nat) (out : Option (List Nat)) (d1 : cborDecDriver),
      (∀ x ∈ s, x < 256) →
      cborDecDriver.DecodeBytes bs zerocopy ⟨h, ⟨p, m :: s⟩, br, false, bd0, st⟩
        = (Except.ok out, d1) →
      ∃ chunks : List (List Nat × List Nat),
        s = chunkBytes chunks ++ 0xff :: d1.r.rest ∧ (∀ c ∈ chunks, stringChunk c) ∧
        out = some (chunkPayload chunks)) ∧
    (∀ (chunks : List (List Nat × List Nat)) (rest : List Nat),
      (∀ c ∈ chunks, stringChunk c ∧ c.2.length < 2 ^ 63) →
      ∃ d1 : cborDecDriver,
        cborDecDriver.DecodeBytes bs zerocopy
            ⟨h, ⟨p, m :: (chunkBytes chunks ++ 0xff :: rest)⟩, br, false, bd0, st⟩
          = (Except.ok (some (chunkPayload chunks)), d1) ∧
        d1.r.rest = rest ∧ d1.bdRead = false) ∧
    (∀ (chunks : List (List Nat × List Nat)) (b : Nat) (t : List Nat),
      (∀ c ∈ chunks, stringChunk c ∧ c.2.length < 2 ^ 63) →
      b ≠ 0xff → b >>> 5 ≠ cborMajorBytes → b >>> 5 ≠ cborMajorString →
      (cborDecDriver.DecodeBytes bs zerocopy
          ⟨h, ⟨p, m :: (chunkBytes chunks ++ b :: t)⟩, br, false, bd0, st⟩).1
        = Except.error (DecErr.badChunk (b >>> 5) b)) := by
  have hfuel : ∀ (chunks : List (List Nat × List Nat)) (s : List Nat),
      (∀ c ∈ chunks, stringChunk c ∧ c.2.length < 2 ^ 63) →
      ∃ (fuel1 : Nat) (p1 : List Nat) (bd1 : Nat),
        cborDecDriver.decAppendIndefiniteBytesLoop ((chunkBytes chunks ++ s).length + 1) []
            ⟨h, ⟨m :: p, chunkBytes chunks ++ s⟩, br, false, m, st⟩
          = cborDecDriver.decAppendIndefiniteBytesLoop (fuel1 + 1) (chunkPayload chunks)
              ⟨h, ⟨p1, s⟩, br, false, bd1, st⟩ := by
    intro chunks s hc
    have hle := chunks_length_le chunks (fun c hcm => (hc c hcm).1)
    obtain ⟨fuel1, p1, bd1, e⟩ := decAppendIndefiniteBytesLoop_prefix h s br st chunks hc
      ((chunkBytes chunks ++ s).length + 1) [] (m :: p) m
      (by simp only [List.length_append]; omega)
    exact ⟨fuel1, p1, bd1, by rw [e, List.nil_append]⟩
  refine ⟨?_, ?_, ?_⟩
  · intro s out d1 hbytes he
    rw [DecodeBytes_indefinite_loop h p s br bd0 st m hm bs zerocopy] at he
    obtain ⟨o, d2, e1, e2⟩ := bind_ok_inv he
    rw [modifyD_bind, pure_apply] at e2
    obtain ⟨ho, hd⟩ := Prod.mk.inj e2
    have ho1 := Except.ok.inj ho
    subst hd
    subst ho1
    obtain ⟨chunks, hc1, hc2, hc3⟩ :=
      decAppendIndefiniteBytesLoop_inv h br st _ [] (m :: p) s m o d2 hbytes e1
    exact ⟨chunks, hc1, hc2, by rw [hc3, List.nil_append]⟩
  · intro chunks rest hc
    obtain ⟨fuel1, p1, bd1, e⟩ := hfuel chunks (0xff :: rest) hc
    rw [DecodeBytes_indefinite_loop h p _ br bd0 st m hm bs zerocopy, bind_congr_apply e,
      bind_ok (decAppendIndefiniteBytesLoop_break h p1 rest br bd1 st _ fuel1)]
    exact ⟨⟨h, ⟨0xff :: p1, rest⟩, br, false, 0xff, st⟩, rfl, rfl, rfl⟩
  · intro chunks b t hc hb h2 h3
    obtain ⟨fuel1, p1, bd1, e⟩ := hfuel chunks (b :: t) hc
    rw [DecodeBytes_indefinite_loop h p _ br bd0 st m hm bs zerocopy]
    apply bind_error_fst
    rw [e]
    unfold cborDecDriver.decAppendIndefiniteBytesLoop
    rw [bind_ok (CheckBreak_other h p1 t b br bd1 st hb)]
    simp only [Bool.false_eq_true, if_false]
    rw [getD_bind]
    dsimp only
    rw [if_pos ⟨h2, h3⟩]
    rfl

/-- Counterexample to C21 as stated: in the stream `5f 61 41 ff` the only chunk of the
indefinite-length byte string is the text-string frame `61` (major type 3, not 2) with
the payload `41`, and `DecodeBytes` succeeds and returns that payload. -/
theorem DecodeBytes_indefinite_chunks_counterexample :
    wfFrame cborMajorString [0x61] ∧ ¬wfFrame cborMajorBytes [0x61] ∧
    cborDecDriver.DecodeBytes none false
        ((⟨false, false, false⟩ : CborHandle).newDecDriver true [0x5f, 0x61, 0x41, 0xff])
      = (Except.ok (some [0x41]),
          ⟨⟨false, false, false⟩, ⟨[0xff, 0x41, 0x61, 0x5f], []⟩, true, false, 0xff, false⟩) :=
  ⟨by decide, by decide, by rfl⟩

/-- Witness of C21: the marker `0x5f`, one byte-string chunk `42 01 02` and one
text-string chunk `61 41`, then the break byte. -/
theorem DecodeBytes_indefinite_chunks_witness :
    ((0x5f : Nat) = 0x5f ∨ (0x5f : Nat) = 0x7f) ∧
    (∀ c ∈ [([0x42], [0x01, 0x02]), ([0x61], [0x41])], stringChunk c ∧ c.2.length < 2 ^ 63) ∧
    ∃ d1 : cborDecDriver,
      cborDecDriver.DecodeBytes none false
          ⟨⟨false, false, false⟩,
            ⟨[], 0x5f :: (chunkBytes [([0x42], [0x01, 0x02]), ([0x61], [0x41])]
              ++ 0xff :: [0x07])⟩, true, false, 0, false⟩
        = (Except.ok (some (chunkPayload [([0x42], [0x01, 0x02]), ([0x61], [0x41])])), d1) ∧
      d1.r.rest = [0x07] ∧ d1.bdRead = false :=
  ⟨Or.inl rfl, by decide,
    (DecodeBytes_indefinite_chunks ⟨false, false, false⟩ [] true 0 false none false 0x5f
      (Or.inl rfl)).2.1 [([0x42], [0x01, 0x02]), ([0x61], [0x41])] [0x07] (by decide)⟩

end Cbor
